import Mathlib

/-!
# gv: repository observation engine

A shallow embedding of the porcelain-v2 status parser
(`internal/status/porcelain.go`) and of the change poller
(`internal/watcher/poller.go`), with the properties the specification
states about them.

Go strings are byte sequences: `len`, indexing and slicing all count bytes.
They are modelled as lists of bytes, and the word "character" in a property
about a string offset means one byte, as it does in the Go code.
Go `int` is taken to be 64 bits wide.  The counters of the status record are
integers without wrap-around: each counted line takes at least two bytes of an
input whose length fits an `int`, so no counter can overflow.
-/

namespace Gv

/-! ## Go strings and the library functions the parser calls -/

/-- A Go string: an immutable sequence of bytes. -/
abbrev GoString := List UInt8

/-- The bytes (UTF-8) of a string literal. -/
def str (s : String) : GoString := s.data.flatMap String.utf8EncodeChar

/-- Run-time panics a string index or slice expression can raise. -/
inductive Panic where
  | indexOutOfRange
  | sliceOutOfRange
  deriving DecidableEq, Repr

/-- Go `s[i]`: panics unless `i < len(s)`. -/
def index (s : GoString) (i : Nat) : Except Panic UInt8 :=
  match s.get? i with
  | some b => .ok b
  | none => .error .indexOutOfRange

/-- Go `s[lo:hi]`: panics unless `lo <= hi <= len(s)`. -/
def slice (s : GoString) (lo hi : Nat) : Except Panic GoString :=
  if lo ≤ hi ∧ hi ≤ s.length then .ok ((s.take hi).drop lo) else .error .sliceOutOfRange

/-- Go `s[lo:]`, that is `s[lo:len(s)]`. -/
def sliceFrom (s : GoString) (lo : Nat) : Except Panic GoString :=
  slice s lo s.length

/-- Go `xs[i]` on a slice of strings: panics unless `i < len(xs)`. -/
def indexParts (xs : List GoString) (i : Nat) : Except Panic GoString :=
  match xs.get? i with
  | some x => .ok x
  | none => .error .indexOutOfRange

/-- `strings.HasPrefix`. -/
def hasPrefix (s pre : GoString) : Bool := pre.isPrefixOf s

/-- The text before and after the first occurrence of the byte `sep`, if any. -/
def cut (sep : UInt8) : GoString → Option (GoString × GoString)
  | [] => none
  | c :: cs =>
    if c = sep then some ([], cs)
    else match cut sep cs with
      | some (a, b) => some (c :: a, b)
      | none => none

/-- `strings.SplitN(s, sep, n)` for a one-byte separator and `n >= 0`: at most
`n` substrings, the last one being the unsplit remainder. -/
def splitN (sep : UInt8) : Nat → GoString → List GoString
  | 0, _ => []
  | 1, s => [s]
  | n + 2, s =>
    match cut sep s with
    | none => [s]
    | some (a, b) => a :: splitN sep (n + 1) b

/-- `strings.Split(s, sep)` for a one-byte separator: `SplitN` with
`Count(s, sep) + 1` pieces, as in the library. -/
def split (sep : UInt8) (s : GoString) : List GoString :=
  splitN sep (s.count sep + 1) s

/-- Width in bytes of the white-space rune (`unicode.IsSpace`) whose UTF-8
encoding starts the string, or `0` when the string does not start with one.
The white-space runes are U+0009..U+000D, U+0020, U+0085, U+00A0, U+1680,
U+2000..U+200A, U+2028, U+2029, U+202F, U+205F and U+3000. -/
def spaceWidth : GoString → Nat
  | [] => 0
  | b0 :: rest =>
    if b0 = 9 ∨ b0 = 10 ∨ b0 = 11 ∨ b0 = 12 ∨ b0 = 13 ∨ b0 = 32 then 1
    else match rest with
      | [] => 0
      | b1 :: rest1 =>
        if b0 = 0xC2 ∧ (b1 = 0x85 ∨ b1 = 0xA0) then 2
        else match rest1 with
          | [] => 0
          | b2 :: _ =>
            if b0 = 0xE1 ∧ b1 = 0x9A ∧ b2 = 0x80 then 3
            else if b0 = 0xE2 ∧ b1 = 0x80 ∧
                ((0x80 ≤ b2 ∧ b2 ≤ 0x8A) ∨ b2 = 0xA8 ∨ b2 = 0xA9 ∨ b2 = 0xAF) then 3
            else if b0 = 0xE2 ∧ b1 = 0x81 ∧ b2 = 0x9F then 3
            else if b0 = 0xE3 ∧ b1 = 0x80 ∧ b2 = 0x80 then 3
            else 0

/-- Loop of `strings.Fields`: `skip` counts the bytes still to pass of the
white-space rune being read and `cur` is the field read so far.  The encoding
of a white-space rune never starts on a continuation byte, so testing every
byte offset finds the same runes as decoding the string rune by rune. -/
def fieldsAux : Nat → GoString → GoString → List GoString
  | _, cur, [] => if cur = [] then [] else [cur]
  | skip + 1, cur, _ :: cs => fieldsAux skip cur cs
  | 0, cur, c :: cs =>
    match spaceWidth (c :: cs) with
    | 0 => fieldsAux 0 (cur ++ [c]) cs
    | w + 1 => (if cur = [] then [] else [cur]) ++ fieldsAux w [] cs

/-- `strings.Fields`: the maximal runs of bytes between white space. -/
def fields (s : GoString) : List GoString := fieldsAux 0 [] s

/-- A Go `error` value. -/
structure GoError where
  msg : GoString
  deriving DecidableEq, Repr

/-- Whether the byte is an ASCII decimal digit. -/
def isDigit (b : UInt8) : Bool := decide (48 ≤ b) && decide (b ≤ 57)

/-- Value of a string of decimal digits. -/
def digitsVal (s : GoString) : Nat :=
  s.foldl (fun n b => n * 10 + (b.toNat - 48)) 0

/-- Errors of `strconv.Atoi`. -/
inductive NumError where
  | errSyntax
  | errRange
  deriving DecidableEq, Repr

/-- Largest Go `int` plus one (64-bit `int`). -/
def intCutoff : Nat := 2 ^ 63

/-- Largest `uint64`. -/
def uintMax : Nat := 2 ^ 64 - 1

/-- The loop of `strconv.ParseUint(s, 10, 64)` over the bytes, `n` being the
value read so far: a byte that is not a digit is a syntax error, and a digit
that takes the value beyond `uint64` ends the loop with the largest `uint64`
and a range error, whatever follows it. -/
def parseUintLoop : GoString → Nat → Nat × Option NumError
  | [], n => (n, none)
  | c :: cs, n =>
    if isDigit c then
      if uintMax / 10 + 1 ≤ n then (uintMax, some .errRange)
      else if uintMax < n * 10 + (c.toNat - 48) then (uintMax, some .errRange)
      else parseUintLoop cs (n * 10 + (c.toNat - 48))
    else (0, some .errSyntax)

/-- `strconv.ParseUint(s, 10, 64)`. -/
def ParseUint (s : GoString) : Nat × Option NumError :=
  if s = [] then (0, some .errSyntax) else parseUintLoop s 0

/-- `strconv.Atoi` on a 64-bit `int`, that is `strconv.ParseInt(s, 10, 0)`: a
leading sign is picked off and the rest goes to `ParseUint`.  A syntax error
gives 0; a value outside the `int` range, or a range error of `ParseUint`,
gives the nearest bound together with a range error. -/
def Atoi (s : GoString) : Int × Option NumError :=
  match s with
  | [] => (0, some .errSyntax)
  | b :: r =>
    let neg : Bool := decide (b = 45)
    let body : GoString := if b = 45 ∨ b = 43 then r else s
    let un := ParseUint body
    if un.2 = some .errSyntax then (0, some .errSyntax)
    else if neg = false ∧ intCutoff ≤ un.1 then ((intCutoff : Int) - 1, some .errRange)
    else if neg = true ∧ intCutoff < un.1 then (-(intCutoff : Int), some .errRange)
    else (if neg then -(un.1 : Int) else (un.1 : Int), none)

/-! ## Repository model (`internal/model/repo.go`) -/

/-- Go `time.Time`, as seconds since the Unix epoch. -/
abbrev GoTime := Int

/-- The zero `time.Time`: January 1, year 1, 00:00:00 UTC. -/
def GoTime.zero : GoTime := -62135596800

/-- The record `model.RepoStatus`. -/
structure RepoStatus where
  Branch : GoString := []
  DetachedHead : Bool := false
  CommitHash : GoString := []
  Staged : Int := 0
  Modified : Int := 0
  Untracked : Int := 0
  Remote : GoString := []
  Owner : GoString := []
  Ahead : Int := 0
  Behind : Int := 0
  Stashes : Int := 0
  MergeHead : Bool := false
  RebaseHead : Bool := false
  CherryPick : Bool := false
  Reverting : Bool := false
  Bisecting : Bool := false
  LastCommit : GoTime := GoTime.zero
  LastModified : GoTime := GoTime.zero
  Aliases : List (GoString × GoString) := []
  deriving DecidableEq, Repr

/-! ## Porcelain v2 parser (`internal/status/porcelain.go`) -/

/-- Loop body of the `branch.ab` case of `parseHeaderLine`. -/
def abStep (status : RepoStatus) (p : GoString) : Except Panic RepoStatus :=
  if hasPrefix p (str "+") then do
    let t ← sliceFrom p 1
    pure { status with Ahead := (Atoi t).1 }
  else if hasPrefix p (str "-") then do
    let t ← sliceFrom p 1
    pure { status with Behind := (Atoi t).1 }
  else pure status

/-- Embedding of `parseHeaderLine`. -/
def parseHeaderLine (line : GoString) (status : RepoStatus) : Except Panic RepoStatus :=
  let parts := splitN 32 3 line
  if parts.length < 3 then pure status
  else do
    let key ← indexParts parts 1
    let value ← indexParts parts 2
    if key = str "branch.oid" then
      if value.length ≥ 7 then do
        let h ← slice value 0 7
        pure { status with CommitHash := h }
      else pure status
    else if key = str "branch.head" then
      if value = str "(detached)" then pure { status with DetachedHead := true }
      else pure { status with Branch := value }
    else if key = str "branch.upstream" then pure { status with Remote := value }
    else if key = str "branch.ab" then (fields value).foldlM abStep status
    else pure status

/-- Embedding of `parseChangeLine`. -/
def parseChangeLine (line : GoString) (status : RepoStatus) : Except Panic RepoStatus :=
  if line.length < 4 then pure status
  else do
    let xy ← slice line 2 4
    let indexStatus ← index xy 0
    let worktreeStatus ← index xy 1
    let status1 : RepoStatus :=
      if indexStatus ≠ 46 ∧ indexStatus ≠ 63 then { status with Staged := status.Staged + 1 }
      else status
    let status2 : RepoStatus :=
      if worktreeStatus ≠ 46 ∧ worktreeStatus ≠ 63 then
        { status1 with Modified := status1.Modified + 1 }
      else status1
    pure status2

/-- Body of the loop over the lines in `parsePorcelainV2`. -/
def lineStep (status : RepoStatus) (line : GoString) : Except Panic RepoStatus :=
  if line = [] then pure status
  else if hasPrefix line (str "# ") then parseHeaderLine line status
  else if hasPrefix line (str "1 ") || hasPrefix line (str "2 ") then parseChangeLine line status
  else if hasPrefix line (str "? ") then pure { status with Untracked := status.Untracked + 1 }
  else if hasPrefix line (str "! ") then pure status
  else if hasPrefix line (str "u ") then pure { status with Modified := status.Modified + 1 }
  else pure status

/-- The loop of `parsePorcelainV2` over already split lines. -/
def parseLines (lines : List GoString) : Except Panic RepoStatus :=
  lines.foldlM lineStep {}

/-- Embedding of `parsePorcelainV2`: the status record and the returned
error (`none` is Go `nil`), or the panic that aborted the call. -/
def parsePorcelainV2 (output : GoString) : Except Panic (RepoStatus × Option GoError) := do
  let status ← parseLines (split 10 output)
  pure (status, none)



/-! ## Change poller (`internal/watcher/poller.go`)

The poller state is the watched map and the content of the buffered event
channel.  The model covers the poller while the channel is open, that is
before `Close`.  Everything outside the poller that a call depends on is an
explicit argument: the outcome of the git commands (`Git`) and, for a poll
pass, the scheduling of the workers, the clock and the consumer of the
channel (`Sched`). -/

/-- The struct `Event`. -/
structure Event where
  RepoPath : GoString
  Time : GoTime
  StatusOutput : GoString
  deriving DecidableEq, Repr

/-- A Go `map[string]string`: an association list with one entry per key. -/
abbrev GoMap := List (GoString × GoString)

/-- Map read `m[k]` with the comma-ok flag: `none` when the key is absent. -/
def mapGet : GoMap → GoString → Option GoString
  | [], _ => none
  | (k, v) :: m, x => if k = x then some v else mapGet m x

/-- Map write `m[k] = v`. -/
def mapSet : GoMap → GoString → GoString → GoMap
  | [], x, v => [(x, v)]
  | (k, w) :: m, x, v => if k = x then (k, v) :: m else (k, w) :: mapSet m x v

/-- Map removal `delete(m, k)`. -/
def mapDelete (m : GoMap) (x : GoString) : GoMap :=
  m.filter (fun e => decide (e.1 ≠ x))

/-- The keys of a map. -/
def mapKeys (m : GoMap) : List GoString := m.map Prod.fst

/-- Capacity of the event channel made by `NewPoller`. -/
def eventCap : Nat := 100

/-- One second, in nanoseconds (`time.Second`). -/
def second : Int := 1000000000

/-- The struct `Poller`: the polling interval, the events buffered in the
channel (oldest first) and the map from path to the hash of the last status
output. -/
structure Poller where
  interval : Int
  events : List Event
  repos : GoMap
  deriving DecidableEq, Repr

/-- Embedding of `NewPoller`. -/
def NewPoller (interval : Int) : Poller :=
  { interval := if interval < second then second else interval, events := [], repos := [] }

/-- Outcome of the git commands run for a path: the output of
`git status --porcelain=v2 --branch` (`none` when the command fails), the
output of `git rev-parse refs/stash` (its error is ignored by the caller), and
the hex-encoded SHA-256 digest function. -/
structure Git where
  status : GoString → Option GoString
  stash : GoString → GoString
  sha256Hex : GoString → GoString

/-- Embedding of `getStatusHash`: the hash and the raw status output; an empty
hash and a nil output when the status command fails. -/
def getStatusHash (git : Git) (repoPath : GoString) : GoString × GoString :=
  match git.status repoPath with
  | none => ([], [])
  | some output => (git.sha256Hex (output ++ git.stash repoPath), output)

/-- The write-locked part of `Watch`: registers the hash unless the path is
present by now. -/
def watchCommit (p : Poller) (repoPath hash : GoString) : Poller :=
  if (mapGet p.repos repoPath).isSome then p
  else { p with repos := mapSet p.repos repoPath hash }

/-- Embedding of `Watch`, run without interference between its two critical
sections: the new state and the returned error (`none` is Go `nil`). -/
def Watch (git : Git) (p : Poller) (repoPath : GoString) : Poller × Option GoError :=
  if (mapGet p.repos repoPath).isSome then (p, none)
  else (watchCommit p repoPath (getStatusHash git repoPath).1, none)

/-- Embedding of `Unwatch`. -/
def Unwatch (p : Poller) (repoPath : GoString) : Poller :=
  { p with repos := mapDelete p.repos repoPath }

/-- The local struct `change` of `poll`. -/
structure Change where
  path : GoString
  newHash : GoString
  output : GoString
  deriving DecidableEq, Repr

/-- What happens around a poll pass, per path: whether the worker saw the
context cancelled before it got a semaphore slot, the clock reading when the
event is built, and how many events the consumer took off the channel just
before the send is attempted. -/
structure Sched where
  ctxDone : GoString → Bool
  now : GoString → GoTime
  received : GoString → Nat

/-- The goroutine `poll` starts for one snapshot entry: the change it appends,
if any. -/
def worker (git : Git) (ctxDone : GoString → Bool) (path last : GoString) : Option Change :=
  if ctxDone path then none
  else
    let r := getStatusHash git path
    if r.1 = [] then none
    else if r.1 ≠ last then some { path := path, newHash := r.1, output := r.2 }
    else none

/-- The changes collected from a snapshot, in the order of the snapshot.  The
goroutines append in any order: a pass works on a permutation of this list. -/
def pollChanges (git : Git) (ctxDone : GoString → Bool) (snapshot : GoMap) : List Change :=
  snapshot.filterMap (fun e => worker git ctxDone e.1 e.2)

/-- Record of one delivery attempt: the change and the event that was enqueued,
`none` when the channel was full and the event dropped. -/
structure Delivery where
  change : Change
  event : Option Event
  deriving DecidableEq, Repr

/-- The event `poll` builds for a change. -/
def eventOf (sc : Sched) (c : Change) : Event :=
  { RepoPath := c.path, Time := sc.now c.path, StatusOutput := c.output }

/-- One iteration of the delivery loop of `poll`: a non-blocking send, and the
hash update when the send succeeded and the path is still watched. -/
def deliverOne (sc : Sched) (p : Poller) (c : Change) : Poller × Delivery :=
  let queue := p.events.drop (sc.received c.path)
  if queue.length < eventCap then
    let repos := if (mapGet p.repos c.path).isSome then mapSet p.repos c.path c.newHash
      else p.repos
    ({ p with events := queue ++ [eventOf sc c], repos := repos },
      { change := c, event := some (eventOf sc c) })
  else
    ({ p with events := queue }, { change := c, event := none })

/-- The delivery loop of `poll`, run under the write lock: the new state and
the record of the delivery attempts, in order. -/
def deliverLoop (sc : Sched) : Poller → List Change → Poller × List Delivery
  | p, [] => (p, [])
  | p, c :: cs =>
    let r1 := deliverOne sc p c
    let r2 := deliverLoop sc r1.1 cs
    (r2.1, r1.2 :: r2.2)

/-- The part of `poll` after `wg.Wait()`: nothing when there is no change,
else the delivery loop. -/
def pollDeliver (sc : Sched) (p : Poller) (changes : List Change) : Poller × List Delivery :=
  if changes.length = 0 then (p, [])
  else deliverLoop sc p changes

/-- Embedding of `poll` run without interference: snapshot, collection and
delivery, the changes being taken in snapshot order. -/
def poll (git : Git) (sc : Sched) (p : Poller) : Poller × List Delivery :=
  pollDeliver sc p (pollChanges git sc.ctxDone p.repos)

/-- The events enqueued by a pass. -/
def sentEvents (log : List Delivery) : List Event := log.filterMap (fun d => d.event)


/-! ## Predicates used to state the properties -/

/-- Tracked-entry line: prefix `1 ` or `2 `. -/
def trackedLine (line : GoString) : Bool :=
  hasPrefix line (str "1 ") || hasPrefix line (str "2 ")

/-- Whether the byte at offset `i` exists and is neither `.` nor `?`. -/
def statusSet (line : GoString) (i : Nat) : Bool :=
  match line.get? i with
  | some c => decide (c ≠ 46) && decide (c ≠ 63)
  | none => false

/-- Tracked-entry line of at least 4 bytes whose index-status byte (offset 2)
is neither `.` nor `?`. -/
def stagedLine (line : GoString) : Bool :=
  trackedLine line && decide (4 ≤ line.length) && statusSet line 2

/-- Tracked-entry line of at least 4 bytes whose worktree-status byte
(offset 3) is neither `.` nor `?`. -/
def modifiedLine (line : GoString) : Bool :=
  trackedLine line && decide (4 ≤ line.length) && statusSet line 3

/-- Unmerged line: prefix `u `. -/
def unmergedLine (line : GoString) : Bool := hasPrefix line (str "u ")

/-- Untracked line: prefix `? `. -/
def untrackedLine (line : GoString) : Bool := hasPrefix line (str "? ")

/-- Ignored line: prefix `! `. -/
def ignoredLine (line : GoString) : Bool := hasPrefix line (str "! ")

/-- Two records agree on every field `parseHeaderLine` never writes. -/
def sameCounts (s t : RepoStatus) : Prop :=
  t.Staged = s.Staged ∧ t.Modified = s.Modified ∧ t.Untracked = s.Untracked

/-- The number 1 when the condition holds and 0 otherwise. -/
def one (b : Bool) : Int := if b then 1 else 0

/-- The header line `# <key> <value>`. -/
def headerLine (key value : GoString) : GoString := 35 :: 32 :: (key ++ 32 :: value)

/-- Whether the line is a header with the given key: it starts with `# <key> `. -/
def isHeaderOf (key line : GoString) : Bool := hasPrefix line (35 :: 32 :: (key ++ [32]))

/-- The lines hold exactly one header with the given key, and its value is `value`. -/
def onlyHeader (key value : GoString) (lines : List GoString) : Prop :=
  ∃ pre post, lines = pre ++ headerLine key value :: post ∧
    ∀ l ∈ pre ++ post, isHeaderOf key l = false

/-- The last white-space separated token of `value` that starts with `sign`. -/
def lastToken (sign : UInt8) (value : GoString) : Option GoString :=
  (fields value).reverse.find? (fun p => hasPrefix p [sign])

/-- Sample git outcome: the status command prints `out` for every path, there
is no stash, and the digest is a stand-in that tags its input. -/
def demoGit (out : GoString) : Git :=
  { status := fun _ => some out, stash := fun _ => [], sha256Hex := fun x => str "sha:" ++ x }

/-- Sample git outcome in which the status command fails for every path. -/
def demoGitFailing : Git :=
  { status := fun _ => none, stash := fun _ => [], sha256Hex := fun x => str "sha:" ++ x }

/-- Sample schedule: no cancellation, clock at 0, idle consumer. -/
def demoSched : Sched :=
  { ctxDone := fun _ => false, now := fun _ => 0, received := fun _ => 0 }

/-- Sample poller watching `/repo`, last seen with the status output `clean`. -/
def demoPoller : Poller :=
  { interval := second, events := [], repos := [(str "/repo", str "sha:clean")] }

/-- Sample poller watching `/repo` whose event channel is full. -/
def demoPollerFull : Poller :=
  { demoPoller with events := List.replicate 100 { RepoPath := [], Time := 0, StatusOutput := [] } }

/-! ## More library functions: trimming, searching, integer arithmetic -/

/-- Width in bytes of the white-space rune whose encoding ends the string, or
`0` when the string does not end with one. -/
def trailingWidth (s : GoString) : Nat :=
  if 1 ≤ s.length ∧ spaceWidth (s.drop (s.length - 1)) = 1 then 1
  else if 2 ≤ s.length ∧ spaceWidth (s.drop (s.length - 2)) = 2 then 2
  else if 3 ≤ s.length ∧ spaceWidth (s.drop (s.length - 3)) = 3 then 3
  else 0

/-- Loop of `strings.TrimLeftFunc(s, unicode.IsSpace)`, at most `fuel` runes. -/
def trimLeftFuel : Nat → GoString → GoString
  | 0, s => s
  | fuel + 1, s => if spaceWidth s = 0 then s else trimLeftFuel fuel (s.drop (spaceWidth s))

/-- Loop of `strings.TrimRightFunc(s, unicode.IsSpace)`, at most `fuel` runes. -/
def trimRightFuel : Nat → GoString → GoString
  | 0, s => s
  | fuel + 1, s =>
    if trailingWidth s = 0 then s else trimRightFuel fuel (s.take (s.length - trailingWidth s))

/-- The string without its leading white space. -/
def trimLeft (s : GoString) : GoString := trimLeftFuel s.length s

/-- The string without its trailing white space. -/
def trimRight (s : GoString) : GoString := trimRightFuel s.length s

/-- `strings.TrimSpace`: leading and trailing white space (`unicode.IsSpace`)
removed. -/
def TrimSpace (s : GoString) : GoString := trimRight (trimLeft s)

/-- `strings.TrimPrefix`. -/
def TrimPrefix (s pre : GoString) : GoString :=
  if hasPrefix s pre then s.drop pre.length else s

/-- `strings.Contains(s, sub)` for a one-byte `sub`. -/
def containsByte (s : GoString) (b : UInt8) : Bool := s.elem b

/-- `strings.Index(s, sub)` for a one-byte `sub`: the first offset of the byte,
or -1. -/
def indexByte : GoString → UInt8 → Int
  | [], _ => -1
  | c :: cs, b => if c = b then 0 else
    let r := indexByte cs b
    if r = -1 then -1 else r + 1

/-- A value reduced to the range of a 64-bit Go `int` (two's complement). -/
def wrapInt (x : Int) : Int := (x + 9223372036854775808) % 18446744073709551616 - 9223372036854775808

/-- Go `a + b` on `int`. -/
def addInt (a b : Int) : Int := wrapInt (a + b)

/-- Go `a - b` on `int`. -/
def subInt (a b : Int) : Int := wrapInt (a - b)

/-- `strconv.ParseInt(s, 10, 64)`: the same syntax and range as `Atoi` on a
64-bit `int`. -/
def ParseInt (s : GoString) : Int × Option NumError := Atoi s

/-! ## Status reader (`internal/status/git.go`) -/

/-- Embedding of `countLines`. -/
def countLines (s : GoString) : Int :=
  let t := TrimSpace s
  if t = [] then 0 else (t.count 10 : Nat) + 1

/-- The SSH-shorthand branch of `parseOwnerFromURL`: the value it returns, or
`none` when the function goes on to the URL forms. -/
def ownerShorthand (url : GoString) : Except Panic (Option GoString) :=
  if containsByte url 64 && containsByte url 58 && !hasPrefix url (str "ssh://") then
    let parts := splitN 58 2 url
    if parts.length = 2 then do
      let p0 ← indexParts parts 0
      if !containsByte p0 47 then do
        let p1 ← indexParts parts 1
        let pathParts := split 47 p1
        if pathParts.length ≥ 1 then do
          let r ← indexParts pathParts 0
          pure (some r)
        else pure none
      else pure none
    else pure none
  else pure none

/-- The rest of `parseOwnerFromURL`: scheme prefixes and userinfo stripped,
then the second `/`-separated segment. -/
def ownerFromPath (url : GoString) : Except Panic GoString := do
  let url1 := TrimPrefix url (str "ssh://")
  let url2 := TrimPrefix url1 (str "https://")
  let url3 := TrimPrefix url2 (str "http://")
  let idx := indexByte url3 64
  let url4 ← if idx ≠ -1 then sliceFrom url3 (idx + 1).toNat else pure url3
  let parts := split 47 url4
  if parts.length ≥ 2 then indexParts parts 1 else pure []

/-- Embedding of `parseOwnerFromURL`. -/
def parseOwnerFromURL (url : GoString) : Except Panic GoString := do
  match ← ownerShorthand url with
  | some r => pure r
  | none => ownerFromPath url

/-- Outcome of the git subprocesses: for a repository path and an argument
list, the standard output, or the error of a failed or timed-out command. -/
structure Runner where
  exec : GoString → List GoString → Except GoError GoString

/-- Embedding of `runGit`: the output and a nil error, or the empty string and
the error. -/
def runGit (r : Runner) (repoPath : GoString) (args : List GoString) :
    GoString × Option GoError :=
  match r.exec repoPath args with
  | .ok out => (out, none)
  | .error e => ([], some e)

/-- The file system as `checkSpecialStates` sees it: `os.Stat` (`none` on
error, else whether the path is a directory), `os.ReadFile` (`none` on error)
and `filepath.Join` of two elements. -/
structure FileSys where
  stat : GoString → Option Bool
  readFile : GoString → Option GoString
  join : GoString → GoString → GoString

/-- The directory `checkSpecialStates` looks into: `<repo>/.git`, or the target
of the `gitdir:` line when `.git` is a file (a linked worktree). -/
def specialGitDir (fs : FileSys) (repoPath : GoString) : GoString :=
  let gitDir := fs.join repoPath (str ".git")
  match fs.stat gitDir with
  | some false =>
    match fs.readFile gitDir with
    | some content =>
      let line := TrimSpace content
      if hasPrefix line (str "gitdir:") then TrimSpace (TrimPrefix line (str "gitdir:"))
      else gitDir
    | none => gitDir
  | _ => gitDir

/-- The flag updates of `checkSpecialStates`, given which of the six marker
paths exist: the four `checks` in order, then the first of the two rebase
paths that exists. -/
def markSpecial (merge cherry revert bisect rebaseMerge rebaseApply : Bool)
    (status : RepoStatus) : RepoStatus :=
  let s1 : RepoStatus := if merge then { status with MergeHead := true } else status
  let s2 : RepoStatus := if cherry then { s1 with CherryPick := true } else s1
  let s3 : RepoStatus := if revert then { s2 with Reverting := true } else s2
  let s4 : RepoStatus := if bisect then { s3 with Bisecting := true } else s3
  if rebaseMerge then { s4 with RebaseHead := true }
  else if rebaseApply then { s4 with RebaseHead := true }
  else s4

/-- Embedding of `checkSpecialStates`; a path exists when `os.Stat` returns no
error. -/
def checkSpecialStates (fs : FileSys) (repoPath : GoString) (status : RepoStatus) : RepoStatus :=
  let gitDir := specialGitDir fs repoPath
  markSpecial
    (fs.stat (fs.join gitDir (str "MERGE_HEAD"))).isSome
    (fs.stat (fs.join gitDir (str "CHERRY_PICK_HEAD"))).isSome
    (fs.stat (fs.join gitDir (str "REVERT_HEAD"))).isSome
    (fs.stat (fs.join gitDir (str "BISECT_LOG"))).isSome
    (fs.stat (fs.join gitDir (str "rebase-merge"))).isSome
    (fs.stat (fs.join gitDir (str "rebase-apply"))).isSome
    status

/-- Arguments of the primary status probe. -/
def statusArgs : List GoString := [str "status", str "--porcelain=v2", str "--branch"]

/-- Arguments of the stash probe. -/
def stashArgs : List GoString := [str "stash", str "list"]

/-- Arguments of the last-commit probe. -/
def lastCommitArgs : List GoString := [str "log", str "-1", str "--format=%ct"]

/-- Arguments of the remote-URL probe. -/
def remoteArgs : List GoString := [str "remote", str "get-url", str "origin"]

/-- Arguments of the fetch probe. -/
def fetchArgs : List GoString := [str "fetch", str "--quiet"]

/-- First supplementary goroutine of `GetStatusFromOutput`: the stash count. -/
def stashStep (r : Runner) (repoPath : GoString) (status : RepoStatus) : RepoStatus :=
  let res := runGit r repoPath stashArgs
  if res.2 = none then { status with Stashes := countLines res.1 } else status

/-- Second supplementary goroutine: the time of the last commit. -/
def lastCommitStep (r : Runner) (repoPath : GoString) (status : RepoStatus) : RepoStatus :=
  let res := runGit r repoPath lastCommitArgs
  if res.2 = none then
    let ts := ParseInt (TrimSpace res.1)
    if ts.2 = none then { status with LastCommit := ts.1 } else status
  else status

/-- Third supplementary goroutine: the owner from the remote URL. -/
def ownerStep (r : Runner) (repoPath : GoString) (status : RepoStatus) :
    Except Panic RepoStatus :=
  let res := runGit r repoPath remoteArgs
  if res.2 = none then do
    let owner ← parseOwnerFromURL (TrimSpace res.1)
    pure { status with Owner := owner }
  else pure status

/-- Embedding of `GetStatusFromOutput`: the status pointer (`none` is nil) and
the error.  The three goroutines and `checkSpecialStates` write disjoint
fields, so they are run here one after the other. -/
def GetStatusFromOutput (r : Runner) (fs : FileSys) (repoPath porcelainOutput : GoString) :
    Except Panic (Option RepoStatus × Option GoError) := do
  let parsed ← parsePorcelainV2 porcelainOutput
  match parsed.2 with
  | some err => pure (none, some err)
  | none =>
    let s1 := stashStep r repoPath parsed.1
    let s2 := lastCommitStep r repoPath s1
    let s3 ← ownerStep r repoPath s2
    pure (some (checkSpecialStates fs repoPath s3), none)

/-- Embedding of `GetStatus`. -/
def GetStatus (r : Runner) (fs : FileSys) (repoPath : GoString) :
    Except Panic (Option RepoStatus × Option GoError) :=
  let res := runGit r repoPath statusArgs
  match res.2 with
  | some err => pure (none, some err)
  | none => GetStatusFromOutput r fs repoPath res.1

/-- Embedding of `Fetch`. -/
def Fetch (r : Runner) (fs : FileSys) (repoPath : GoString) :
    Except Panic (Option RepoStatus × Option GoError) := do
  let fetchErr := (runGit r repoPath fetchArgs).2
  let res ← GetStatus r fs repoPath
  match res.2 with
  | some statusErr => pure (none, some statusErr)
  | none => pure (res.1, fetchErr)

/-! ## Diff statistics (`internal/model/repo.go`, `internal/status/numstat.go`) -/

/-- The struct `model.FileDiffStat`. -/
structure FileDiffStat where
  Path : GoString := []
  Added : Int := 0
  Deleted : Int := 0
  Binary : Bool := false
  deriving DecidableEq, Repr

/-- The struct `model.FileChurnEntry`. -/
structure FileChurnEntry where
  Path : GoString
  Count : Int
  deriving DecidableEq, Repr

/-- Entries of a Go `map[string]int`, one per key. -/
abbrev CountMap := List (GoString × Int)

/-- Map read `m[k]` on a `map[string]int`: the zero value when the key is
absent. -/
def countGet : CountMap → GoString → Int
  | [], _ => 0
  | (k, v) :: m, x => if k = x then v else countGet m x

/-- The statement `m[k]++`. -/
def countIncr : CountMap → GoString → CountMap
  | [], x => [(x, 1)]
  | (k, v) :: m, x => if k = x then (k, v + 1) :: m else (k, v) :: countIncr m x

/-- The struct `model.DiffStats`.  `DailyCommits` is the `[7]int` array as a
list, and `FileChurn` is `none` for the nil map. -/
structure DiffStats where
  UnstagedFiles : List FileDiffStat := []
  UnstagedAdded : Int := 0
  UnstagedDeleted : Int := 0
  StagedFiles : List FileDiffStat := []
  StagedAdded : Int := 0
  StagedDeleted : Int := 0
  TotalAdded : Int := 0
  TotalDeleted : Int := 0
  NetDelta : Int := 0
  DailyCommits : List Int := List.replicate 7 0
  FileChurn : Option CountMap := none
  CollectedAt : GoTime := GoTime.zero
  deriving DecidableEq, Repr

/-- Embedding of `DiffStats.TotalDiffVolume`. -/
def DiffStats.TotalDiffVolume (d : DiffStats) : Int := addInt d.TotalAdded d.TotalDeleted

/-- The comparison `TopChurnFiles` gives to `sort.Slice`, on Go strings: byte-wise
lexicographic order. -/
def strLess (a b : GoString) : Bool := decide (a.map UInt8.toNat < b.map UInt8.toNat)

/-- The `less` function of `TopChurnFiles`. -/
def churnLess (a b : FileChurnEntry) : Bool :=
  if a.Count ≠ b.Count then decide (a.Count > b.Count) else strLess a.Path b.Path

/-- `sort.Slice(entries, less)`: a permutation in which no element is `less`
than an earlier one.  For a strict total order there is one such permutation,
computed here by insertion. -/
def sortSlice (less : FileChurnEntry → FileChurnEntry → Bool) (l : List FileChurnEntry) :
    List FileChurnEntry :=
  l.insertionSort (fun a b => less b a = false)

/-- The entries appended by the `range` loop of `TopChurnFiles`, for the map
entries in iteration order. -/
def churnEntries (iteration : CountMap) : List FileChurnEntry :=
  iteration.map (fun e => { Path := e.1, Count := e.2 })

/-- Embedding of `DiffStats.TopChurnFiles`, given the entries of `FileChurn` in
the order in which the `range` over the map yields them. -/
def TopChurnFiles (iteration : CountMap) (n : Int) : List FileChurnEntry :=
  let sorted := sortSlice churnLess (churnEntries iteration)
  if n > 0 ∧ (sorted.length : Int) > n then sorted.take n.toNat else sorted

/-- Accumulator of the loop of `parseNumstat`: the files and the two totals. -/
structure NumstatAcc where
  files : List FileDiffStat := []
  totalAdded : Int := 0
  totalDeleted : Int := 0
  deriving DecidableEq, Repr

/-- Body of the loop of `parseNumstat`. -/
def numstatStep (acc : NumstatAcc) (rawLine : GoString) : Except Panic NumstatAcc :=
  let line := TrimSpace rawLine
  if line = [] then pure acc
  else
    let parts := splitN 9 3 line
    if parts.length < 3 then pure acc
    else do
      let p0 ← indexParts parts 0
      let p1 ← indexParts parts 1
      let p2 ← indexParts parts 2
      if p0 = str "-" ∧ p1 = str "-" then
        pure { acc with files := acc.files ++ [{ Path := p2, Binary := true }] }
      else
        let added := (Atoi p0).1
        let deleted := (Atoi p1).1
        pure { files := acc.files ++ [{ Path := p2, Added := added, Deleted := deleted }],
               totalAdded := addInt acc.totalAdded added,
               totalDeleted := addInt acc.totalDeleted deleted }

/-- Embedding of `parseNumstat`: the files (`[]` is the nil slice), the lines
added and the lines deleted. -/
def parseNumstat (output : GoString) : Except Panic (List FileDiffStat × Int × Int) :=
  if TrimSpace output = [] then pure ([], 0, 0)
  else do
    let acc ← (split 10 output).foldlM numstatStep {}
    pure (acc.files, acc.totalAdded, acc.totalDeleted)

/-- The reading of `time.Now()`: seconds since the Unix epoch, and the offset
of the local zone in seconds east of UTC (a zone with a fixed offset). -/
structure Clock where
  unix : Int
  offset : Int
  deriving DecidableEq, Repr

/-- `t.Truncate(24 * time.Hour)`: rounds the absolute time down to a multiple
of 24 hours since the zero time, which is a midnight UTC. -/
def truncateDay (t : Int) : Int := t - t % 86400

/-- `t.AddDate(0, 0, days)` in a zone with a fixed offset: the same clock
reading `days` calendar days later. -/
def addDays (t : Int) (days : Int) : Int := t + days * 86400

/-- Year, month and day of the proleptic Gregorian calendar for a day number
counted from 1970-01-01. -/
def civilFromDays (z : Int) : Int × Int × Int :=
  let z1 := z + 719468
  let era := z1 / 146097
  let doe := z1 - era * 146097
  let yoe := (doe - doe / 1460 + doe / 36524 - doe / 146096) / 365
  let doy := doe - (365 * yoe + yoe / 4 - yoe / 100)
  let mp := (5 * doy + 2) / 153
  let d := doy - (153 * mp + 2) / 5 + 1
  let m := if mp < 10 then mp + 3 else mp - 9
  let y := yoe + era * 400 + (if m ≤ 2 then 1 else 0)
  (y, m, d)

/-- Decimal digits of a natural number, zero-padded to `width`. -/
def padNat (width : Nat) (n : Nat) : GoString :=
  let ds := (Nat.toDigits 10 n).map (fun c => UInt8.ofNat c.toNat)
  List.replicate (width - ds.length) 48 ++ ds

/-- Local calendar day number (days since 1970-01-01) of an instant. -/
def localDay (t offset : Int) : Int := (t + offset) / 86400

/-- The text `YYYY-MM-DD` of a day number. -/
def dayText (day : Int) : GoString :=
  let ymd := civilFromDays day
  (if ymd.1 < 0 then str "-" else []) ++ padNat 4 ymd.1.natAbs ++ str "-" ++
    padNat 2 ymd.2.1.toNat ++ str "-" ++ padNat 2 ymd.2.2.toNat

/-- `t.Format("2006-01-02")` in the local zone. -/
def formatDate (t offset : Int) : GoString := dayText (localDay t offset)

/-- The loop of `parseDailyCommits` and `parseFileChurn` over the lines:
`counts[line]++` for every non-blank trimmed line. -/
def countLinesInto (counts : CountMap) (rawLine : GoString) : CountMap :=
  let line := TrimSpace rawLine
  if line = [] then counts else countIncr counts line

/-- Embedding of `parseDailyCommits`: the seven slots. -/
def parseDailyCommits (clk : Clock) (output : GoString) : List Int :=
  if TrimSpace output = [] then List.replicate 7 0
  else
    let today := truncateDay clk.unix
    let counts := (split 10 output).foldl countLinesInto []
    (List.range 7).map (fun i =>
      countGet counts (formatDate (addDays today (-(6 - (i : Int)))) clk.offset))

/-- Embedding of `parseFileChurn`: a map that is never nil. -/
def parseFileChurn (output : GoString) : Option CountMap :=
  if TrimSpace output = [] then some []
  else some ((split 10 output).foldl countLinesInto [])

/-- Arguments of the unstaged-diff probe. -/
def unstagedArgs : List GoString := [str "diff", str "--numstat"]

/-- Arguments of the staged-diff probe. -/
def stagedArgs : List GoString := [str "diff", str "--cached", str "--numstat"]

/-- Arguments of the commit-activity probe. -/
def activityArgs : List GoString :=
  [str "log", str "--since=7.days", str "--format=%cd", str "--date=format:%Y-%m-%d"]

/-- Arguments of the file-churn probe. -/
def churnArgs : List GoString :=
  [str "log", str "--since=7.days", str "--name-only", str "--format="]

/-- Embedding of `GetDiffStats`; `collectedAt` is the clock reading at entry
and `clk` the one taken by `parseDailyCommits`.  The four goroutines write
disjoint fields, so they are run here one after the other. -/
def GetDiffStats (r : Runner) (collectedAt : GoTime) (clk : Clock) (repoPath : GoString) :
    Except Panic DiffStats := do
  let ds0 : DiffStats := { FileChurn := some [], CollectedAt := collectedAt }
  let unstaged := runGit r repoPath unstagedArgs
  let ds1 ← if unstaged.2 = none then do
      let res ← parseNumstat unstaged.1
      pure { ds0 with UnstagedFiles := res.1, UnstagedAdded := res.2.1,
                      UnstagedDeleted := res.2.2 }
    else pure ds0
  let staged := runGit r repoPath stagedArgs
  let ds2 ← if staged.2 = none then do
      let res ← parseNumstat staged.1
      pure { ds1 with StagedFiles := res.1, StagedAdded := res.2.1, StagedDeleted := res.2.2 }
    else pure ds1
  let activity := runGit r repoPath activityArgs
  let ds3 : DiffStats :=
    if activity.2 = none then { ds2 with DailyCommits := parseDailyCommits clk activity.1 }
    else ds2
  let churn := runGit r repoPath churnArgs
  let ds4 : DiffStats :=
    if churn.2 = none then { ds3 with FileChurn := parseFileChurn churn.1 } else ds3
  let totalAdded := addInt ds4.UnstagedAdded ds4.StagedAdded
  let totalDeleted := addInt ds4.UnstagedDeleted ds4.StagedDeleted
  pure { ds4 with TotalAdded := totalAdded, TotalDeleted := totalDeleted,
                  NetDelta := subInt totalAdded totalDeleted }

/-- The entry the loop of `parseNumstat` appends for a line, if any. -/
def numstatEntry (rawLine : GoString) : Option FileDiffStat :=
  match splitN 9 3 (TrimSpace rawLine) with
  | [p0, p1, p2] =>
    if p0 = str "-" ∧ p1 = str "-" then some { Path := p2, Binary := true }
    else some { Path := p2, Added := (Atoi p0).1, Deleted := (Atoi p1).1 }
  | _ => none

/-- Exact sum of `Added` over the entries that are not binary. -/
def sumAdded (files : List FileDiffStat) : Int :=
  ((files.filter (fun f => !f.Binary)).map (fun f => f.Added)).sum

/-- Exact sum of `Deleted` over the entries that are not binary. -/
def sumDeleted (files : List FileDiffStat) : Int :=
  ((files.filter (fun f => !f.Binary)).map (fun f => f.Deleted)).sum

/-- Whether the value lies in the range of a 64-bit Go `int`. -/
def inIntRange (x : Int) : Prop := -9223372036854775808 ≤ x ∧ x < 9223372036854775808

/-- The non-blank lines of an output, trimmed, in input order. -/
def nonBlankLines (output : GoString) : List GoString :=
  ((split 10 output).map TrimSpace).filter (fun l => decide (l ≠ []))

/-- The keys of a `map[string]int`. -/
def countKeys (m : CountMap) : List GoString := m.map Prod.fst

/-- The values of a `map[string]int`. -/
def countValues (m : CountMap) : List Int := m.map Prod.snd

/-- Byte order on strings in words: at the first offset where the two differ
`a` has the smaller byte, or `a` ends there and `b` goes on. -/
def bytesBefore : GoString → GoString → Bool
  | [], [] => false
  | [], _ :: _ => true
  | _ :: _, [] => false
  | x :: xs, y :: ys => decide (x.toNat < y.toNat) || (decide (x = y) && bytesBefore xs ys)

/-- Ranking of `TopChurnFiles` in words: `a` comes no later than `b` when its
count is larger, or the counts are equal and its path is not after that of
`b` in byte order. -/
def ranksBefore (a b : FileChurnEntry) : Prop :=
  b.Count < a.Count ∨ (a.Count = b.Count ∧ (bytesBefore a.Path b.Path = true ∨ a.Path = b.Path))

/-- Sample subprocess outcomes: the two diff probes succeed, the two log
probes fail. -/
def demoRunnerDiff : Runner :=
  { exec := fun _ args =>
      if args = unstagedArgs then .ok (str "10\t5\tsrc/main.go\n")
      else if args = stagedArgs then .ok (str "3\t1\tREADME.md\n-\t-\tlogo.png\n")
      else .error { msg := str "exit status 128" } }

/-- Sample file system: nothing exists. -/
def demoFileSys : FileSys :=
  { stat := fun _ => none, readFile := fun _ => none, join := fun a b => a ++ str "/" ++ b }

/-- Sample subprocess outcomes: the status probe and the remote probe succeed,
every other command (fetch, stash, log, diff) fails. -/
def demoRunner : Runner :=
  { exec := fun _ args =>
      if args = statusArgs then .ok (str "# branch.head main\n? a.txt\n")
      else if args = remoteArgs then .ok (str "git@github.com:acme/repo.git\n")
      else .error { msg := str "exit status 128" } }

/-- Sample subprocess outcomes: every command fails. -/
def demoRunnerFailing : Runner :=
  { exec := fun _ _ => .error { msg := str "exit status 128" } }

/-! ## Repository records (`internal/model/repo.go`) -/

/-- Embedding of `RepoStatus.IsDirty`. -/
def RepoStatus.IsDirty (s : RepoStatus) : Bool :=
  decide (s.Staged > 0) || decide (s.Modified > 0) || decide (s.Untracked > 0)

/-- The struct `Repository`; a nil pointer field is `none`. -/
structure Repository where
  Path : GoString := []
  Name : GoString := []
  IsWorktree : Bool := false
  MainWorktree : GoString := []
  Status : Option RepoStatus := none
  Diff : Option DiffStats := none
  LastScanned : GoTime := GoTime.zero
  deriving DecidableEq, Repr

/-! ## Lexical path functions (`path/filepath` with the separator `/`) -/

/-- `strings.Join(elems, "/")`. -/
def joinSep : List GoString → GoString
  | [] => []
  | [e] => e
  | e :: es => e ++ 47 :: joinSep es

/-- One path element read by `filepath.Clean`, `out` being the elements kept
so far: empty and `.` elements are dropped, `..` removes the element before it
when there is one that is not itself `..`, is dropped at the top of a rooted
path and kept otherwise. -/
def cleanStep (rooted : Bool) (out : List GoString) (e : GoString) : List GoString :=
  if e = [] ∨ e = str "." then out
  else if e = str ".." then
    match out.getLast? with
    | some l => if l = str ".." then out ++ [e] else out.dropLast
    | none => if rooted then out else out ++ [e]
  else out ++ [e]

/-- `filepath.Clean`: the shortest path lexically equivalent to `path`. -/
def Clean (path : GoString) : GoString :=
  if path = [] then str "."
  else
    let rooted := hasPrefix path [47]
    let out := (split 47 path).foldl (cleanStep rooted) []
    let r := (if rooted then [47] else []) ++ joinSep out
    if r = [] then str "." else r

/-- `filepath.Base`: the last element of the path, trailing separators
removed first. -/
def Base (path : GoString) : GoString :=
  if path = [] then str "."
  else
    let p := path.reverse.dropWhile (fun c => decide (c = 47))
    let last := (p.takeWhile (fun c => decide (c ≠ 47))).reverse
    if last = [] then [47] else last

/-- `filepath.Dir`: all but the last element of the path, cleaned. -/
def Dir (path : GoString) : GoString :=
  Clean (path.reverse.dropWhile (fun c => decide (c ≠ 47))).reverse

/-- `filepath.Join`: the non-empty elements joined with the separator and
cleaned; leading empty elements are ignored. -/
def Join (elem : List GoString) : GoString :=
  match elem.dropWhile (fun e => decide (e = [])) with
  | [] => []
  | rest => Clean (joinSep rest)

/-- `strings.Index(s, sub)`: the offset of the first occurrence of `sub` in
`s`, or -1. -/
def indexSub (sub : GoString) : GoString → Int
  | [] => if sub = [] then 0 else -1
  | c :: cs =>
    if hasPrefix (c :: cs) sub then 0
    else
      let r := indexSub sub cs
      if r = -1 then -1 else r + 1

/-! ## Configuration (`internal/config/config.go`) -/

/-- The struct `Config`; `PollInterval` is a duration in nanoseconds. -/
structure Config where
  ScanPaths : List GoString := []
  IgnorePatterns : List GoString := []
  MaxDepth : Int := 10
  PollInterval : Int := 5000000000
  AutoRefresh : Bool := true
  deriving DecidableEq, Repr

/-- Outcome of `filepath.Match(pattern, name)`, which this development takes
as given: whether the name matches, and the error of a malformed pattern. -/
abbrev Glob := GoString → GoString → Bool × Option GoError

/-- Embedding of `containsDoublestar`: two adjacent `*` bytes. -/
def containsDoublestar : GoString → Bool
  | a :: b :: rest => (a == 42 && b == 42) || containsDoublestar (b :: rest)
  | _ => false

/-- Embedding of `matchDoublestar`. -/
def matchDoublestar (pattern path : GoString) : Except Panic Bool :=
  if pattern.length < 5 then pure false
  else do
    let middle ← slice pattern 3 (pattern.length - 3)
    pure (decide (Base (Dir path) = middle) || decide (Base path = middle))

/-- The `range` loop of `ShouldIgnore` over the patterns. -/
def ignoreLoop (glob : Glob) : List GoString → GoString → Except Panic Bool
  | [], _ => pure false
  | pattern :: rest, path =>
    let m := glob pattern path
    if m.2 = none ∧ m.1 = true then pure true
    else if containsDoublestar pattern then do
      if (← matchDoublestar pattern path) then pure true
      else ignoreLoop glob rest path
    else ignoreLoop glob rest path

/-- Embedding of `Config.ShouldIgnore`. -/
def ShouldIgnore (glob : Glob) (c : Config) (path : GoString) : Except Panic Bool :=
  ignoreLoop glob c.IgnorePatterns path

/-! ## Repository detection (`internal/scanner/detect.go`) -/

/-- Errors of the file-system calls, as far as the scanner tells them apart:
`os.IsNotExist` holds for the first only. -/
inductive FsError where
  | notExist
  | other
  deriving DecidableEq, Repr

/-- A directory entry: `Name()` and `IsDir()`. -/
structure DirEntry where
  Name : GoString
  IsDir : Bool
  deriving DecidableEq, Repr

/-- The environment of a scan: `os.Lstat` and `os.Stat` (whether the path is a
directory, or the error), `os.ReadFile`, `os.ReadDir` (the entries read, in
file-name order, and the error if reading stopped) and, for each path the walk
visits, the error of the context if it is done by then. -/
structure ScanSys where
  lstat : GoString → Except FsError Bool
  stat : GoString → Except FsError Bool
  readFile : GoString → Except FsError GoString
  readDir : GoString → List DirEntry × Option FsError
  ctxErr : GoString → Option GoError

/-- Embedding of `detectGitDir`: the record (`none` is nil) and the error. -/
def detectGitDir (sys : ScanSys) (path : GoString) :
    Except Panic (Option Repository × Option FsError) :=
  let gitPath := Join [path, str ".git"]
  match sys.stat gitPath with
  | .error e => if e = .notExist then pure (none, none) else pure (none, some e)
  | .ok isDir =>
    let repo : Repository := { Path := path }
    if isDir then pure (some { repo with IsWorktree := false }, none)
    else
      match sys.readFile gitPath with
      | .error e => pure (none, some e)
      | .ok content =>
        let line := TrimSpace content
        if hasPrefix line (str "gitdir:") then
          let gitdir := TrimSpace (TrimPrefix line (str "gitdir:"))
          let idx := indexSub (str "/.git/worktrees/") gitdir
          if idx ≠ -1 then do
            let main ← slice gitdir 0 idx.toNat
            pure (some { repo with IsWorktree := true, MainWorktree := main }, none)
          else pure (some { repo with IsWorktree := true }, none)
        else pure (some { repo with IsWorktree := true }, none)

/-- One turn of the loop of `discoverWorktrees`: the record appended for the
entry `e` of `<repo>/.git/worktrees`, if any. -/
def worktreeOf (sys : ScanSys) (repoPath wtDir : GoString) (e : DirEntry) : Option Repository :=
  if !e.IsDir then none
  else
    match sys.readFile (Join [wtDir, e.Name, str "gitdir"]) with
    | .error _ => none
    | .ok content =>
      let wtPath := Dir (TrimSpace content)
      match sys.stat wtPath with
      | .ok true => some { Path := wtPath, IsWorktree := true, MainWorktree := repoPath }
      | _ => none

/-- Embedding of `discoverWorktrees`. -/
def discoverWorktrees (sys : ScanSys) (repoPath : GoString) : List Repository :=
  let wtDir := Join [repoPath, str ".git", str "worktrees"]
  match sys.readDir wtDir with
  | (_, some _) => []
  | (entries, none) => entries.filterMap (worktreeOf sys repoPath wtDir)

/-! ## Directory walk (`internal/scanner/walker.go`)

`filepath.WalkDir` is modelled on the environment `ScanSys`.  Every path the
walk visits is the root joined with the names of the entries it descended
through; the walk carries these names (`rel`), from which the text that
`filepath.Rel(root, path)` returns is formed. -/

/-- What a walk function returns to `WalkDir`, and what the walk returns: the
nil error, `fs.SkipDir`, another error, or `exhausted` when the recursion
bound of the model is used up. -/
inductive WalkResult where
  | nil
  | skipDir
  | err (e : GoError)
  | exhausted
  deriving DecidableEq, Repr

/-- The text `filepath.Rel(root, path)` returns for the path reached from the
root through the entries `rel`. -/
def relText (rel : List GoString) : GoString :=
  if rel = [] then str "." else joinSep rel

/-- The depth `ScanPath` computes from the relative path: 0 for `.`, else the
number of separators plus one. -/
def depthOf (relPath : GoString) : Int :=
  if relPath ≠ str "." then (relPath.count 47 : Nat) + 1 else 0

/-- The walk function of `ScanPath`, called on `path` with the entry `d`;
`failed` tells that `WalkDir` passes an error, `repos` is the slice
collected so far. -/
def scanVisit (sys : ScanSys) (glob : Glob) (cfg : Config) (root : GoString) (maxDepth : Int)
    (path : GoString) (rel : List GoString) (d : DirEntry) (failed : Bool)
    (repos : List Repository) : Except Panic (List Repository × WalkResult) :=
  if failed then pure (repos, .nil)
  else
    match sys.ctxErr path with
    | some e => pure (repos, .err e)
    | none =>
      if !d.IsDir then pure (repos, .nil)
      else if depthOf (relText rel) > maxDepth then pure (repos, .skipDir)
      else if d.Name = str ".git" then pure (repos, .skipDir)
      else do
        let ignored ← ShouldIgnore glob cfg path
        if ignored ∧ path ≠ root then pure (repos, .skipDir)
        else do
          let found ← detectGitDir sys path
          if found.2 ≠ none then pure (repos, .nil)
          else
            match found.1 with
            | some repo =>
              let repos1 := repos ++ [repo]
              let repos2 :=
                if !repo.IsWorktree then repos1 ++ discoverWorktrees sys path else repos1
              pure (repos2, .skipDir)
            | none => pure (repos, .nil)

/-- The loop of `walkDir` over the entries of a directory: `fs.SkipDir` from an
entry ends the loop, another error ends the walk. -/
def walkEntries (step : DirEntry → List Repository → Except Panic (List Repository × WalkResult)) :
    List DirEntry → List Repository → Except Panic (List Repository × WalkResult)
  | [], repos => pure (repos, .nil)
  | d1 :: rest, repos => do
    let r ← step d1 repos
    match r.2 with
    | .nil => walkEntries step rest r.1
    | .skipDir => pure (r.1, .nil)
    | res => pure (r.1, res)

/-- What `walkDir` returns for the result `res` of the walk function on the
entry `d`: `fs.SkipDir` on a directory is a successful skip. -/
def skipped (d : DirEntry) (res : WalkResult) : WalkResult :=
  if res = .skipDir ∧ d.IsDir then .nil else res

/-- The recursive `walkDir` of `path/filepath` with the walk function of
`ScanPath`, to a nesting depth of at most `fuel` directories. -/
def walkDir (sys : ScanSys) (glob : Glob) (cfg : Config) (root : GoString) (maxDepth : Int) :
    Nat → GoString → List GoString → DirEntry → List Repository →
    Except Panic (List Repository × WalkResult)
  | 0, _, _, _, repos => pure (repos, .exhausted)
  | fuel + 1, path, rel, d, repos => do
    let r1 ← scanVisit sys glob cfg root maxDepth path rel d false repos
    if r1.2 ≠ .nil ∨ d.IsDir = false then pure (r1.1, skipped d r1.2)
    else do
      let listing := sys.readDir path
      let r2 ← if listing.2 ≠ none then
          scanVisit sys glob cfg root maxDepth path rel d true r1.1
        else pure (r1.1, .nil)
      if r2.2 ≠ .nil then pure (r2.1, skipped d r2.2)
      else
        walkEntries
          (fun d1 acc => walkDir sys glob cfg root maxDepth fuel (Join [path, d1.Name])
            (rel ++ [d1.Name]) d1 acc)
          listing.1 r2.1

/-- Embedding of `Walker.ScanPath`: `filepath.WalkDir(root, ...)` and the
slice it filled.  The walk function prunes every directory whose depth
exceeds `maxDepth`, which bounds the recursion. -/
def ScanPath (sys : ScanSys) (glob : Glob) (cfg : Config) (root : GoString) (maxDepth : Int) :
    Except Panic (List Repository × WalkResult) := do
  let r ← match sys.lstat root with
    | .error _ => scanVisit sys glob cfg root maxDepth root [] ⟨Base root, false⟩ true []
    | .ok isDir =>
      walkDir sys glob cfg root maxDepth (maxDepth.toNat + 3) root [] ⟨Base root, isDir⟩ []
  pure (r.1, if r.2 = .skipDir then .nil else r.2)

/-- The map `seen` of `Scan`, from path to record. -/
abbrev SeenMap := List (GoString × Repository)

/-- Whether the key is in the map. -/
def seenHas (m : SeenMap) (k : GoString) : Bool := m.any (fun e => decide (e.1 = k))

/-- The critical section of a goroutine of `Scan`: the records of one root
are entered under their path unless the path is there already. -/
def mergeFound (seen : SeenMap) (found : List Repository) : SeenMap :=
  found.foldl (fun m r => if seenHas m r.Path then m else m ++ [(r.Path, r)]) seen

/-- One goroutine of `Scan`: the root is walked and, unless the walk returned
an error, its records are merged. -/
def scanRoot (sys : ScanSys) (glob : Glob) (cfg : Config) (seen : SeenMap) (root : GoString) :
    Except Panic SeenMap := do
  let r ← ScanPath sys glob cfg root cfg.MaxDepth
  if r.2 ≠ .nil then pure seen else pure (mergeFound seen r.1)

/-- Embedding of `Walker.Scan`.  `order` lists the roots in the order in which
their goroutines take the mutex, and `iteration` gives the order in which the
final `range` yields the entries of a map. -/
def Scan (sys : ScanSys) (glob : Glob) (cfg : Config) (order : List GoString)
    (iteration : SeenMap → SeenMap) : Except Panic (List Repository × Option GoError) := do
  let seen ← order.foldlM (scanRoot sys glob cfg) []
  pure ((iteration seen).map Prod.snd, none)

/-! ## Batch status (`GetStatusBatch` in `internal/status/git.go`)

The goroutines of `GetStatusBatch` are modelled as a transition system.  A
state records where each goroutine stands, the number of values in the
buffered channel `sem`, the counter of the wait group, the two result maps and
whether the call has returned.  A schedule is the sequence of steps the
runtime takes; a step that is not enabled (a send on the full channel, a
`Wait` while the counter is not zero) has no successor state. -/

/-- The struct `GitReader`. -/
structure GitReader where
  concurrency : Nat
  deriving DecidableEq, Repr

/-- Embedding of `NewGitReader`. -/
def NewGitReader : GitReader := { concurrency := 8 }

/-- Where a goroutine of `GetStatusBatch` stands: before its send on `sem`;
inside `GetStatus`, holding a slot of the channel; after it stored the outcome
under the mutex; after the deferred receive from `sem`; after the deferred
`wg.Done()`. -/
inductive Stage where
  | waiting
  | running
  | stored
  | released
  | done
  deriving DecidableEq, Repr

/-- A state of `GetStatusBatch`; `stages` has one element for each goroutine
started, in the order of `paths`. -/
structure Batch where
  stages : List Stage := []
  sem : Nat := 0
  wg : Nat := 0
  results : List (GoString × RepoStatus) := []
  errors : List (GoString × GoError) := []
  returned : Bool := false

/-- The steps of a run: the main loop starts the next goroutine; goroutine
`i` completes its send on `sem`, stores the outcome of `GetStatus`, receives
from `sem`, calls `wg.Done()`; `wg.Wait()` returns and with it the call. -/
inductive BatchStep where
  | spawn
  | acquire (i : Nat)
  | store (i : Nat)
  | release (i : Nat)
  | finish (i : Nat)
  | ret
  deriving DecidableEq, Repr

/-- Map write `m[k] = v` on a map with any value type. -/
def putKey {β : Type} : List (GoString × β) → GoString → β → List (GoString × β)
  | [], k, v => [(k, v)]
  | (a, w) :: m, k, v => if a = k then (a, v) :: m else (a, w) :: putKey m k v

/-- The successor state of one step, if the step is enabled. -/
def batchStep (g : GitReader) (r : Runner) (fs : FileSys) (paths : List GoString) (s : Batch) :
    BatchStep → Option Batch
  | .spawn =>
    if s.returned = false ∧ s.stages.length < paths.length then
      some { s with stages := s.stages ++ [.waiting], wg := s.wg + 1 }
    else none
  | .acquire i =>
    if s.stages.get? i = some .waiting ∧ s.sem < g.concurrency then
      some { s with stages := s.stages.set i .running, sem := s.sem + 1 }
    else none
  | .store i =>
    if s.stages.get? i = some .running then
      match paths.get? i with
      | none => none
      | some p =>
        match GetStatus r fs p with
        | .error _ => none
        | .ok (status, err) =>
          let errors := match err with
            | some e => putKey s.errors p e
            | none => s.errors
          let results := match status with
            | some st => putKey s.results p st
            | none => s.results
          some { s with stages := s.stages.set i .stored, results := results, errors := errors }
    else none
  | .release i =>
    if s.stages.get? i = some .stored then
      some { s with stages := s.stages.set i .released, sem := s.sem - 1 }
    else none
  | .finish i =>
    if s.stages.get? i = some .released then
      some { s with stages := s.stages.set i .done, wg := s.wg - 1 }
    else none
  | .ret =>
    if s.returned = false ∧ s.stages.length = paths.length ∧ s.wg = 0 then
      some { s with returned := true }
    else none

/-- The state a schedule leads to from the start of the call, if every step
of it is enabled in turn. -/
def runBatch (g : GitReader) (r : Runner) (fs : FileSys) (paths : List GoString)
    (sched : List BatchStep) : Option Batch :=
  sched.foldlM (batchStep g r fs paths) {}

/-- Embedding of `GetStatusBatch` under a schedule: the two maps, once the
call has returned. -/
def GetStatusBatch (g : GitReader) (r : Runner) (fs : FileSys) (paths : List GoString)
    (sched : List BatchStep) :
    Option (List (GoString × RepoStatus) × List (GoString × GoError)) :=
  match runBatch g r fs paths sched with
  | some s => if s.returned then some (s.results, s.errors) else none
  | none => none

/-- The number of `GetStatus` invocations in flight. -/
def Batch.inFlight (s : Batch) : Nat := s.stages.count .running

/-- The goroutine has stored the outcome for its path. -/
def Stage.processed : Stage → Bool
  | .stored => true
  | .released => true
  | .done => true
  | _ => false

/-- What holds in every state of a run: the channel holds one value for each
goroutine between its send and its receive and never more than its capacity,
the counter of the wait group is the number of goroutines not yet done, every
goroutine past its store has an outcome in one of the maps, and the call has
returned only with every goroutine started and the counter at zero. -/
def Batch.inv (g : GitReader) (paths : List GoString) (s : Batch) : Prop :=
  s.sem = s.stages.count .running + s.stages.count .stored ∧
  s.sem ≤ g.concurrency ∧
  s.wg = s.stages.count .waiting + s.stages.count .running + s.stages.count .stored +
    s.stages.count .released ∧
  s.stages.length ≤ paths.length ∧
  (∀ i st p, s.stages.get? i = some st → st.processed = true → paths.get? i = some p →
    p ∈ s.results.map Prod.fst ∨ p ∈ s.errors.map Prod.fst) ∧
  (s.returned = true → s.stages.length = paths.length ∧ s.wg = 0)

/-- The sequential schedule for `n` paths: every goroutine is started, then
each runs to its end in turn, then the call returns. -/
def sequentialSchedule (n : Nat) : List BatchStep :=
  List.replicate n .spawn ++
    (List.range n).flatMap (fun i => [.acquire i, .store i, .release i, .finish i]) ++ [.ret]

/-! ## Predicates used to state the properties of the later sections -/

/-- The SSH-shorthand form in words: the URL holds `@` and `:`, does not start
with `ssh://`, and the text before its first `:` holds no `/`. -/
def isShorthand (url : GoString) : Bool :=
  containsByte url 64 && containsByte url 58 && !hasPrefix url (str "ssh://") &&
    !containsByte (url.takeWhile (fun c => decide (c ≠ 58))) 47

/-- The URL without its scheme prefix and without its userinfo, that is the
text up to and including the first `@`. -/
def strippedURL (url : GoString) : GoString :=
  let u := TrimPrefix (TrimPrefix (TrimPrefix url (str "ssh://")) (str "https://"))
    (str "http://")
  match cut 64 u with
  | some (_, b) => b
  | none => u

/-- The path the walk builds from the root for the entries `rel`. -/
def walkPath (root : GoString) (rel : List GoString) : GoString :=
  rel.foldl (fun p n => Join [p, n]) root

/-- A file name as a directory listing gives it: not empty, not `.` or `..`,
and without a separator. -/
def validName (n : GoString) : Prop :=
  n ≠ [] ∧ n ≠ str "." ∧ n ≠ str ".." ∧ (47 : UInt8) ∉ n

/-- The names `rel` lead from `path` down the tree: each is the name of a
directory entry in the listing of the directory reached before it. -/
def dirChain (sys : ScanSys) : GoString → List GoString → Prop
  | _, [] => True
  | path, n :: rest =>
    (⟨n, true⟩ : DirEntry) ∈ (sys.readDir path).1 ∧ dirChain sys (Join [path, n]) rest

/-- No ignore pattern that holds `**` is exactly five bytes long. -/
def safePatterns (cfg : Config) : Prop :=
  ∀ p ∈ cfg.IgnorePatterns, containsDoublestar p = true → p.length ≠ 5

/-- The walk function does not prune the directory `path` with entry `d`:
it is a directory, not named `.git`, and not ignored unless it is the root. -/
def passes (glob : Glob) (cfg : Config) (root path : GoString) (d : DirEntry) : Prop :=
  d.IsDir = true ∧ d.Name ≠ str ".git" ∧ (ShouldIgnore glob cfg path = .ok false ∨ path = root)

/-- The directory `target` is reached from `path` through the entries
`names`: every directory on the way is listed in its parent, is not pruned
and is not a repository. -/
def reaches (sys : ScanSys) (glob : Glob) (cfg : Config) (root : GoString) :
    GoString → DirEntry → List GoString → GoString → Prop
  | path, d, [], target => passes glob cfg root path d ∧ target = path
  | path, d, n :: names, target =>
    passes glob cfg root path d ∧
    (∃ found, detectGitDir sys path = .ok found ∧ (found.2 ≠ none ∨ found.1 = none)) ∧
    (⟨n, true⟩ : DirEntry) ∈ (sys.readDir path).1 ∧
    reaches sys glob cfg root (Join [path, n]) ⟨n, true⟩ names target

/-- The record `r` belongs to the directory `path`: it is the record
`detectGitDir` returns for it, or `path` is a main repository and `r` is one
of the linked worktrees `discoverWorktrees` returns for it. -/
def recordOf (sys : ScanSys) (path : GoString) (r : Repository) : Prop :=
  (r.Path = path ∧ detectGitDir sys path = .ok (some r, none)) ∨
  (∃ main, detectGitDir sys path = .ok (some main, none) ∧ main.IsWorktree = false ∧
    r ∈ discoverWorktrees sys path)

/-- A record as `ScanPath` appends them at a directory below the root: the
directory is reached from the root through the directory entries `rel`, its
computed depth is at most `maxDepth`, and the record belongs to it. -/
def reportedAt (sys : ScanSys) (root : GoString) (maxDepth : Int) (r : Repository) : Prop :=
  ∃ rel : List GoString, dirChain sys root rel ∧ depthOf (relText rel) ≤ maxDepth ∧
    recordOf sys (walkPath root rel) r

/-- What every call of the walk returns: it adds records to the slice, each
one reported at a directory within the depth limit, and ends with the nil
error or with the error of the context. -/
def WalkOutcome (sys : ScanSys) (root : GoString) (maxDepth : Int) (repos : List Repository)
    (out : Except Panic (List Repository × WalkResult)) : Prop :=
  ∃ extra res, out = .ok (repos ++ extra, res) ∧ (res = .nil ∨ ∃ e, res = .err e) ∧
    ((∀ p, sys.ctxErr p = none) → res = .nil) ∧ ∀ r ∈ extra, reportedAt sys root maxDepth r

/-- Sample tree.  Below `/r`: the plain directory `a` with the repository
`a/b`, the repository `main`, whose registry names the worktrees `/r/wt` and
`/elsewhere/deep/tree/wt`, the file `notes.txt`, and the linked worktree
`wt`. -/
def demoTree : List (GoString × List DirEntry) :=
  [(str "/r", [⟨str "a", true⟩, ⟨str "main", true⟩, ⟨str "notes.txt", false⟩, ⟨str "wt", true⟩]),
   (str "/r/a", [⟨str "b", true⟩]),
   (str "/r/a/b", [⟨str ".git", true⟩]),
   (str "/r/a/b/.git", []),
   (str "/r/main", [⟨str ".git", true⟩]),
   (str "/r/main/.git", [⟨str "worktrees", true⟩]),
   (str "/r/main/.git/worktrees", [⟨str "wt", true⟩, ⟨str "x", true⟩]),
   (str "/r/main/.git/worktrees/wt", [⟨str "gitdir", false⟩]),
   (str "/r/main/.git/worktrees/x", [⟨str "gitdir", false⟩]),
   (str "/r/wt", [⟨str ".git", false⟩]),
   (str "/elsewhere/deep/tree/wt", [⟨str ".git", false⟩])]

/-- Files of the sample tree, with their content. -/
def demoFiles : List (GoString × GoString) :=
  [(str "/r/notes.txt", str "hello\n"),
   (str "/r/wt/.git", str "gitdir: /r/main/.git/worktrees/wt\n"),
   (str "/elsewhere/deep/tree/wt/.git", str "gitdir: /r/main/.git/worktrees/x\n"),
   (str "/r/main/.git/worktrees/wt/gitdir", str "/r/wt/.git\n"),
   (str "/r/main/.git/worktrees/x/gitdir", str "/elsewhere/deep/tree/wt/.git\n")]

/-- `os.Stat` and `os.Lstat` on the sample tree. -/
def demoStat (p : GoString) : Except FsError Bool :=
  if (demoTree.lookup p).isSome then .ok true
  else if (demoFiles.lookup p).isSome then .ok false
  else .error .notExist

/-- The sample tree as a scan environment; the context is never done. -/
def demoScanSys : ScanSys :=
  { lstat := demoStat
    stat := demoStat
    readFile := fun p =>
      match demoFiles.lookup p with
      | some c => .ok c
      | none => .error .notExist
    readDir := fun p =>
      match demoTree.lookup p with
      | some l => (l, none)
      | none => ([], some .notExist)
    ctxErr := fun _ => none }

/-- Sample matcher: no pattern matches.  For the two patterns of `demoConfig`
this is what `filepath.Match` reports on every path of the sample tree. -/
def demoGlob : Glob := fun _ _ => (false, none)

/-- Sample configuration: two of the default ignore patterns, three roots. -/
def demoConfig : Config :=
  { ScanPaths := [str "/r", str "/r/main", str "/missing"]
    IgnorePatterns := [str "**/node_modules/**", str "**/vendor/**"]
    MaxDepth := 2 }

/-- The sample tree with a context that is cancelled by the time the walk
comes to `/r/wt`. -/
def demoScanSysCancelled : ScanSys :=
  { demoScanSys with
    ctxErr := fun p => if p = str "/r/wt" then some { msg := str "context canceled" } else none }

/-- Sample configuration with the single root `/r`. -/
def demoConfigOne : Config := { demoConfig with ScanPaths := [str "/r"] }

/-! ## Parser: lemmas and properties -/

theorem str_hash : str "# " = [35, 32] := by decide
theorem str_one : str "1 " = [49, 32] := by decide
theorem str_two : str "2 " = [50, 32] := by decide
theorem str_q : str "? " = [63, 32] := by decide
theorem str_bang : str "! " = [33, 32] := by decide
theorem str_u : str "u " = [117, 32] := by decide
theorem str_plus : str "+" = [43] := by decide
theorem str_minus : str "-" = [45] := by decide

theorem abStep_ok (st : RepoStatus) (p : GoString) :
    ∃ a b, abStep st p = .ok { st with Ahead := a, Behind := b } := by
  unfold abStep
  cases p with
  | nil => exact ⟨st.Ahead, st.Behind, by simp [hasPrefix, str_plus, str_minus, pure, Except.pure]⟩
  | cons c cs =>
    by_cases h1 : c = 43
    · refine ⟨(Atoi cs).1, st.Behind, ?_⟩
      simp [hasPrefix, str_plus, h1, sliceFrom, slice, bind, Except.bind, pure, Except.pure]
    · by_cases h2 : c = 45
      · refine ⟨st.Ahead, (Atoi cs).1, ?_⟩
        simp [hasPrefix, str_plus, str_minus, h2, sliceFrom, slice, bind, Except.bind,
          pure, Except.pure]
      · refine ⟨st.Ahead, st.Behind, ?_⟩
        have h1' : ¬ (43 = c) := fun h => h1 h.symm
        have h2' : ¬ (45 = c) := fun h => h2 h.symm
        simp [hasPrefix, str_plus, str_minus, h1', h2', pure, Except.pure]

theorem abFold_ok (toks : List GoString) (st : RepoStatus) :
    ∃ a b, toks.foldlM abStep st = .ok { st with Ahead := a, Behind := b } := by
  induction toks generalizing st with
  | nil => exact ⟨st.Ahead, st.Behind, rfl⟩
  | cons p ps ih =>
    obtain ⟨a, b, h⟩ := abStep_ok st p
    obtain ⟨a2, b2, h2⟩ := ih { st with Ahead := a, Behind := b }
    exact ⟨a2, b2, by simp [List.foldlM_cons, h, bind, Except.bind, h2]⟩

theorem cut_spec (sep : UInt8) (s a b : GoString) (h : cut sep s = some (a, b)) :
    s = a ++ sep :: b ∧ sep ∉ a := by
  induction s generalizing a b with
  | nil => simp [cut] at h
  | cons c cs ih =>
    unfold cut at h
    by_cases hc : c = sep
    · simp [hc] at h
      obtain ⟨rfl, rfl⟩ := h
      simp [hc]
    · simp only [hc, if_false] at h
      cases hcut : cut sep cs with
      | none => simp [hcut] at h
      | some ab =>
        obtain ⟨a2, b2⟩ := ab
        simp [hcut] at h
        obtain ⟨rfl, rfl⟩ := h
        obtain ⟨h1, h2⟩ := ih a2 b2 hcut
        refine ⟨by simp [h1], ?_⟩
        simp only [List.mem_cons, not_or]
        exact ⟨fun e => hc e.symm, h2⟩

theorem splitN3_cases (line : GoString) :
    (splitN 32 3 line).length < 3 ∨
      ∃ a k v, splitN 32 3 line = [a, k, v] ∧ line = a ++ 32 :: (k ++ 32 :: v) ∧ 32 ∉ a ∧ 32 ∉ k := by
  cases h1 : cut 32 line with
  | none => left; simp [splitN, h1]
  | some ab =>
    obtain ⟨a, b⟩ := ab
    cases h2 : cut 32 b with
    | none => left; simp [splitN, h1, h2]
    | some kv =>
      obtain ⟨k, v⟩ := kv
      right
      obtain ⟨e1, n1⟩ := cut_spec _ _ _ _ h1
      obtain ⟨e2, n2⟩ := cut_spec _ _ _ _ h2
      exact ⟨a, k, v, by simp [splitN, h1, h2], by rw [e1, e2], n1, n2⟩

theorem parseHeaderLine_ok (line : GoString) (st : RepoStatus) :
    ∃ st', parseHeaderLine line st = .ok st' ∧ sameCounts st st' := by
  unfold parseHeaderLine
  rcases splitN3_cases line with h | ⟨a, k, v, h, -, -, -⟩
  · exact ⟨st, by simp [h, pure, Except.pure], rfl, rfl, rfl⟩
  · simp only [h, List.length_cons, List.length_nil, indexParts, bind, Except.bind, pure,
      Except.pure]
    simp only [show ¬ (0 + 1 + 1 + 1 < 3) by decide, if_false, List.get?]
    split_ifs with h1 h2 h3 h4 h5 h6
    · simp [slice, h2]
      exact ⟨rfl, rfl, rfl⟩
    · exact ⟨st, rfl, rfl, rfl, rfl⟩
    · exact ⟨_, rfl, rfl, rfl, rfl⟩
    · exact ⟨_, rfl, rfl, rfl, rfl⟩
    · exact ⟨_, rfl, rfl, rfl, rfl⟩
    · obtain ⟨x, y, hxy⟩ := abFold_ok (fields v) st
      exact ⟨_, hxy, rfl, rfl, rfl⟩
    · exact ⟨st, rfl, rfl, rfl, rfl⟩

theorem parseChangeLine_ok (line : GoString) (st : RepoStatus) :
    ∃ st', parseChangeLine line st = .ok st' ∧
      st'.Staged = st.Staged + one (decide (4 ≤ line.length) && statusSet line 2) ∧
      st'.Modified = st.Modified + one (decide (4 ≤ line.length) && statusSet line 3) ∧
      st'.Untracked = st.Untracked := by
  rcases line with _ | ⟨c0, _ | ⟨c1, _ | ⟨c2, _ | ⟨c3, rest⟩⟩⟩⟩
  · exact ⟨st, by simp [parseChangeLine, pure, Except.pure], by simp [one], by simp [one], rfl⟩
  · exact ⟨st, by simp [parseChangeLine, pure, Except.pure], by simp [one], by simp [one], rfl⟩
  · exact ⟨st, by simp [parseChangeLine, pure, Except.pure], by simp [one], by simp [one], rfl⟩
  · exact ⟨st, by simp [parseChangeLine, pure, Except.pure], by simp [one], by simp [one], rfl⟩
  · simp only [parseChangeLine, slice, index, statusSet, one, bind, Except.bind, pure, Except.pure]
    have hlen : ¬ (rest.length + 1 + 1 + 1 + 1 < 4) := by omega
    by_cases h2a : c2 = 46 <;> by_cases h2b : c2 = 63 <;> by_cases h3a : c3 = 46 <;>
      by_cases h3b : c3 = 63 <;> simp [h2a, h2b, h3a, h3b, hlen]

theorem hasPrefix_two (line : GoString) (a b : UInt8) :
    hasPrefix line [a, b] = true ↔ ∃ rest, line = a :: b :: rest := by
  rcases line with _ | ⟨c0, _ | ⟨c1, rest⟩⟩
  · simp [hasPrefix]
  · simp [hasPrefix, List.isPrefixOf]
  · simp only [hasPrefix, List.isPrefixOf, Bool.and_eq_true, beq_iff_eq, Bool.and_true,
      List.cons.injEq]
    constructor
    · rintro ⟨rfl, rfl⟩
      exact ⟨rest, rfl, rfl, rfl⟩
    · rintro ⟨r, rfl, rfl, -⟩
      exact ⟨rfl, rfl⟩

theorem hasPrefix_two_ne (a b c d : UInt8) (rest : GoString) (h : a ≠ c) :
    hasPrefix (a :: b :: rest) [c, d] = false := by
  simp only [hasPrefix, List.isPrefixOf, Bool.and_eq_false_imp, beq_iff_eq]
  intro e
  exact absurd e.symm h

theorem lineStep_counts (st : RepoStatus) (line : GoString) :
    ∃ st', lineStep st line = .ok st' ∧
      st'.Staged = st.Staged + one (stagedLine line) ∧
      st'.Modified = st.Modified + one (modifiedLine line) + one (unmergedLine line) ∧
      st'.Untracked = st.Untracked + one (untrackedLine line) := by
  unfold lineStep
  by_cases h0 : line = []
  · subst h0
    refine ⟨st, by simp [pure, Except.pure], ?_, ?_, ?_⟩ <;>
      simp [one, stagedLine, modifiedLine, unmergedLine, untrackedLine, trackedLine,
        hasPrefix, str_one, str_two, str_q, str_u]
  simp only [h0, if_false, str_hash, str_one, str_two, str_q, str_bang, str_u]
  by_cases hh : hasPrefix line [35, 32] = true
  · obtain ⟨rest, rfl⟩ := (hasPrefix_two _ _ _).1 hh
    obtain ⟨st', h1, h2, h3, h4⟩ := parseHeaderLine_ok (35 :: 32 :: rest) st
    refine ⟨st', by simp [hh, h1], ?_, ?_, ?_⟩ <;>
      simp [h2, h3, h4, one, stagedLine, modifiedLine, unmergedLine, untrackedLine, trackedLine,
        hasPrefix, str_one, str_two, str_q, str_u]
  by_cases ht : (hasPrefix line [49, 32] || hasPrefix line [50, 32]) = true
  · obtain ⟨st', h1, h2, h3, h4⟩ := parseChangeLine_ok line st
    have htr : trackedLine line = true := by simpa [trackedLine, str_one, str_two] using ht
    have hu : unmergedLine line = false := by
      rcases Bool.or_eq_true_iff.1 ht with h | h <;>
        obtain ⟨rest, rfl⟩ := (hasPrefix_two _ _ _).1 h <;>
        exact hasPrefix_two_ne _ _ _ _ _ (by decide)
    have hq : untrackedLine line = false := by
      rcases Bool.or_eq_true_iff.1 ht with h | h <;>
        obtain ⟨rest, rfl⟩ := (hasPrefix_two _ _ _).1 h <;>
        exact hasPrefix_two_ne _ _ _ _ _ (by decide)
    refine ⟨st', by simp [hh, ht, h1], ?_, ?_, ?_⟩
    · simp [h2, stagedLine, htr]
    · simp [h3, modifiedLine, htr, hu, one]
    · simp [h4, hq, one]
  have htr : trackedLine line = false := by simpa [trackedLine, str_one, str_two] using ht
  by_cases hq : hasPrefix line [63, 32] = true
  · obtain ⟨rest, rfl⟩ := (hasPrefix_two _ _ _).1 hq
    refine ⟨_, by simp [hh, ht, hq, pure, Except.pure]; rfl, ?_, ?_, ?_⟩ <;>
      simp [one, stagedLine, modifiedLine, unmergedLine, untrackedLine, htr, hasPrefix, str_q,
        str_u]
  have hq' : untrackedLine line = false := by simpa [untrackedLine, str_q] using hq
  by_cases hb : hasPrefix line [33, 32] = true
  · obtain ⟨rest, rfl⟩ := (hasPrefix_two _ _ _).1 hb
    refine ⟨st, by simp [hh, ht, hq, hb, pure, Except.pure], ?_, ?_, ?_⟩ <;>
      simp [one, stagedLine, modifiedLine, unmergedLine, htr, hq', hasPrefix, str_u]
  by_cases hu : hasPrefix line [117, 32] = true
  · refine ⟨_, by simp [hh, ht, hq, hb, hu, pure, Except.pure]; rfl, ?_, ?_, ?_⟩ <;>
      simp [one, stagedLine, modifiedLine, unmergedLine, htr, hq', hu, str_u]
  · refine ⟨st, by simp [hh, ht, hq, hb, hu, pure, Except.pure], ?_, ?_, ?_⟩ <;>
      simp [one, stagedLine, modifiedLine, unmergedLine, htr, hq', hu, str_u]

theorem parseLines_counts (lines : List GoString) (st : RepoStatus) :
    ∃ st', lines.foldlM lineStep st = .ok st' ∧
      st'.Staged = st.Staged + (lines.countP stagedLine : Nat) ∧
      st'.Modified = st.Modified + (lines.countP modifiedLine : Nat) +
        (lines.countP unmergedLine : Nat) ∧
      st'.Untracked = st.Untracked + (lines.countP untrackedLine : Nat) := by
  induction lines generalizing st with
  | nil => exact ⟨st, rfl, by simp, by simp, by simp⟩
  | cons l ls ih =>
    obtain ⟨st1, e1, a1, b1, c1⟩ := lineStep_counts st l
    obtain ⟨st2, e2, a2, b2, c2⟩ := ih st1
    refine ⟨st2, by simp [List.foldlM_cons, e1, bind, Except.bind, e2], ?_, ?_, ?_⟩
    · rw [a2, a1, List.countP_cons]; unfold one; split_ifs <;> push_cast <;> ring
    · rw [b2, b1, List.countP_cons, List.countP_cons]; unfold one
      split_ifs <;> push_cast <;> ring
    · rw [c2, c1, List.countP_cons]; unfold one; split_ifs <;> push_cast <;> ring

theorem lineStep_ignored (st : RepoStatus) (line : GoString) (h : ignoredLine line = true) :
    lineStep st line = .ok st := by
  have h' : hasPrefix line [33, 32] = true := h
  obtain ⟨rest, rfl⟩ := (hasPrefix_two _ _ _).1 h'
  have h1 : hasPrefix (33 :: 32 :: rest) (str "# ") = false := hasPrefix_two_ne _ _ _ _ _ (by decide)
  have h2 : hasPrefix (33 :: 32 :: rest) (str "1 ") = false := hasPrefix_two_ne _ _ _ _ _ (by decide)
  have h3 : hasPrefix (33 :: 32 :: rest) (str "2 ") = false := hasPrefix_two_ne _ _ _ _ _ (by decide)
  have h4 : hasPrefix (33 :: 32 :: rest) (str "? ") = false := hasPrefix_two_ne _ _ _ _ _ (by decide)
  have h5 : hasPrefix (33 :: 32 :: rest) (str "! ") = true := h
  simp [lineStep, h1, h2, h3, h4, h5, pure, Except.pure]

theorem foldlM_dropIgnored (lines : List GoString) (st : RepoStatus) :
    (lines.filter (fun l => !ignoredLine l)).foldlM lineStep st = lines.foldlM lineStep st := by
  induction lines generalizing st with
  | nil => rfl
  | cons l ls ih =>
    by_cases h : ignoredLine l = true
    · simp [List.filter_cons, h, List.foldlM_cons, lineStep_ignored st l h, bind, Except.bind, ih]
    · simp only [Bool.not_eq_true] at h
      simp only [List.filter_cons, h, Bool.not_false, if_true, List.foldlM_cons]
      cases lineStep st l with
      | error e => rfl
      | ok st1 => exact ih st1

/-- C1: for every output, `parsePorcelainV2` returns a record whose `Staged`
is the number of lines that start with `1 ` or `2 `, are at least 4 bytes long
and have an index-status byte (offset 2) other than `.` and `?`; the worktree
byte of the line plays no part. -/
theorem parsePorcelainV2_staged (output : GoString) :
    ∃ st, parsePorcelainV2 output = .ok (st, none) ∧
      st.Staged = ((split 10 output).countP stagedLine : Nat) := by
  obtain ⟨st, h, hs, -, -⟩ := parseLines_counts (split 10 output) {}
  refine ⟨st, by simp [parsePorcelainV2, parseLines, h, bind, Except.bind, pure, Except.pure], ?_⟩
  rw [hs]
  exact zero_add _

/-- C2: for every output, `Modified` is the number of tracked-entry lines of
at least 4 bytes whose worktree-status byte (offset 3) is neither `.` nor `?`,
plus the number of unmerged lines (prefix `u `). -/
theorem parsePorcelainV2_modified (output : GoString) :
    ∃ st, parsePorcelainV2 output = .ok (st, none) ∧
      st.Modified = ((split 10 output).countP modifiedLine : Nat) +
        ((split 10 output).countP unmergedLine : Nat) := by
  obtain ⟨st, h, -, hm, -⟩ := parseLines_counts (split 10 output) {}
  refine ⟨st, by simp [parsePorcelainV2, parseLines, h, bind, Except.bind, pure, Except.pure], ?_⟩
  rw [hm]
  simp

/-- C3: for every output, `Untracked` is the number of lines that start with
`? `, and ignored lines (prefix `! `) are discarded: the loop over the lines
with the ignored ones removed returns the same record. -/
theorem parsePorcelainV2_untracked (output : GoString) :
    ∃ st, parsePorcelainV2 output = .ok (st, none) ∧
      st.Untracked = ((split 10 output).countP untrackedLine : Nat) ∧
      parseLines ((split 10 output).filter (fun l => !ignoredLine l)) = .ok st := by
  obtain ⟨st, h, -, -, hu⟩ := parseLines_counts (split 10 output) {}
  refine ⟨st, by simp [parsePorcelainV2, parseLines, h, bind, Except.bind, pure, Except.pure],
    ?_, ?_⟩
  · rw [hu]
    exact zero_add _
  · unfold parseLines
    rw [foldlM_dropIgnored, h]

/-- C6: `parsePorcelainV2` is total: on every input it returns a status record
and a nil error; none of its index and slice expressions panics. -/
theorem parsePorcelainV2_total (output : GoString) :
    ∃ st, parsePorcelainV2 output = .ok (st, none) := by
  obtain ⟨st, h, -⟩ := parseLines_counts (split 10 output) {}
  exact ⟨st, by simp [parsePorcelainV2, parseLines, h, bind, Except.bind, pure, Except.pure]⟩

theorem str_branch_head : str "branch.head" = [98, 114, 97, 110, 99, 104, 46, 104, 101, 97, 100] := by
  decide

theorem str_branch_ab : str "branch.ab" = [98, 114, 97, 110, 99, 104, 46, 97, 98] := by decide

theorem cut_append (k v : GoString) (h : (32 : UInt8) ∉ k) : cut 32 (k ++ 32 :: v) = some (k, v) := by
  induction k with
  | nil => simp [cut]
  | cons c cs ih =>
    simp only [List.mem_cons, not_or] at h
    have hc : ¬ c = 32 := fun e => h.1 e.symm
    simp [cut, hc, ih h.2]

theorem splitN_header (rest : GoString) :
    splitN 32 3 (35 :: 32 :: rest) =
      match cut 32 rest with
      | none => [[35], rest]
      | some (k, v) => [[35], k, v] := by
  have h : cut 32 (35 :: 32 :: rest) = some ([35], rest) := by
    simp [cut]
  cases h2 : cut 32 rest with
  | none => simp [splitN, h, h2]
  | some kv => simp [splitN, h, h2]

theorem parseChangeLine_with (line : GoString) (st : RepoStatus) :
    ∃ a b, parseChangeLine line st = .ok { st with Staged := a, Modified := b } := by
  rcases line with _ | ⟨c0, _ | ⟨c1, _ | ⟨c2, _ | ⟨c3, rest⟩⟩⟩⟩
  · exact ⟨st.Staged, st.Modified, by simp [parseChangeLine, pure, Except.pure]⟩
  · exact ⟨st.Staged, st.Modified, by simp [parseChangeLine, pure, Except.pure]⟩
  · exact ⟨st.Staged, st.Modified, by simp [parseChangeLine, pure, Except.pure]⟩
  · exact ⟨st.Staged, st.Modified, by simp [parseChangeLine, pure, Except.pure]⟩
  · simp only [parseChangeLine, slice, index, bind, Except.bind, pure, Except.pure]
    have hlen : ¬ (rest.length + 1 + 1 + 1 + 1 < 4) := by omega
    by_cases h2 : c2 ≠ 46 ∧ c2 ≠ 63 <;> by_cases h3 : c3 ≠ 46 ∧ c3 ≠ 63
    · exact ⟨st.Staged + 1, st.Modified + 1, by simp [h2, h3, hlen]⟩
    · exact ⟨st.Staged + 1, st.Modified, by simp [h2, h3, hlen]⟩
    · exact ⟨st.Staged, st.Modified + 1, by simp [h2, h3, hlen]⟩
    · exact ⟨st.Staged, st.Modified, by simp [h2, h3, hlen]⟩

theorem lineStep_nonheader (st : RepoStatus) (line : GoString)
    (h : hasPrefix line [35, 32] = false) :
    ∃ a b c, lineStep st line = .ok { st with Staged := a, Modified := b, Untracked := c } := by
  unfold lineStep
  simp only [str_hash, h]
  by_cases h0 : line = []
  · exact ⟨st.Staged, st.Modified, st.Untracked, by simp [h0, pure, Except.pure]⟩
  simp only [h0, if_false, Bool.false_eq_true]
  split_ifs with h1 h2 h3 h4
  · obtain ⟨a, b, e⟩ := parseChangeLine_with line st
    exact ⟨a, b, st.Untracked, e⟩
  · exact ⟨st.Staged, st.Modified, st.Untracked + 1, rfl⟩
  · exact ⟨st.Staged, st.Modified, st.Untracked, rfl⟩
  · exact ⟨st.Staged, st.Modified + 1, st.Untracked, rfl⟩
  · exact ⟨st.Staged, st.Modified, st.Untracked, rfl⟩

theorem lineStep_header (st : RepoStatus) (rest : GoString) :
    lineStep st (35 :: 32 :: rest) = parseHeaderLine (35 :: 32 :: rest) st := by
  have h : hasPrefix (35 :: 32 :: rest) (str "# ") = true :=
    (hasPrefix_two _ _ _).2 ⟨rest, rfl⟩
  simp [lineStep, h]


theorem parseHeaderLine_effect (rest : GoString) (st : RepoStatus) :
    (cut 32 rest = none ∧ parseHeaderLine (35 :: 32 :: rest) st = .ok st) ∨
    ∃ k v, cut 32 rest = some (k, v) ∧
      ((k = str "branch.head" ∧ parseHeaderLine (35 :: 32 :: rest) st =
          .ok (if v = str "(detached)" then { st with DetachedHead := true }
            else { st with Branch := v })) ∨
       (k = str "branch.ab" ∧
          parseHeaderLine (35 :: 32 :: rest) st = (fields v).foldlM abStep st) ∨
       (k ≠ str "branch.head" ∧ k ≠ str "branch.ab" ∧
          ∃ h r, parseHeaderLine (35 :: 32 :: rest) st =
            .ok { st with CommitHash := h, Remote := r })) := by
  cases hc : cut 32 rest with
  | none =>
    left
    refine ⟨rfl, ?_⟩
    have hs : splitN 32 3 (35 :: 32 :: rest) = [[35], rest] := by rw [splitN_header, hc]
    unfold parseHeaderLine
    simp [hs, pure, Except.pure]
  | some kv =>
    obtain ⟨k, v⟩ := kv
    right
    refine ⟨k, v, rfl, ?_⟩
    have hp : parseHeaderLine (35 :: 32 :: rest) st =
        (if k = str "branch.oid" then
          (if v.length ≥ 7 then (slice v 0 7).bind (fun h => .ok { st with CommitHash := h })
           else .ok st)
        else if k = str "branch.head" then
          (if v = str "(detached)" then .ok { st with DetachedHead := true }
           else .ok { st with Branch := v })
        else if k = str "branch.upstream" then .ok { st with Remote := v }
        else if k = str "branch.ab" then (fields v).foldlM abStep st
        else .ok st) := by
      have hs : splitN 32 3 (35 :: 32 :: rest) = [[35], k, v] := by rw [splitN_header, hc]
      unfold parseHeaderLine
      simp only [hs]
      simp only [List.length_cons, List.length_nil, indexParts, List.get?, bind, pure,
        Except.pure]
      simp only [show ¬ (0 + 1 + 1 + 1 < 3) by decide, if_false]
      rfl
    by_cases h1 : k = str "branch.oid"
    · right; right
      have n1 : k ≠ str "branch.head" := by rw [h1]; decide
      have n2 : k ≠ str "branch.ab" := by rw [h1]; decide
      refine ⟨n1, n2, ?_⟩
      rw [hp, if_pos h1]
      by_cases hl : v.length ≥ 7
      · refine ⟨(v.take 7).drop 0, st.Remote, ?_⟩
        simp [hl, slice, Except.bind]
      · exact ⟨st.CommitHash, st.Remote, by simp [hl]⟩
    by_cases h2 : k = str "branch.head"
    · left
      refine ⟨h2, ?_⟩
      rw [hp, if_neg h1, if_pos h2]
      split_ifs <;> rfl
    by_cases h3 : k = str "branch.upstream"
    · right; right
      have n2 : k ≠ str "branch.ab" := by rw [h3]; decide
      exact ⟨h2, n2, st.CommitHash, v, by rw [hp, if_neg h1, if_neg h2, if_pos h3]⟩
    by_cases h4 : k = str "branch.ab"
    · right; left
      exact ⟨h4, by rw [hp, if_neg h1, if_neg h2, if_neg h3, if_pos h4]⟩
    · right; right
      exact ⟨h2, h4, st.CommitHash, st.Remote,
        by rw [hp, if_neg h1, if_neg h2, if_neg h3, if_neg h4]⟩

theorem isHeaderOf_headerLine (key value : GoString) :
    isHeaderOf key (headerLine key value) = true := by
  simp only [isHeaderOf, headerLine, hasPrefix, List.isPrefixOf_iff_prefix]
  exact ⟨value, by simp⟩

theorem key_ne_of_not_header (key rest k v : GoString) (hc : cut 32 rest = some (k, v))
    (h : isHeaderOf key (35 :: 32 :: rest) = false) : k ≠ key := by
  rintro rfl
  obtain ⟨e, -⟩ := cut_spec _ _ _ _ hc
  have := isHeaderOf_headerLine k v
  rw [headerLine, ← e, h] at this
  exact Bool.false_ne_true this

theorem lineStep_frame_head (st : RepoStatus) (line : GoString)
    (h : isHeaderOf (str "branch.head") line = false) :
    ∃ st', lineStep st line = .ok st' ∧ st'.Branch = st.Branch ∧
      st'.DetachedHead = st.DetachedHead := by
  by_cases hp : hasPrefix line [35, 32] = true
  · obtain ⟨rest, rfl⟩ := (hasPrefix_two _ _ _).1 hp
    rw [lineStep_header]
    rcases parseHeaderLine_effect rest st with ⟨-, e⟩ | ⟨k, v, hc, ⟨hk, -⟩ | ⟨-, e⟩ | ⟨-, -, a, b, e⟩⟩
    · exact ⟨st, e, rfl, rfl⟩
    · exact absurd hk (key_ne_of_not_header _ _ _ _ hc h)
    · obtain ⟨a, b, e2⟩ := abFold_ok (fields v) st
      exact ⟨_, e.trans e2, rfl, rfl⟩
    · exact ⟨_, e, rfl, rfl⟩
  · simp only [Bool.not_eq_true] at hp
    obtain ⟨a, b, c, e⟩ := lineStep_nonheader st line hp
    exact ⟨_, e, rfl, rfl⟩

theorem lineStep_frame_ab (st : RepoStatus) (line : GoString)
    (h : isHeaderOf (str "branch.ab") line = false) :
    ∃ st', lineStep st line = .ok st' ∧ st'.Ahead = st.Ahead ∧ st'.Behind = st.Behind := by
  by_cases hp : hasPrefix line [35, 32] = true
  · obtain ⟨rest, rfl⟩ := (hasPrefix_two _ _ _).1 hp
    rw [lineStep_header]
    rcases parseHeaderLine_effect rest st with ⟨-, e⟩ | ⟨k, v, hc, ⟨-, e⟩ | ⟨hk, -⟩ | ⟨-, -, a, b, e⟩⟩
    · exact ⟨st, e, rfl, rfl⟩
    · refine ⟨_, e, ?_, ?_⟩ <;> split_ifs <;> rfl
    · exact absurd hk (key_ne_of_not_header _ _ _ _ hc h)
    · exact ⟨_, e, rfl, rfl⟩
  · simp only [Bool.not_eq_true] at hp
    obtain ⟨a, b, c, e⟩ := lineStep_nonheader st line hp
    exact ⟨_, e, rfl, rfl⟩

theorem fold_frame_head (lines : List GoString) (st : RepoStatus)
    (h : ∀ l ∈ lines, isHeaderOf (str "branch.head") l = false) :
    ∃ st', lines.foldlM lineStep st = .ok st' ∧ st'.Branch = st.Branch ∧
      st'.DetachedHead = st.DetachedHead := by
  induction lines generalizing st with
  | nil => exact ⟨st, rfl, rfl, rfl⟩
  | cons l ls ih =>
    obtain ⟨st1, e1, a1, b1⟩ := lineStep_frame_head st l (h l (List.mem_cons_self _ _))
    obtain ⟨st2, e2, a2, b2⟩ := ih st1 (fun x hx => h x (List.mem_cons_of_mem _ hx))
    exact ⟨st2, by simp [List.foldlM_cons, e1, bind, Except.bind, e2], a2.trans a1, b2.trans b1⟩

theorem fold_frame_ab (lines : List GoString) (st : RepoStatus)
    (h : ∀ l ∈ lines, isHeaderOf (str "branch.ab") l = false) :
    ∃ st', lines.foldlM lineStep st = .ok st' ∧ st'.Ahead = st.Ahead ∧
      st'.Behind = st.Behind := by
  induction lines generalizing st with
  | nil => exact ⟨st, rfl, rfl, rfl⟩
  | cons l ls ih =>
    obtain ⟨st1, e1, a1, b1⟩ := lineStep_frame_ab st l (h l (List.mem_cons_self _ _))
    obtain ⟨st2, e2, a2, b2⟩ := ih st1 (fun x hx => h x (List.mem_cons_of_mem _ hx))
    exact ⟨st2, by simp [List.foldlM_cons, e1, bind, Except.bind, e2], a2.trans a1, b2.trans b1⟩

theorem fold_around (pre post : List GoString) (hl : GoString) (st0 st1 st2 st3 : RepoStatus)
    (e1 : pre.foldlM lineStep st0 = .ok st1) (e2 : lineStep st1 hl = .ok st2)
    (e3 : post.foldlM lineStep st2 = .ok st3) :
    (pre ++ hl :: post).foldlM lineStep st0 = .ok st3 := by
  simp [List.foldlM_append, List.foldlM_cons, e1, e2, e3, bind, Except.bind]

theorem lineStep_at_head (st : RepoStatus) (v : GoString) :
    lineStep st (headerLine (str "branch.head") v) =
      .ok (if v = str "(detached)" then { st with DetachedHead := true }
        else { st with Branch := v }) := by
  have hc : cut 32 (str "branch.head" ++ 32 :: v) = some (str "branch.head", v) :=
    cut_append _ _ (by decide)
  rw [headerLine, lineStep_header]
  rcases parseHeaderLine_effect (str "branch.head" ++ 32 :: v) st with
    ⟨hn, -⟩ | ⟨k, v', hc', ⟨-, e⟩ | ⟨hk, -⟩ | ⟨hk, -⟩⟩
  · rw [hc] at hn; cases hn
  · rw [hc] at hc'
    cases hc'
    exact e
  · rw [hc] at hc'
    cases hc'
    exact absurd hk (by decide)
  · rw [hc] at hc'
    cases hc'
    exact absurd rfl hk

theorem lineStep_at_ab (st : RepoStatus) (v : GoString) :
    lineStep st (headerLine (str "branch.ab") v) = (fields v).foldlM abStep st := by
  have hc : cut 32 (str "branch.ab" ++ 32 :: v) = some (str "branch.ab", v) :=
    cut_append _ _ (by decide)
  rw [headerLine, lineStep_header]
  rcases parseHeaderLine_effect (str "branch.ab" ++ 32 :: v) st with
    ⟨hn, -⟩ | ⟨k, v', hc', ⟨hk, -⟩ | ⟨-, e⟩ | ⟨-, hk, -⟩⟩
  · rw [hc] at hn; cases hn
  · rw [hc] at hc'
    cases hc'
    exact absurd hk (by decide)
  · rw [hc] at hc'
    cases hc'
    exact e
  · rw [hc] at hc'
    cases hc'
    exact absurd rfl hk

/-- C5: when the only `# branch.head` header of the output has the value
`(detached)`, the record has `DetachedHead = true` and an empty `Branch`; when
it has any other value `v`, the record has `Branch = v` and
`DetachedHead = false`. -/
theorem parsePorcelainV2_branchHead (output v : GoString)
    (h : onlyHeader (str "branch.head") v (split 10 output)) :
    ∃ st, parsePorcelainV2 output = .ok (st, none) ∧
      (v = str "(detached)" → st.DetachedHead = true ∧ st.Branch = []) ∧
      (v ≠ str "(detached)" → st.Branch = v ∧ st.DetachedHead = false) := by
  obtain ⟨pre, post, hs, hno⟩ := h
  obtain ⟨st1, e1, a1, b1⟩ := fold_frame_head pre {}
    (fun l hl => hno l (List.mem_append_left _ hl))
  have e2 := lineStep_at_head st1 v
  obtain ⟨st3, e3, a3, b3⟩ := fold_frame_head post _
    (fun l hl => hno l (List.mem_append_right _ hl))
  have e := fold_around pre post _ _ _ _ _ e1 e2 e3
  refine ⟨st3, by simp [parsePorcelainV2, parseLines, hs, e, bind, Except.bind, pure,
    Except.pure], ?_, ?_⟩
  · intro hv
    rw [a3, b3, if_pos hv]
    exact ⟨rfl, a1⟩
  · intro hv
    rw [a3, b3, if_neg hv]
    exact ⟨rfl, b1⟩

/-- Witness for C5: the detached-head output of the test suite. -/
theorem parsePorcelainV2_branchHead_witness :
    ∃ st, parsePorcelainV2 (str "# branch.oid abc123def456\n# branch.head (detached)\n") =
        .ok (st, none) ∧
      (str "(detached)" = str "(detached)" → st.DetachedHead = true ∧ st.Branch = []) ∧
      (str "(detached)" ≠ str "(detached)" → st.Branch = str "(detached)" ∧
        st.DetachedHead = false) :=
  parsePorcelainV2_branchHead _ (str "(detached)")
    ⟨[str "# branch.oid abc123def456"], [[]], by decide, by decide⟩


theorem abStep_eval (st : RepoStatus) (p : GoString) :
    abStep st p = .ok (if hasPrefix p [43] = true then { st with Ahead := (Atoi (p.drop 1)).1 }
      else if hasPrefix p [45] = true then { st with Behind := (Atoi (p.drop 1)).1 }
      else st) := by
  unfold abStep
  rw [str_plus, str_minus]
  cases p with
  | nil => simp [hasPrefix, pure, Except.pure]
  | cons c cs =>
    have hs : sliceFrom (c :: cs) 1 = .ok cs := by simp [sliceFrom, slice]
    simp only [hs, bind, Except.bind, pure, Except.pure, List.drop_succ_cons, List.drop_zero]
    split_ifs <;> rfl

theorem abFold_spec (toks : List GoString) (st : RepoStatus) :
    ∃ st', toks.foldlM abStep st = .ok st' ∧
      st'.Ahead = (match toks.reverse.find? (fun p => hasPrefix p [43]) with
        | some p => (Atoi (p.drop 1)).1
        | none => st.Ahead) ∧
      st'.Behind = (match toks.reverse.find? (fun p => hasPrefix p [45]) with
        | some p => (Atoi (p.drop 1)).1
        | none => st.Behind) := by
  induction toks using List.reverseRecOn with
  | nil => exact ⟨st, rfl, rfl, rfl⟩
  | append_singleton init p ih =>
    obtain ⟨st1, e1, a1, b1⟩ := ih
    have e : (init ++ [p]).foldlM abStep st = abStep st1 p := by
      simp [List.foldlM_append, e1, bind, Except.bind]
      cases abStep st1 p <;> rfl
    rw [e, abStep_eval]
    refine ⟨_, rfl, ?_, ?_⟩
    · simp only [List.reverse_append, List.reverse_cons, List.reverse_nil, List.nil_append,
        List.singleton_append, List.find?_cons]
      by_cases hp : hasPrefix p [43] = true
      · simp [hp]
      · simp only [Bool.not_eq_true] at hp
        simp only [hp, Bool.false_eq_true, if_false]
        split_ifs <;> exact a1
    · simp only [List.reverse_append, List.reverse_cons, List.reverse_nil, List.nil_append,
        List.singleton_append, List.find?_cons]
      by_cases hp : hasPrefix p [43] = true
      · have hm : hasPrefix p [45] = false := by
          cases p with
          | nil => rfl
          | cons c cs =>
            simp only [hasPrefix, List.isPrefixOf, Bool.and_true, beq_iff_eq] at hp
            simp only [hasPrefix, List.isPrefixOf, Bool.and_true, beq_eq_false_iff_ne]
            rw [← hp]; decide
        simp only [hp, hm, if_true]
        exact b1
      · simp only [Bool.not_eq_true] at hp
        simp only [hp, Bool.false_eq_true, if_false]
        by_cases hm : hasPrefix p [45] = true
        · simp [hm]
        · simp only [Bool.not_eq_true] at hm
          simp only [hm, Bool.false_eq_true, if_false]
          exact b1

theorem isDigit_not_sign (b : UInt8) (h : isDigit b = true) : ¬ (b = 45 ∨ b = 43) := by
  rintro (rfl | rfl) <;> revert h <;> decide

theorem foldl_ge (ds : GoString) (n : Nat) :
    n ≤ ds.foldl (fun n b => n * 10 + (b.toNat - 48)) n := by
  induction ds generalizing n with
  | nil => exact le_refl _
  | cons c cs ih =>
    simp only [List.foldl_cons]
    exact le_trans (by omega) (ih _)

theorem parseUintLoop_digits (ds : GoString) (n : Nat) (hd : ds.all isDigit = true)
    (hr : ds.foldl (fun n b => n * 10 + (b.toNat - 48)) n ≤ uintMax) :
    parseUintLoop ds n = (ds.foldl (fun n b => n * 10 + (b.toNat - 48)) n, none) := by
  induction ds generalizing n with
  | nil => rfl
  | cons c cs ih =>
    simp only [List.all_cons, Bool.and_eq_true] at hd
    simp only [List.foldl_cons] at hr ⊢
    have hge := foldl_ge cs (n * 10 + (c.toNat - 48))
    have h1 : ¬ uintMax < n * 10 + (c.toNat - 48) := by omega
    have h2 : ¬ uintMax / 10 + 1 ≤ n := by
      unfold uintMax at h1 ⊢
      omega
    unfold parseUintLoop
    simp only [hd.1, if_true, h2, if_false, h1]
    exact ih _ hd.2 hr

theorem Atoi_digits (ds : GoString) (h0 : ds ≠ []) (hd : ds.all isDigit = true)
    (hr : digitsVal ds < intCutoff) : Atoi ds = ((digitsVal ds : Int), none) := by
  have hu : ParseUint ds = (digitsVal ds, none) := by
    unfold ParseUint
    rw [if_neg h0]
    exact parseUintLoop_digits ds 0 hd (by
      have : digitsVal ds < intCutoff := hr
      unfold digitsVal intCutoff at this
      unfold uintMax
      omega)
  cases ds with
  | nil => exact absurd rfl h0
  | cons b r =>
    have hb : isDigit b = true := by
      simp only [List.all_cons, Bool.and_eq_true] at hd
      exact hd.1
    have hs := isDigit_not_sign b hb
    have h45 : ¬ b = 45 := fun e => hs (Or.inl e)
    have h43 : ¬ b = 43 := fun e => hs (Or.inr e)
    unfold Atoi
    simp only [h43, or_false, if_false, h45, decide_False, hu, Nat.not_le.2 hr,
      Bool.false_eq_true, false_and, and_false, reduceCtorEq]

/-- Once the digits before it have left the 64-bit range, a later byte that is
no digit is not reached: the result is the clamped bound with the range error;
while the digits are in range, the byte is a syntax error. -/
theorem Atoi_range_before_letter :
    Atoi (str "99999999999999999999x") = (9223372036854775807, some .errRange) ∧
    Atoi (str "9223372036854775808x") = (0, some .errSyntax) ∧
    Atoi (str "-99999999999999999999") = (-9223372036854775808, some .errRange) := by
  decide

/-- C4 (amended): when the output has exactly one `# branch.ab` header, `Ahead`
is N when the last token of the header value that starts with `+` is `+N`, N a
decimal numeral below 2^63, and is 0 when no token starts with `+`; `Behind` is
M when the last token that starts with `-` is `-M`, M a decimal numeral below
2^63, and is 0 when no token starts with `-`. -/
theorem parsePorcelainV2_aheadBehind (output value : GoString)
    (h : onlyHeader (str "branch.ab") value (split 10 output)) :
    ∃ st, parsePorcelainV2 output = .ok (st, none) ∧
      (∀ ds, ds ≠ [] → ds.all isDigit = true → digitsVal ds < intCutoff →
        lastToken 43 value = some (43 :: ds) → st.Ahead = digitsVal ds) ∧
      ((∀ p ∈ fields value, hasPrefix p (str "+") = false) → st.Ahead = 0) ∧
      (∀ ds, ds ≠ [] → ds.all isDigit = true → digitsVal ds < intCutoff →
        lastToken 45 value = some (45 :: ds) → st.Behind = digitsVal ds) ∧
      ((∀ p ∈ fields value, hasPrefix p (str "-") = false) → st.Behind = 0) := by
  obtain ⟨pre, post, hs, hno⟩ := h
  obtain ⟨st1, e1, a1, b1⟩ := fold_frame_ab pre {}
    (fun l hl => hno l (List.mem_append_left _ hl))
  obtain ⟨st2, e2, a2, b2⟩ := abFold_spec (fields value) st1
  rw [← lineStep_at_ab] at e2
  obtain ⟨st3, e3, a3, b3⟩ := fold_frame_ab post st2
    (fun l hl => hno l (List.mem_append_right _ hl))
  have e := fold_around pre post _ _ _ _ _ e1 e2 e3
  have z1 : st1.Ahead = 0 := a1
  have z2 : st1.Behind = 0 := b1
  refine ⟨st3, by simp [parsePorcelainV2, parseLines, hs, e, bind, Except.bind, pure,
    Except.pure], ?_, ?_, ?_, ?_⟩
  · intro ds h0 hd hr hl
    unfold lastToken at hl
    rw [a3, a2, hl]
    simp only [List.drop_succ_cons, List.drop_zero, Atoi_digits ds h0 hd hr]
  · intro hnone
    have hf : (fields value).reverse.find? (fun p => hasPrefix p [43]) = none := by
      rw [List.find?_eq_none]
      intro p hp
      have := hnone p (List.mem_reverse.1 hp)
      rw [str_plus] at this
      simp [this]
    rw [a3, a2, hf]
    exact z1
  · intro ds h0 hd hr hl
    unfold lastToken at hl
    rw [b3, b2, hl]
    simp only [List.drop_succ_cons, List.drop_zero, Atoi_digits ds h0 hd hr]
  · intro hnone
    have hf : (fields value).reverse.find? (fun p => hasPrefix p [45]) = none := by
      rw [List.find?_eq_none]
      intro p hp
      have := hnone p (List.mem_reverse.1 hp)
      rw [str_minus] at this
      simp [this]
    rw [b3, b2, hf]
    exact z2

/-- Witness for C4: `# branch.ab +2 -1` gives `Ahead = 2` and `Behind = 1`. -/
theorem parsePorcelainV2_aheadBehind_witness :
    ∃ st, parsePorcelainV2 (str "# branch.head main\n# branch.ab +2 -1\n? a.txt\n") =
        .ok (st, none) ∧ st.Ahead = 2 ∧ st.Behind = 1 := by
  obtain ⟨st, e, ha, -, hb, -⟩ := parsePorcelainV2_aheadBehind
    (str "# branch.head main\n# branch.ab +2 -1\n? a.txt\n") (str "+2 -1")
    ⟨[str "# branch.head main"], [str "? a.txt", []], by decide, by decide⟩
  exact ⟨st, e, ha (str "2") (by decide) (by decide) (by decide) (by decide),
    hb (str "1") (by decide) (by decide) (by decide) (by decide)⟩

/-- Counterexample to C4 as stated: with the header value `+1 +2` the token
`+1` is present but `Ahead` is 2, and with the token `+9223372036854775808`
(a decimal numeral) `Ahead` is 9223372036854775807. -/
theorem parsePorcelainV2_aheadBehind_counterexample :
    (onlyHeader (str "branch.ab") (str "+1 +2") (split 10 (str "# branch.ab +1 +2\n")) ∧
      str "+1" ∈ fields (str "+1 +2") ∧
      ∃ st, parsePorcelainV2 (str "# branch.ab +1 +2\n") = .ok (st, none) ∧ st.Ahead = 2) ∧
    (onlyHeader (str "branch.ab") (str "+9223372036854775808 -0")
        (split 10 (str "# branch.ab +9223372036854775808 -0\n")) ∧
      str "+9223372036854775808" ∈ fields (str "+9223372036854775808 -0") ∧
      digitsVal (str "9223372036854775808") = 9223372036854775808 ∧
      ∃ st, parsePorcelainV2 (str "# branch.ab +9223372036854775808 -0\n") = .ok (st, none) ∧
        st.Ahead = 9223372036854775807) := by
  refine ⟨⟨⟨[], [[]], by decide, by decide⟩, by decide, _, rfl, by decide⟩,
    ⟨⟨[], [[]], by decide, by decide⟩, by decide, by decide, _, rfl, by decide⟩⟩


/-! ## Poller: maps -/

theorem mapGet_mapSet_self (m : GoMap) (x v : GoString) : mapGet (mapSet m x v) x = some v := by
  induction m with
  | nil => simp [mapSet, mapGet]
  | cons e m ih =>
    obtain ⟨k, w⟩ := e
    by_cases h : k = x
    · simp [mapSet, mapGet, h]
    · simp [mapSet, mapGet, h, ih]

theorem mapGet_mapSet_ne (m : GoMap) (x y v : GoString) (h : y ≠ x) :
    mapGet (mapSet m x v) y = mapGet m y := by
  induction m with
  | nil =>
    have h' : ¬ x = y := fun e => h e.symm
    simp [mapSet, mapGet, h']
  | cons e m ih =>
    obtain ⟨k, w⟩ := e
    by_cases hk : k = x
    · have hy : ¬ k = y := fun e => h (e.symm.trans hk)
      simp only [mapSet, hk, if_true, mapGet]
      rw [hk] at hy
      simp only [hy, if_false]
    · by_cases hy : k = y
      · subst hy
        simp only [mapSet, hk, if_false, mapGet, if_true]
      · simp only [mapSet, hk, if_false, mapGet, hy, ih]

theorem mapSet_absent (m : GoMap) (x v : GoString) (h : mapGet m x = none) :
    mapSet m x v = m ++ [(x, v)] := by
  induction m with
  | nil => rfl
  | cons e m ih =>
    obtain ⟨k, w⟩ := e
    by_cases hk : k = x
    · simp [mapGet, hk] at h
    · simp only [mapGet, hk, if_false] at h
      simp [mapSet, hk, ih h]

theorem mapGet_mapDelete_self (m : GoMap) (x : GoString) : mapGet (mapDelete m x) x = none := by
  induction m with
  | nil => rfl
  | cons e m ih =>
    obtain ⟨k, w⟩ := e
    by_cases hk : k = x
    · simpa [mapDelete, List.filter_cons, hk] using ih
    · have : mapGet (mapDelete m x) x = none := ih
      simp [mapDelete, List.filter_cons, hk, mapGet] at this ⊢
      exact this

theorem mapGet_none_of_not_mem (m : GoMap) (x : GoString) (h : x ∉ mapKeys m) :
    mapGet m x = none := by
  induction m with
  | nil => rfl
  | cons e m ih =>
    obtain ⟨k, w⟩ := e
    simp only [mapKeys, List.map_cons, List.mem_cons, not_or] at h
    have hk : ¬ k = x := fun e => h.1 e.symm
    simp only [mapGet, hk, if_false]
    exact ih h.2

theorem mapGet_of_mem (m : GoMap) (k v : GoString) (hnd : (mapKeys m).Nodup) (h : (k, v) ∈ m) :
    mapGet m k = some v := by
  induction m with
  | nil => cases h
  | cons e m ih =>
    obtain ⟨k0, w⟩ := e
    simp only [mapKeys, List.map_cons, List.nodup_cons] at hnd
    rcases List.mem_cons.1 h with e | hm
    · cases e
      simp [mapGet]
    · have hk : ¬ k0 = k := by
        rintro rfl
        exact hnd.1 (List.mem_map.2 ⟨(k0, v), hm, rfl⟩)
      simp only [mapGet, hk, if_false]
      exact ih hnd.2 hm

theorem mem_of_mapGet (m : GoMap) (k v : GoString) (h : mapGet m k = some v) : (k, v) ∈ m := by
  induction m with
  | nil => cases h
  | cons e m ih =>
    obtain ⟨k0, w⟩ := e
    by_cases hk : k0 = k
    · simp only [mapGet, hk, if_true, Option.some.injEq] at h
      simp [hk, h]
    · simp only [mapGet, hk, if_false] at h
      exact List.mem_cons_of_mem _ (ih h)


/-! ## Poller: the delivery loop -/

theorem deliverOne_eq (sc : Sched) (p : Poller) (c : Change) :
    deliverOne sc p c =
      if (p.events.drop (sc.received c.path)).length < eventCap then
        ({ p with events := p.events.drop (sc.received c.path) ++ [eventOf sc c],
                  repos := if (mapGet p.repos c.path).isSome then
                    mapSet p.repos c.path c.newHash else p.repos },
          { change := c, event := some (eventOf sc c) })
      else
        ({ p with events := p.events.drop (sc.received c.path) },
          { change := c, event := none }) := rfl

theorem deliverOne_change (sc : Sched) (p : Poller) (c : Change) :
    (deliverOne sc p c).2.change = c := by
  rw [deliverOne_eq]
  split_ifs <;> rfl

theorem deliverOne_events_length (sc : Sched) (p : Poller) (c : Change) :
    (deliverOne sc p c).1.events.length ≤ p.events.length + 1 := by
  have hd : (p.events.drop (sc.received c.path)).length ≤ p.events.length := by
    rw [List.length_drop]; omega
  rw [deliverOne_eq]
  split_ifs <;> dsimp only <;> (try rw [List.length_append, List.length_singleton]) <;> omega

theorem deliverOne_room (sc : Sched) (p : Poller) (c : Change)
    (h : p.events.length < eventCap) :
    (deliverOne sc p c).2 = { change := c, event := some (eventOf sc c) } := by
  have hq : (p.events.drop (sc.received c.path)).length < eventCap := by
    rw [List.length_drop]; omega
  rw [deliverOne_eq, if_pos hq]

theorem deliverOne_get_other (sc : Sched) (p : Poller) (c : Change) (x : GoString)
    (h : x ≠ c.path) : mapGet (deliverOne sc p c).1.repos x = mapGet p.repos x := by
  rw [deliverOne_eq]
  split_ifs
  · exact mapGet_mapSet_ne _ _ _ _ h
  · rfl
  · rfl

theorem deliverOne_get_self (sc : Sched) (p : Poller) (c : Change) :
    mapGet (deliverOne sc p c).1.repos c.path =
      match (deliverOne sc p c).2.event with
      | some _ => (mapGet p.repos c.path).map (fun _ => c.newHash)
      | none => mapGet p.repos c.path := by
  rw [deliverOne_eq]
  split_ifs with h1 h2
  · simp only [mapGet_mapSet_self]
    obtain ⟨v, hv⟩ := Option.isSome_iff_exists.1 h2
    simp [hv]
  · simp only [Bool.not_eq_true, Option.not_isSome, Option.isNone_iff_eq_none] at h2
    simp [h2]
  · rfl

theorem deliverOne_full_iff (sc : Sched) (p : Poller) (c : Change) :
    (deliverOne sc p c).2.event = none ↔
      eventCap ≤ (p.events.drop (sc.received c.path)).length := by
  rw [deliverOne_eq]
  split_ifs with h
  · simp only [reduceCtorEq, false_iff, not_le]
    exact h
  · simp only [true_iff]
    exact Nat.le_of_not_lt h

theorem deliverLoop_get_other (sc : Sched) (changes : List Change) (p : Poller) (x : GoString)
    (h : x ∉ changes.map (fun c => c.path)) :
    mapGet (deliverLoop sc p changes).1.repos x = mapGet p.repos x := by
  induction changes generalizing p with
  | nil => rfl
  | cons c cs ih =>
    simp only [List.map_cons, List.mem_cons, not_or] at h
    simp only [deliverLoop]
    rw [ih _ h.2, deliverOne_get_other _ _ _ _ h.1]

theorem deliverLoop_absent (sc : Sched) (changes : List Change) (p : Poller) (x : GoString)
    (h : mapGet p.repos x = none) : mapGet (deliverLoop sc p changes).1.repos x = none := by
  induction changes generalizing p with
  | nil => exact h
  | cons c cs ih =>
    simp only [deliverLoop]
    apply ih
    by_cases hx : x = c.path
    · have := deliverOne_get_self sc p c
      rw [← hx] at this
      rw [this, h]
      cases (deliverOne sc p c).2.event <;> rfl
    · rw [deliverOne_get_other _ _ _ _ hx, h]

theorem deliverLoop_room (sc : Sched) (changes : List Change) (p : Poller)
    (h : p.events.length + changes.length ≤ eventCap) :
    (deliverLoop sc p changes).2 =
      changes.map (fun c => { change := c, event := some (eventOf sc c) }) := by
  induction changes generalizing p with
  | nil => rfl
  | cons c cs ih =>
    simp only [List.length_cons] at h
    simp only [deliverLoop, List.map_cons]
    have h1 := deliverOne_events_length sc p c
    rw [ih _ (by omega), deliverOne_room sc p c (by omega)]

theorem deliverLoop_spec (sc : Sched) (changes : List Change) (p : Poller)
    (hnd : (changes.map (fun c => c.path)).Nodup) :
    (deliverLoop sc p changes).2.map (fun d => d.change) = changes ∧
    ∀ d ∈ (deliverLoop sc p changes).2,
      mapGet (deliverLoop sc p changes).1.repos d.change.path =
        match d.event with
        | some _ => (mapGet p.repos d.change.path).map (fun _ => d.change.newHash)
        | none => mapGet p.repos d.change.path := by
  induction changes generalizing p with
  | nil => exact ⟨rfl, fun d hd => by cases hd⟩
  | cons c cs ih =>
    simp only [List.map_cons, List.nodup_cons] at hnd
    obtain ⟨ih1, ih2⟩ := ih (deliverOne sc p c).1 hnd.2
    simp only [deliverLoop, List.map_cons, deliverOne_change, ih1, true_and]
    intro d hd
    rcases List.mem_cons.1 hd with rfl | hd
    · rw [deliverOne_change, deliverLoop_get_other _ _ _ _ hnd.1]
      exact deliverOne_get_self sc p c
    · have hmem : d.change ∈ cs := by
        rw [← ih1]
        exact List.mem_map.2 ⟨d, hd, rfl⟩
      have hne : d.change.path ≠ c.path := by
        intro e
        exact hnd.1 (List.mem_map.2 ⟨d.change, hmem, e⟩)
      rw [ih2 d hd, deliverOne_get_other _ _ _ _ hne]


/-! ## Poller: collecting the changes -/

theorem worker_eq (git : Git) (cd : GoString → Bool) (path last : GoString) :
    worker git cd path last =
      if cd path = false ∧ (getStatusHash git path).1 ≠ [] ∧ (getStatusHash git path).1 ≠ last
      then some { path := path, newHash := (getStatusHash git path).1,
                  output := (getStatusHash git path).2 }
      else none := by
  unfold worker
  by_cases h1 : cd path = true
  · simp [h1]
  · simp only [Bool.not_eq_true] at h1
    by_cases h2 : (getStatusHash git path).1 = []
    · simp [h1, h2]
    · by_cases h3 : (getStatusHash git path).1 = last
      · simp [h1, h2, h3]
      · simp [h1, h2, h3]

theorem worker_path (git : Git) (cd : GoString → Bool) (k v : GoString) (c : Change)
    (h : worker git cd k v = some c) : c.path = k ∧ c.newHash ≠ v := by
  rw [worker_eq] at h
  split_ifs at h with hc
  cases h
  exact ⟨rfl, hc.2.2⟩

theorem mem_pollChanges (git : Git) (cd : GoString → Bool) (m : GoMap) (c : Change) :
    c ∈ pollChanges git cd m ↔ ∃ k v, (k, v) ∈ m ∧ worker git cd k v = some c := by
  simp [pollChanges, List.mem_filterMap]

theorem pollChanges_paths (git : Git) (cd : GoString → Bool) (m : GoMap) :
    ((pollChanges git cd m).map (fun c => c.path)).Sublist (mapKeys m) := by
  induction m with
  | nil => exact List.Sublist.slnil
  | cons e m ih =>
    obtain ⟨k, v⟩ := e
    cases hw : worker git cd k v with
    | none =>
      simp only [pollChanges, List.filterMap_cons, hw, mapKeys, List.map_cons]
      exact List.Sublist.cons _ ih
    | some c =>
      simp only [pollChanges, List.filterMap_cons, hw, mapKeys, List.map_cons]
      rw [(worker_path _ _ _ _ _ hw).1]
      exact List.Sublist.cons₂ _ ih

theorem pollChanges_filter (git : Git) (cd : GoString → Bool) (m : GoMap) (path last : GoString)
    (hnd : (mapKeys m).Nodup) (h : (path, last) ∈ m) :
    (pollChanges git cd m).filter (fun c => decide (c.path = path)) =
      (worker git cd path last).toList := by
  induction m with
  | nil => cases h
  | cons e m ih =>
    obtain ⟨k, v⟩ := e
    simp only [mapKeys, List.map_cons, List.nodup_cons] at hnd
    have htail : ∀ x, x ∉ mapKeys m →
        (pollChanges git cd m).filter (fun c => decide (c.path = x)) = [] := by
      intro x hx
      rw [List.filter_eq_nil_iff]
      intro c hc
      simp only [decide_eq_true_eq]
      intro e
      apply hx
      exact (pollChanges_paths git cd m).subset (List.mem_map.2 ⟨c, hc, e⟩)
    rcases List.mem_cons.1 h with e | hm
    · cases e
      cases hw : worker git cd path last with
      | none =>
        simp only [pollChanges, List.filterMap_cons, hw, Option.toList]
        exact htail path hnd.1
      | some c =>
        have hp := (worker_path _ _ _ _ _ hw).1
        simp only [pollChanges, List.filterMap_cons, hw, Option.toList, List.filter_cons, hp,
          decide_True, if_true, List.cons.injEq, true_and]
        exact htail path hnd.1
    · have hk : k ≠ path := by
        rintro rfl
        exact hnd.1 (List.mem_map.2 ⟨(k, last), hm, rfl⟩)
      cases hw : worker git cd k v with
      | none =>
        simp only [pollChanges, List.filterMap_cons, hw]
        exact ih hnd.2 hm
      | some c =>
        have hp := (worker_path _ _ _ _ _ hw).1
        simp only [pollChanges, List.filterMap_cons, hw, List.filter_cons, hp, hk,
          decide_False, Bool.false_eq_true, if_false]
        exact ih hnd.2 hm

theorem sentEvents_map (sc : Sched) (changes : List Change) :
    sentEvents (changes.map (fun c => { change := c, event := some (eventOf sc c) })) =
      changes.map (eventOf sc) := by
  induction changes with
  | nil => rfl
  | cons c cs ih =>
    simp only [sentEvents, List.map_cons, List.filterMap_cons] at ih ⊢
    rw [ih]

theorem pollDeliver_room (sc : Sched) (p : Poller) (changes : List Change)
    (h : p.events.length + changes.length ≤ eventCap) :
    (pollDeliver sc p changes).2 =
      changes.map (fun c => { change := c, event := some (eventOf sc c) }) := by
  unfold pollDeliver
  split_ifs with h0
  · rw [List.length_eq_zero.1 h0]; rfl
  · exact deliverLoop_room sc changes p h

theorem pollDeliver_eq (sc : Sched) (p : Poller) (changes : List Change) :
    pollDeliver sc p changes = deliverLoop sc p changes := by
  unfold pollDeliver
  split_ifs with h0
  · rw [List.length_eq_zero.1 h0]; rfl
  · rfl


/-! ## Poller: properties -/

/-- C7: in a poll pass whose event channel has room for every change, the
events enqueued are those of the collected changes, each for a watched path;
for a watched path there is exactly one event, carrying the path and the raw
probe output, when its probe ran and succeeded (non-empty hash) and the new
hash differs from the one in the snapshot, and no event otherwise (unchanged
repository, failed probe). -/
theorem poll_events (git : Git) (sc : Sched) (p : Poller) (changes : List Change)
    (hnd : (mapKeys p.repos).Nodup)
    (hperm : changes.Perm (pollChanges git sc.ctxDone p.repos))
    (hroom : p.events.length + changes.length ≤ eventCap) :
    sentEvents (pollDeliver sc p changes).2 = changes.map (eventOf sc) ∧
    (∀ e ∈ sentEvents (pollDeliver sc p changes).2, e.RepoPath ∈ mapKeys p.repos) ∧
    ∀ path last, (path, last) ∈ p.repos →
      (sentEvents (pollDeliver sc p changes).2).filter (fun e => decide (e.RepoPath = path)) =
        if sc.ctxDone path = false ∧ (getStatusHash git path).1 ≠ [] ∧
            (getStatusHash git path).1 ≠ last
        then [{ RepoPath := path, Time := sc.now path,
                StatusOutput := (getStatusHash git path).2 }]
        else [] := by
  have hsent : sentEvents (pollDeliver sc p changes).2 = changes.map (eventOf sc) := by
    rw [pollDeliver_room sc p changes hroom, sentEvents_map]
  refine ⟨hsent, ?_, ?_⟩
  · intro e he
    rw [hsent] at he
    obtain ⟨c, hc, rfl⟩ := List.mem_map.1 he
    have hc' : c ∈ pollChanges git sc.ctxDone p.repos := hperm.subset hc
    obtain ⟨k, v, hkv, hw⟩ := (mem_pollChanges _ _ _ _).1 hc'
    have : (eventOf sc c).RepoPath = k := (worker_path _ _ _ _ _ hw).1
    rw [this]
    exact List.mem_map.2 ⟨(k, v), hkv, rfl⟩
  · intro path last hmem
    have hperm' := hperm.filter (fun c => decide (c.path = path))
    rw [pollChanges_filter git sc.ctxDone p.repos path last hnd hmem, worker_eq] at hperm'
    have hcomp : ((fun e : Event => decide (e.RepoPath = path)) ∘ eventOf sc) =
        fun c => decide (c.path = path) := rfl
    rw [hsent, List.filter_map, hcomp]
    split_ifs with hc
    · rw [if_pos hc] at hperm'
      rw [List.perm_singleton.1 hperm']
      rfl
    · rw [if_neg hc] at hperm'
      rw [List.perm_nil.1 hperm']
      rfl

/-- Witness for C7: `/repo` was last seen clean and now reports `dirty`. -/
theorem poll_events_witness :
    sentEvents (pollDeliver demoSched demoPoller
        (pollChanges (demoGit (str "dirty")) demoSched.ctxDone demoPoller.repos)).2 =
      (pollChanges (demoGit (str "dirty")) demoSched.ctxDone demoPoller.repos).map
        (eventOf demoSched) :=
  (poll_events (demoGit (str "dirty")) demoSched demoPoller _ (by decide)
    (List.Perm.refl _) (by decide)).1

/-- C8: for every change of a poll pass the path had a stored hash other than
the new one; after the pass the stored hash is the new one if the event was
enqueued and is still the old one if the channel was full (the only reason for
a send to fail), and in that case a later pass whose probe succeeds with a hash
other than the stored one collects a change for the path again. -/
theorem poll_fingerprint (git : Git) (sc : Sched) (p : Poller) (changes : List Change)
    (hnd : (mapKeys p.repos).Nodup)
    (hperm : changes.Perm (pollChanges git sc.ctxDone p.repos)) :
    (pollDeliver sc p changes).2.map (fun d => d.change) = changes ∧
    (∀ d ∈ (pollDeliver sc p changes).2, ∃ old,
      mapGet p.repos d.change.path = some old ∧ old ≠ d.change.newHash ∧
      (d.event.isSome = true →
        mapGet (pollDeliver sc p changes).1.repos d.change.path = some d.change.newHash) ∧
      (d.event = none →
        mapGet (pollDeliver sc p changes).1.repos d.change.path = some old ∧
        ∀ (git2 : Git) (sc2 : Sched), sc2.ctxDone d.change.path = false →
          (getStatusHash git2 d.change.path).1 ≠ [] →
          (getStatusHash git2 d.change.path).1 ≠ old →
          ∃ c2 ∈ pollChanges git2 sc2.ctxDone (pollDeliver sc p changes).1.repos,
            c2.path = d.change.path)) ∧
    (∀ (q : Poller) (c : Change), (deliverOne sc q c).2.event = none ↔
      eventCap ≤ (q.events.drop (sc.received c.path)).length) := by
  have hpaths : (changes.map (fun c => c.path)).Nodup :=
    (hperm.map _).nodup_iff.2 ((pollChanges_paths git sc.ctxDone p.repos).nodup hnd)
  obtain ⟨h1, h2⟩ := deliverLoop_spec sc changes p hpaths
  rw [pollDeliver_eq]
  refine ⟨h1, ?_, fun q c => deliverOne_full_iff sc q c⟩
  intro d hd
  have hmem : d.change ∈ changes := by
    rw [← h1]
    exact List.mem_map.2 ⟨d, hd, rfl⟩
  obtain ⟨k, v, hkv, hw⟩ := (mem_pollChanges _ _ _ _).1 (hperm.subset hmem)
  obtain ⟨hk, hv⟩ := worker_path _ _ _ _ _ hw
  have hget : mapGet p.repos d.change.path = some v := by
    rw [hk]
    exact mapGet_of_mem _ _ _ hnd hkv
  refine ⟨v, hget, fun e => hv e.symm, ?_, ?_⟩
  · intro hs
    obtain ⟨ev, hev⟩ := Option.isSome_iff_exists.1 hs
    rw [h2 d hd, hev, hget]
    rfl
  · intro hn
    have hstored : mapGet (deliverLoop sc p changes).1.repos d.change.path = some v := by
      rw [h2 d hd, hn, hget]
    refine ⟨hstored, ?_⟩
    intro git2 sc2 hcd hne hdiff
    refine ⟨{ path := d.change.path, newHash := (getStatusHash git2 d.change.path).1,
              output := (getStatusHash git2 d.change.path).2 },
      (mem_pollChanges _ _ _ _).2 ⟨d.change.path, v, mem_of_mapGet _ _ _ hstored, ?_⟩, rfl⟩
    rw [worker_eq, if_pos ⟨hcd, hne, hdiff⟩]

/-- Witness for C8: the channel of the sample poller is full, so the change of
`/repo` is dropped. -/
theorem poll_fingerprint_witness :
    (pollDeliver demoSched demoPollerFull
        (pollChanges (demoGit (str "dirty")) demoSched.ctxDone demoPollerFull.repos)).2.map
        (fun d => d.change) =
      pollChanges (demoGit (str "dirty")) demoSched.ctxDone demoPollerFull.repos :=
  (poll_fingerprint (demoGit (str "dirty")) demoSched demoPollerFull _ (by decide)
    (List.Perm.refl _)).1

/-- C9 (amended): when a path is removed by `Unwatch` after the pass took its
snapshot and before the delivery loop runs, the pass does not register the path
again; the event of its change is still offered to the channel, and it is
enqueued when the channel has room for every change. -/
theorem poll_after_unwatch (sc : Sched) (p : Poller) (path : GoString)
    (changes : List Change) :
    mapGet (pollDeliver sc (Unwatch p path) changes).1.repos path = none ∧
    (p.events.length + changes.length ≤ eventCap →
      sentEvents (pollDeliver sc (Unwatch p path) changes).2 = changes.map (eventOf sc)) := by
  constructor
  · rw [pollDeliver_eq]
    exact deliverLoop_absent sc changes _ path (mapGet_mapDelete_self _ _)
  · intro h
    rw [pollDeliver_room sc (Unwatch p path) changes h, sentEvents_map]

/-- Witness for C9 (amended): the sample poller with `/repo` removed during the pass. -/
theorem poll_after_unwatch_witness :
    sentEvents (pollDeliver demoSched (Unwatch demoPoller (str "/repo"))
        (pollChanges (demoGit (str "dirty")) demoSched.ctxDone demoPoller.repos)).2 =
      (pollChanges (demoGit (str "dirty")) demoSched.ctxDone demoPoller.repos).map
        (eventOf demoSched) :=
  (poll_after_unwatch demoSched demoPoller (str "/repo") _).2 (by decide)

/-- Counterexample to C9 as stated: `/repo` is in the snapshot, changes, and is
removed by `Unwatch` before delivery; the pass still enqueues an event for
`/repo`, while the watched map stays empty. -/
theorem poll_after_unwatch_counterexample :
    pollChanges (demoGit (str "dirty")) demoSched.ctxDone demoPoller.repos =
      [{ path := str "/repo", newHash := str "sha:dirty", output := str "dirty" }] ∧
    (pollDeliver demoSched (Unwatch demoPoller (str "/repo"))
      (pollChanges (demoGit (str "dirty")) demoSched.ctxDone demoPoller.repos)).1 =
      { interval := second,
        events := [{ RepoPath := str "/repo", Time := 0, StatusOutput := str "dirty" }],
        repos := [] } := by
  decide

theorem Watch_present (git : Git) (p : Poller) (path : GoString)
    (h : (mapGet p.repos path).isSome = true) : (Watch git p path).1 = p := by
  simp [Watch, h]

/-- C10: `Watch` returns a nil error; on a path that is already watched it
leaves the poller as it is, whatever the probe would return (and so does its
write-locked part for any hash); on an unwatched path it adds exactly the one
entry for the path, holding the probed hash, which is empty when the probe
fails; a second `Watch` of the same path changes nothing. -/
theorem Watch_idempotent (git : Git) (p : Poller) (path : GoString) :
    (Watch git p path).2 = none ∧
    ((mapGet p.repos path).isSome = true →
      (Watch git p path).1 = p ∧ ∀ hash, watchCommit p path hash = p) ∧
    (mapGet p.repos path = none →
      (Watch git p path).1 =
        { p with repos := p.repos ++ [(path, (getStatusHash git path).1)] } ∧
      (git.status path = none → mapGet (Watch git p path).1.repos path = some [])) ∧
    (∀ git2 : Git, (Watch git2 (Watch git p path).1 path).1 = (Watch git p path).1) := by
  have hret : (Watch git p path).2 = none := by
    unfold Watch
    split_ifs <;> rfl
  have hpresent : (mapGet p.repos path).isSome = true →
      (Watch git p path).1 = p ∧ ∀ hash, watchCommit p path hash = p := by
    intro h
    exact ⟨by simp [Watch, h], fun hash => by simp [watchCommit, h]⟩
  have habsent : mapGet p.repos path = none → (Watch git p path).1 =
      { p with repos := p.repos ++ [(path, (getStatusHash git path).1)] } := by
    intro h
    simp [Watch, watchCommit, h, mapSet_absent _ _ _ h]
  have hafter : (mapGet (Watch git p path).1.repos path).isSome = true := by
    cases h : mapGet p.repos path with
    | some v => rw [(hpresent (by simp [h])).1, h]; rfl
    | none =>
      rw [habsent h, ← mapSet_absent _ _ _ h]
      show (mapGet (mapSet p.repos path _) path).isSome = true
      rw [mapGet_mapSet_self]; rfl
  refine ⟨hret, hpresent, ?_, ?_⟩
  · intro h
    refine ⟨habsent h, ?_⟩
    intro hf
    rw [habsent h, ← mapSet_absent _ _ _ h]
    show mapGet (mapSet p.repos path _) path = some []
    rw [mapGet_mapSet_self]
    simp [getStatusHash, hf]
  · intro git2
    exact Watch_present git2 _ path hafter

/-- Witness for C10: `/repo` is watched by the sample poller and `/other` is
not, and the probe of `/other` fails. -/
theorem Watch_idempotent_witness :
    ((Watch (demoGit (str "dirty")) demoPoller (str "/repo")).1 = demoPoller ∧
      ∀ hash, watchCommit demoPoller (str "/repo") hash = demoPoller) ∧
    ((Watch demoGitFailing demoPoller (str "/other")).1 =
        { demoPoller with repos := demoPoller.repos ++
          [(str "/other", (getStatusHash demoGitFailing (str "/other")).1)] } ∧
      (demoGitFailing.status (str "/other") = none →
        mapGet (Watch demoGitFailing demoPoller (str "/other")).1.repos (str "/other") =
          some [])) :=
  ⟨(Watch_idempotent (demoGit (str "dirty")) demoPoller (str "/repo")).2.1 (by decide),
    (Watch_idempotent demoGitFailing demoPoller (str "/other")).2.2.1 (by decide)⟩



/-! ## White space and trimming -/

theorem spaceWidth_le_length (s : GoString) : spaceWidth s ≤ s.length := by
  rcases s with _ | ⟨b0, _ | ⟨b1, _ | ⟨b2, r⟩⟩⟩ <;> simp only [spaceWidth] <;>
    (try split_ifs) <;> simp only [List.length_cons, List.length_nil] <;> omega

theorem spaceWidth_append (s t : GoString) (h : 0 < spaceWidth s) :
    spaceWidth (s ++ t) = spaceWidth s := by
  rcases s with _ | ⟨b0, _ | ⟨b1, _ | ⟨b2, r⟩⟩⟩
  · simp [spaceWidth] at h
  · simp only [spaceWidth] at h ⊢
    split_ifs at h with h0
    · simp [spaceWidth, h0]
    · omega
  · simp only [spaceWidth] at h ⊢
    split_ifs at h with h0 h1
    · simp [spaceWidth, h0]
    · simp [spaceWidth, h0, h1]
    · omega
  · simp only [spaceWidth, List.cons_append]

theorem spaceWidth_take (s : GoString) (h : 0 < spaceWidth s) :
    spaceWidth (s.take (spaceWidth s)) = spaceWidth s := by
  rcases s with _ | ⟨b0, _ | ⟨b1, _ | ⟨b2, r⟩⟩⟩
  · simp [spaceWidth] at h
  · simp only [spaceWidth] at h ⊢
    split_ifs at h with h0
    · simp [spaceWidth, h0]
    · omega
  · simp only [spaceWidth] at h ⊢
    split_ifs at h with h0 h1
    · simp [spaceWidth, h0]
    · simp [spaceWidth, h0, h1]
    · omega
  · simp only [spaceWidth] at h ⊢
    split_ifs at h ⊢ with h0 h1 h2 h3 h4 h5 <;>
      first
        | omega
        | simp [spaceWidth, *]


theorem spaceWidth_le_three (s : GoString) : spaceWidth s ≤ 3 := by
  rcases s with _ | ⟨b0, _ | ⟨b1, _ | ⟨b2, r⟩⟩⟩ <;> simp only [spaceWidth] <;>
    (try split_ifs) <;> omega

theorem spaceWidth_newline (b : GoString) : spaceWidth (10 :: b) = 1 := by
  simp [spaceWidth]

theorem spaceWidth_before_newline (a b : GoString) (ha : a ≠ []) (hn : (10 : UInt8) ∉ a)
    (h : 0 < spaceWidth (a ++ 10 :: b)) : spaceWidth (a ++ 10 :: b) ≤ a.length := by
  have n1 : ¬ ((10 : UInt8) = 0x85) := by decide
  have n2 : ¬ ((10 : UInt8) = 0xA0) := by decide
  have n3 : ¬ ((10 : UInt8) = 0x9A) := by decide
  have n4 : ¬ ((10 : UInt8) = 0x80) := by decide
  have n5 : ¬ ((10 : UInt8) = 0x81) := by decide
  have n6 : ¬ ((10 : UInt8) = 0x9F) := by decide
  have n7 : ¬ ((10 : UInt8) = 0xA8) := by decide
  have n8 : ¬ ((10 : UInt8) = 0xA9) := by decide
  have n9 : ¬ ((10 : UInt8) = 0xAF) := by decide
  have n10 : ¬ ((0x80 : UInt8) ≤ 10) := by decide
  rcases a with _ | ⟨c, _ | ⟨d, _ | ⟨e, r⟩⟩⟩
  · exact absurd rfl ha
  · simp only [List.cons_append, List.nil_append, spaceWidth, List.length_cons,
      List.length_nil] at h ⊢
    split_ifs at h ⊢ <;> first | omega | (simp_all; done) | (cases b <;> simp_all)
  · simp only [List.cons_append, List.nil_append, spaceWidth, List.length_cons,
      List.length_nil] at h ⊢
    split_ifs at h ⊢ <;> first | omega | simp_all
  · have := spaceWidth_le_three ((c :: d :: e :: r) ++ 10 :: b)
    simp only [List.length_cons]
    omega

theorem trailingWidth_spec (s : GoString) (h : 0 < trailingWidth s) :
    trailingWidth s ≤ s.length ∧
      spaceWidth (s.drop (s.length - trailingWidth s)) = trailingWidth s := by
  unfold trailingWidth at h ⊢
  split_ifs at h ⊢ with h1 h2 h3
  · exact ⟨h1.1, h1.2⟩
  · exact ⟨h2.1, h2.2⟩
  · exact ⟨h3.1, h3.2⟩
  · omega

theorem trimLeftFuel_width (fuel : Nat) (s : GoString) (h : s.length ≤ fuel) :
    spaceWidth (trimLeftFuel fuel s) = 0 := by
  induction fuel generalizing s with
  | zero =>
    have : s = [] := List.length_eq_zero.1 (Nat.le_zero.1 h)
    subst this
    rfl
  | succ n ih =>
    simp only [trimLeftFuel]
    split_ifs with h0
    · exact h0
    · apply ih
      have := spaceWidth_le_length s
      rw [List.length_drop]
      omega

theorem trimLeftFuel_empty (fuel : Nat) : trimLeftFuel fuel [] = [] := by
  cases fuel <;> simp [trimLeftFuel, spaceWidth]

theorem trimLeftFuel_stable (n m : Nat) (s : GoString) (hn : s.length ≤ n)
    (hm : s.length ≤ m) : trimLeftFuel n s = trimLeftFuel m s := by
  induction n generalizing m s with
  | zero =>
    have : s = [] := List.length_eq_zero.1 (Nat.le_zero.1 hn)
    subst this
    rw [trimLeftFuel_empty, trimLeftFuel_empty]
  | succ n ih =>
    cases m with
    | zero =>
      have : s = [] := List.length_eq_zero.1 (Nat.le_zero.1 hm)
      subst this
      rw [trimLeftFuel_empty, trimLeftFuel_empty]
    | succ m =>
      simp only [trimLeftFuel]
      split_ifs with h0
      · rfl
      · have hl := spaceWidth_le_length s
        have hd : (s.drop (spaceWidth s)).length < s.length := by
          rw [List.length_drop]; omega
        exact ih m _ (by omega) (by omega)

theorem trimLeft_eq (s : GoString) :
    trimLeft s = if spaceWidth s = 0 then s else trimLeft (s.drop (spaceWidth s)) := by
  cases s with
  | nil => simp [trimLeft, trimLeftFuel, spaceWidth]
  | cons c cs =>
    unfold trimLeft
    simp only [trimLeftFuel, List.length_cons]
    split_ifs with h0
    · rfl
    · have hl := spaceWidth_le_length (c :: cs)
      apply trimLeftFuel_stable
      · rw [List.length_drop, List.length_cons]; omega
      · exact Nat.le_refl _

theorem trimLeft_width (s : GoString) : spaceWidth (trimLeft s) = 0 :=
  trimLeftFuel_width _ _ (Nat.le_refl _)

theorem trimLeft_nil : trimLeft [] = [] := rfl

theorem trimRightFuel_nil (fuel : Nat) (r : GoString) (h : trimRightFuel fuel r = []) :
    r = [] ∨ 0 < spaceWidth r := by
  induction fuel generalizing r with
  | zero => exact Or.inl h
  | succ n ih =>
    simp only [trimRightFuel] at h
    split_ifs at h with h0
    · exact Or.inl h
    · have hk : 0 < trailingWidth r := Nat.pos_of_ne_zero h0
      obtain ⟨hle, hw⟩ := trailingWidth_spec r hk
      have hsplit : r = r.take (r.length - trailingWidth r) ++
          r.drop (r.length - trailingWidth r) := (List.take_append_drop _ _).symm
      rcases ih _ h with h1 | h1
      · right
        rw [h1, List.nil_append] at hsplit
        rw [hsplit, hw]
        exact hk
      · right
        rw [hsplit, spaceWidth_append _ _ h1]
        exact h1

theorem TrimSpace_nil_iff (s : GoString) : TrimSpace s = [] ↔ trimLeft s = [] := by
  constructor
  · intro h
    rcases trimRightFuel_nil _ _ h with h1 | h1
    · exact h1
    · rw [trimLeft_width] at h1
      exact absurd h1 (Nat.lt_irrefl 0)
  · intro h
    simp [TrimSpace, h, trimRight, trimRightFuel]


theorem cut_none_iff (sep : UInt8) (s : GoString) : cut sep s = none ↔ sep ∉ s := by
  induction s with
  | nil => simp [cut]
  | cons c cs ih =>
    unfold cut
    by_cases hc : c = sep
    · simp [hc]
    · have hc' : ¬ sep = c := fun e => hc e.symm
      simp only [hc, if_false, List.mem_cons, hc', false_or]
      rw [← ih]
      cases cut sep cs with
      | none => simp
      | some ab => simp

theorem count_of_cut (sep : UInt8) (s a b : GoString) (h : cut sep s = some (a, b)) :
    s.count sep = b.count sep + 1 := by
  obtain ⟨e, hn⟩ := cut_spec sep s a b h
  rw [e, List.count_append, List.count_cons_self, List.count_eq_zero_of_not_mem hn]
  omega

theorem split_eq (sep : UInt8) (s : GoString) :
    split sep s = match cut sep s with
      | none => [s]
      | some (a, b) => a :: split sep b := by
  cases h : cut sep s with
  | none =>
    have hc : s.count sep = 0 := List.count_eq_zero_of_not_mem ((cut_none_iff sep s).1 h)
    simp [split, hc, splitN]
  | some ab =>
    obtain ⟨a, b⟩ := ab
    have hc := count_of_cut sep s a b h
    simp [split, hc, splitN, h]

theorem trimLeft_blank_parts (n : Nat) (s a b : GoString) (hlen : s.length ≤ n)
    (hs : trimLeft s = []) (e : s = a ++ 10 :: b) (hn : (10 : UInt8) ∉ a) :
    trimLeft a = [] ∧ trimLeft b = [] := by
  induction n generalizing s a with
  | zero =>
    have : s = [] := List.length_eq_zero.1 (Nat.le_zero.1 hlen)
    rw [this] at e
    cases a <;> cases e
  | succ n ih =>
    rw [trimLeft_eq] at hs
    cases a with
    | nil =>
      rw [List.nil_append] at e
      rw [e, spaceWidth_newline] at hs
      simp only [Nat.succ_ne_zero, if_false, List.drop_succ_cons, List.drop_zero] at hs
      exact ⟨trimLeft_nil, hs⟩
    | cons c a1 =>
      have hne : s ≠ [] := by rw [e]; simp
      split_ifs at hs with h0
      · exact absurd hs hne
      · have hpos : 0 < spaceWidth s := Nat.pos_of_ne_zero h0
        have hk : spaceWidth s ≤ (c :: a1).length := by
          rw [e] at hpos ⊢
          exact spaceWidth_before_newline _ _ (List.cons_ne_nil _ _) hn hpos
        have hdropk : ∀ k, k ≤ (c :: a1).length →
            s.drop k = (c :: a1).drop k ++ 10 :: b := by
          intro k hk'
          rw [e]
          exact List.drop_append_of_le_length hk'
        have htakek : ∀ k, k ≤ (c :: a1).length → (c :: a1).take k = s.take k := by
          intro k hk'
          rw [e]
          exact (List.take_append_of_le_length hk').symm
        have hdrop := hdropk _ hk
        have hn2 : (10 : UInt8) ∉ (c :: a1).drop (spaceWidth s) :=
          fun hm => hn (List.mem_of_mem_drop hm)
        have hlen2 : (s.drop (spaceWidth s)).length ≤ n := by
          rw [List.length_drop]; omega
        obtain ⟨h1, h2⟩ := ih _ _ hlen2 hs hdrop hn2
        refine ⟨?_, h2⟩
        have htake := htakek _ hk
        have hw : spaceWidth (c :: a1) = spaceWidth s := by
          have h3 : spaceWidth ((c :: a1).take (spaceWidth s) ++ (c :: a1).drop (spaceWidth s)) =
              spaceWidth s := by
            rw [htake, spaceWidth_append _ _ (by rw [spaceWidth_take s hpos]; exact hpos),
              spaceWidth_take s hpos]
          rwa [List.take_append_drop] at h3
        rw [trimLeft_eq, hw, if_neg h0]
        exact h1

theorem blank_lines (n : Nat) (s : GoString) (hlen : s.length ≤ n) (hs : TrimSpace s = []) :
    ∀ l ∈ split 10 s, TrimSpace l = [] := by
  induction n generalizing s with
  | zero =>
    have : s = [] := List.length_eq_zero.1 (Nat.le_zero.1 hlen)
    subst this
    intro l hl
    have : l = [] := by simpa [split, splitN] using hl
    rw [this]
    exact hs
  | succ n ih =>
    intro l hl
    rw [split_eq] at hl
    cases hc : cut 10 s with
    | none =>
      rw [hc] at hl
      have : l = s := by simpa using hl
      rw [this]
      exact hs
    | some ab =>
      obtain ⟨a, b⟩ := ab
      rw [hc] at hl
      obtain ⟨e, hn⟩ := cut_spec 10 s a b hc
      obtain ⟨h1, h2⟩ := trimLeft_blank_parts _ s a b (Nat.le_refl _)
        ((TrimSpace_nil_iff s).1 hs) e hn
      rcases List.mem_cons.1 hl with rfl | hm
      · exact (TrimSpace_nil_iff _).2 h1
      · apply ih b _ ((TrimSpace_nil_iff _).2 h2) l hm
        rw [e, List.length_append, List.length_cons] at hlen
        omega


/-! ## Owner of a remote URL -/

theorem cut_append_sep (sep : UInt8) (k v : GoString) (h : sep ∉ k) :
    cut sep (k ++ sep :: v) = some (k, v) := by
  induction k with
  | nil => simp [cut]
  | cons c cs ih =>
    simp only [List.mem_cons, not_or] at h
    have hc : ¬ c = sep := fun e => h.1 e.symm
    simp [cut, hc, ih h.2]

theorem takeWhile_before (sep : UInt8) (a b : GoString) (h : sep ∉ a) :
    (a ++ sep :: b).takeWhile (fun c => decide (c ≠ sep)) = a := by
  induction a with
  | nil => simp [List.takeWhile]
  | cons c cs ih =>
    simp only [List.mem_cons, not_or] at h
    have hp : decide (c ≠ sep) = true := decide_eq_true (fun e => h.1 e.symm)
    simp only [List.cons_append, List.takeWhile_cons]
    rw [if_pos hp, ih h.2]

theorem takeWhile_all (sep : UInt8) (s : GoString) (h : sep ∉ s) :
    s.takeWhile (fun c => decide (c ≠ sep)) = s := by
  induction s with
  | nil => rfl
  | cons c cs ih =>
    simp only [List.mem_cons, not_or] at h
    have hp : decide (c ≠ sep) = true := decide_eq_true (fun e => h.1 e.symm)
    simp only [List.takeWhile_cons]
    rw [if_pos hp, ih h.2]

theorem split_head (sep : UInt8) (s : GoString) :
    ∃ tl, split sep s = s.takeWhile (fun c => decide (c ≠ sep)) :: tl := by
  rw [split_eq]
  cases h : cut sep s with
  | none => exact ⟨[], by rw [takeWhile_all sep s ((cut_none_iff sep s).1 h)]⟩
  | some ab =>
    obtain ⟨a, b⟩ := ab
    obtain ⟨e, hn⟩ := cut_spec sep s a b h
    refine ⟨split sep b, ?_⟩
    simp only
    rw [e, takeWhile_before sep a b hn]

theorem indexByte_range (s : GoString) (b : UInt8) :
    indexByte s b = -1 ∨ (0 ≤ indexByte s b ∧ indexByte s b < s.length) := by
  induction s with
  | nil => left; rfl
  | cons c cs ih =>
    unfold indexByte
    by_cases hc : c = b
    · right
      simp [hc]
    · simp only [hc, if_false]
      rcases ih with h | ⟨h1, h2⟩
      · left; simp [h]
      · right
        have hne : ¬ indexByte cs b = -1 := by omega
        simp only [hne, if_false, List.length_cons]
        push_cast
        omega

theorem sliceFrom_ok (s : GoString) (lo : Nat) (h : lo ≤ s.length) :
    sliceFrom s lo = .ok (s.drop lo) := by
  simp [sliceFrom, slice, h]

theorem secondSegment_total (u : GoString) :
    ∃ r, (if (split 47 u).length ≥ 2 then indexParts (split 47 u) 1 else Except.ok []) =
      Except.ok r := by
  split_ifs with hl
  · rcases hp : split 47 u with _ | ⟨p0, _ | ⟨p1, tl⟩⟩
    · rw [hp] at hl; simp at hl
    · rw [hp] at hl; simp at hl
    · exact ⟨p1, by simp [indexParts]⟩
  · exact ⟨[], rfl⟩

theorem ownerFromPath_total (url : GoString) : ∃ r, ownerFromPath url = .ok r := by
  unfold ownerFromPath
  simp only [bind, Except.bind, pure, Except.pure]
  generalize TrimPrefix (TrimPrefix (TrimPrefix url (str "ssh://")) (str "https://"))
    (str "http://") = u
  by_cases h : indexByte u 64 = -1
  · simp only [h, ne_eq, not_true_eq_false, if_false]
    exact secondSegment_total u
  · rcases indexByte_range u 64 with h1 | ⟨h1, h2⟩
    · exact absurd h1 h
    · have hs := sliceFrom_ok u (indexByte u 64 + 1).toNat (by omega)
      simp only [h, ne_eq, not_false_eq_true, if_true, hs]
      exact secondSegment_total _

theorem ownerShorthand_total (url : GoString) : ∃ r, ownerShorthand url = .ok r := by
  unfold ownerShorthand
  by_cases h1 : (containsByte url 64 && containsByte url 58 &&
      !hasPrefix url (str "ssh://")) = true
  · simp only [h1, if_true]
    rcases hp : splitN 58 2 url with _ | ⟨p0, _ | ⟨p1, _ | ⟨p2, tl⟩⟩⟩
    · exact ⟨none, by simp [pure, Except.pure]⟩
    · exact ⟨none, by simp [pure, Except.pure]⟩
    · obtain ⟨tl2, htl⟩ := split_head 47 p1
      simp only [indexParts, List.get?, bind, Except.bind, pure, Except.pure, htl,
        List.length_cons, List.length_nil]
      split_ifs <;> exact ⟨_, rfl⟩
    · exact ⟨none, by simp [pure, Except.pure]⟩
  · exact ⟨none, by simp [h1, pure, Except.pure]⟩

theorem parseOwnerFromURL_total (url : GoString) : ∃ r, parseOwnerFromURL url = .ok r := by
  unfold parseOwnerFromURL
  obtain ⟨o, ho⟩ := ownerShorthand_total url
  simp only [ho, bind, Except.bind]
  cases o with
  | some r => exact ⟨r, rfl⟩
  | none => exact ownerFromPath_total url

/-- C20: for a URL that contains `@`, has the form `a:rest` where `a` holds
neither `:` nor `/`, and does not start with `ssh://`, `parseOwnerFromURL`
returns the text of `rest` up to its first `/` (all of `rest` when it has
none). -/
theorem parseOwnerFromURL_shorthand (url a rest : GoString) (hat : (64 : UInt8) ∈ url)
    (e : url = a ++ 58 :: rest) (hcolon : (58 : UInt8) ∉ a) (hslash : (47 : UInt8) ∉ a)
    (hssh : hasPrefix url (str "ssh://") = false) :
    parseOwnerFromURL url = .ok (rest.takeWhile (fun c => decide (c ≠ 47))) := by
  have h58 : (58 : UInt8) ∈ url := by rw [e]; simp
  have hparts : splitN 58 2 url = [a, rest] := by
    simp [splitN, e, cut_append_sep 58 a rest hcolon]
  obtain ⟨tl, htl⟩ := split_head 47 rest
  have hs : ownerShorthand url = .ok (some (rest.takeWhile (fun c => decide (c ≠ 47)))) := by
    unfold ownerShorthand
    simp only [containsByte, List.elem_eq_mem, hat, h58, decide_True, hssh, Bool.not_false,
      Bool.and_self, if_true, hparts, List.length_cons, List.length_nil, indexParts,
      List.get?, bind, Except.bind, pure, Except.pure, hslash, decide_False, htl]
    simp
  unfold parseOwnerFromURL
  simp only [hs, bind, Except.bind]
  rfl

/-- Witness for C20: the two shorthand URLs of the test suite. -/
theorem parseOwnerFromURL_shorthand_witness :
    parseOwnerFromURL (str "git@github.com:acme/repo.git") = .ok (str "acme") ∧
    parseOwnerFromURL (str "git@gitlab.com:group/subgroup/repo.git") = .ok (str "group") :=
  ⟨parseOwnerFromURL_shorthand _ (str "git@github.com") (str "acme/repo.git")
      (by decide) (by decide) (by decide) (by decide) (by decide),
    parseOwnerFromURL_shorthand _ (str "git@gitlab.com") (str "group/subgroup/repo.git")
      (by decide) (by decide) (by decide) (by decide) (by decide)⟩

/-! ## Status reader: properties -/

theorem parsePorcelainV2_returns (output : GoString) :
    ∃ st, parsePorcelainV2 output = .ok (st, none) := by
  obtain ⟨st, h, -⟩ := parseLines_counts (split 10 output) {}
  exact ⟨st, by simp [parsePorcelainV2, parseLines, h, bind, Except.bind, pure, Except.pure]⟩

theorem runGit_ok (r : Runner) (p : GoString) (args : List GoString) (out : GoString)
    (h : r.exec p args = .ok out) : runGit r p args = (out, none) := by
  simp [runGit, h]

theorem runGit_error (r : Runner) (p : GoString) (args : List GoString) (e : GoError)
    (h : r.exec p args = .error e) : runGit r p args = ([], some e) := by
  simp [runGit, h]

theorem markSpecial_frame (m1 m2 m3 m4 m5 m6 : Bool) (s : RepoStatus) :
    ∃ a b c d e, markSpecial m1 m2 m3 m4 m5 m6 s =
      { s with MergeHead := a, CherryPick := b, Reverting := c, Bisecting := d,
               RebaseHead := e } := by
  cases m1 <;> cases m2 <;> cases m3 <;> cases m4 <;> cases m5 <;> cases m6 <;>
    exact ⟨_, _, _, _, _, rfl⟩

theorem checkSpecialStates_frame (fs : FileSys) (repoPath : GoString) (s : RepoStatus) :
    ∃ a b c d e, checkSpecialStates fs repoPath s =
      { s with MergeHead := a, CherryPick := b, Reverting := c, Bisecting := d,
               RebaseHead := e } :=
  markSpecial_frame _ _ _ _ _ _ s

theorem stashStep_eq (r : Runner) (p : GoString) (s : RepoStatus) :
    stashStep r p s = { s with Stashes :=
      (match r.exec p stashArgs with
       | .ok o => countLines o
       | .error _ => s.Stashes) } := by
  unfold stashStep
  cases h : r.exec p stashArgs with
  | ok o => simp [runGit, h]
  | error e => simp [runGit, h]

theorem lastCommitStep_eq (r : Runner) (p : GoString) (s : RepoStatus) :
    lastCommitStep r p s = { s with LastCommit :=
      (match r.exec p lastCommitArgs with
       | .ok o => if (ParseInt (TrimSpace o)).2 = none then (ParseInt (TrimSpace o)).1
           else s.LastCommit
       | .error _ => s.LastCommit) } := by
  unfold lastCommitStep
  cases h : r.exec p lastCommitArgs with
  | ok o =>
    simp only [runGit, h, if_true]
    split_ifs <;> rfl
  | error e => simp [runGit, h]

theorem ownerStep_eq (r : Runner) (p : GoString) (s : RepoStatus) :
    ∃ owner, ownerStep r p s = .ok { s with Owner := owner } ∧
      (∀ o, r.exec p remoteArgs = .ok o → parseOwnerFromURL (TrimSpace o) = .ok owner) ∧
      (∀ e, r.exec p remoteArgs = .error e → owner = s.Owner) := by
  unfold ownerStep
  cases h : r.exec p remoteArgs with
  | ok o =>
    obtain ⟨owner, ho⟩ := parseOwnerFromURL_total (TrimSpace o)
    refine ⟨owner, by simp [runGit, h, ho, bind, Except.bind, pure, Except.pure], ?_, ?_⟩
    · intro o2 e2
      cases e2
      exact ho
    · intro e2 h2
      cases h2
  | error e =>
    refine ⟨s.Owner, by simp [runGit, h, pure, Except.pure], ?_, ?_⟩
    · intro o2 e2
      cases e2
    · intro _ _
      rfl

theorem lineStep_frame_supp (st : RepoStatus) (line : GoString) :
    ∃ st', lineStep st line = .ok st' ∧ st'.Stashes = st.Stashes ∧
      st'.LastCommit = st.LastCommit ∧ st'.Owner = st.Owner := by
  by_cases hp : hasPrefix line [35, 32] = true
  · obtain ⟨rest, rfl⟩ := (hasPrefix_two _ _ _).1 hp
    rw [lineStep_header]
    rcases parseHeaderLine_effect rest st with
      ⟨-, e⟩ | ⟨k, v, -, ⟨-, e⟩ | ⟨-, e⟩ | ⟨-, -, a, b, e⟩⟩
    · exact ⟨st, e, rfl, rfl, rfl⟩
    · refine ⟨_, e, ?_, ?_, ?_⟩ <;> split_ifs <;> rfl
    · obtain ⟨a, b, e2⟩ := abFold_ok (fields v) st
      exact ⟨_, e.trans e2, rfl, rfl, rfl⟩
    · exact ⟨_, e, rfl, rfl, rfl⟩
  · simp only [Bool.not_eq_true] at hp
    obtain ⟨a, b, c, e⟩ := lineStep_nonheader st line hp
    exact ⟨_, e, rfl, rfl, rfl⟩

theorem fold_frame_supp (lines : List GoString) (st : RepoStatus) :
    ∃ st', lines.foldlM lineStep st = .ok st' ∧ st'.Stashes = st.Stashes ∧
      st'.LastCommit = st.LastCommit ∧ st'.Owner = st.Owner := by
  induction lines generalizing st with
  | nil => exact ⟨st, rfl, rfl, rfl, rfl⟩
  | cons l ls ih =>
    obtain ⟨st1, e1, a1, b1, c1⟩ := lineStep_frame_supp st l
    obtain ⟨st2, e2, a2, b2, c2⟩ := ih st1
    exact ⟨st2, by simp [List.foldlM_cons, e1, bind, Except.bind, e2], a2.trans a1,
      b2.trans b1, c2.trans c1⟩

theorem parsePorcelainV2_supp (output : GoString) :
    ∃ parsed, parsePorcelainV2 output = .ok (parsed, none) ∧ parsed.Stashes = 0 ∧
      parsed.LastCommit = GoTime.zero ∧ parsed.Owner = [] := by
  obtain ⟨st, h, a, b, c⟩ := fold_frame_supp (split 10 output) {}
  exact ⟨st, by simp [parsePorcelainV2, parseLines, h, bind, Except.bind, pure, Except.pure],
    a, b, c⟩

theorem GetStatusFromOutput_spec (r : Runner) (fs : FileSys) (p out : GoString) :
    ∃ parsed owner a b c d e,
      parsePorcelainV2 out = .ok (parsed, none) ∧
      GetStatusFromOutput r fs p out = .ok (some
        { parsed with
          Stashes := (match r.exec p stashArgs with
            | .ok o => countLines o
            | .error _ => 0),
          LastCommit := (match r.exec p lastCommitArgs with
            | .ok o => if (ParseInt (TrimSpace o)).2 = none then (ParseInt (TrimSpace o)).1
                else GoTime.zero
            | .error _ => GoTime.zero),
          Owner := owner,
          MergeHead := a, CherryPick := b, Reverting := c, Bisecting := d, RebaseHead := e },
        none) ∧
      (∀ o, r.exec p remoteArgs = .ok o → parseOwnerFromURL (TrimSpace o) = .ok owner) ∧
      (∀ err, r.exec p remoteArgs = .error err → owner = []) := by
  obtain ⟨parsed, hp, h1, h2, h3⟩ := parsePorcelainV2_supp out
  obtain ⟨owner, ho, ho1, ho2⟩ := ownerStep_eq r p (lastCommitStep r p (stashStep r p parsed))
  obtain ⟨a, b, c, d, e, hf⟩ := checkSpecialStates_frame fs p
    { lastCommitStep r p (stashStep r p parsed) with Owner := owner }
  refine ⟨parsed, owner, a, b, c, d, e, hp, ?_, ho1, ?_⟩
  · unfold GetStatusFromOutput
    simp only [hp, bind, Except.bind, ho, pure, Except.pure, hf]
    rw [lastCommitStep_eq, stashStep_eq]
    simp only [h1, h2]
  · intro err herr
    rw [ho2 err herr, lastCommitStep_eq, stashStep_eq]
    exact h3

theorem lineStep_frame_flags (st : RepoStatus) (line : GoString) :
    ∃ st', lineStep st line = .ok st' ∧ st'.MergeHead = st.MergeHead ∧
      st'.CherryPick = st.CherryPick ∧ st'.Reverting = st.Reverting ∧
      st'.Bisecting = st.Bisecting ∧ st'.RebaseHead = st.RebaseHead := by
  by_cases hp : hasPrefix line [35, 32] = true
  · obtain ⟨rest, rfl⟩ := (hasPrefix_two _ _ _).1 hp
    rw [lineStep_header]
    rcases parseHeaderLine_effect rest st with
      ⟨-, e⟩ | ⟨k, v, -, ⟨-, e⟩ | ⟨-, e⟩ | ⟨-, -, a, b, e⟩⟩
    · exact ⟨st, e, rfl, rfl, rfl, rfl, rfl⟩
    · refine ⟨_, e, ?_, ?_, ?_, ?_, ?_⟩ <;> split_ifs <;> rfl
    · obtain ⟨a, b, e2⟩ := abFold_ok (fields v) st
      exact ⟨_, e.trans e2, rfl, rfl, rfl, rfl, rfl⟩
    · exact ⟨_, e, rfl, rfl, rfl, rfl, rfl⟩
  · simp only [Bool.not_eq_true] at hp
    obtain ⟨a, b, c, e⟩ := lineStep_nonheader st line hp
    exact ⟨_, e, rfl, rfl, rfl, rfl, rfl⟩

theorem fold_frame_flags (lines : List GoString) (st : RepoStatus) :
    ∃ st', lines.foldlM lineStep st = .ok st' ∧ st'.MergeHead = st.MergeHead ∧
      st'.CherryPick = st.CherryPick ∧ st'.Reverting = st.Reverting ∧
      st'.Bisecting = st.Bisecting ∧ st'.RebaseHead = st.RebaseHead := by
  induction lines generalizing st with
  | nil => exact ⟨st, rfl, rfl, rfl, rfl, rfl, rfl⟩
  | cons l ls ih =>
    obtain ⟨st1, e1, a1, b1, c1, d1, f1⟩ := lineStep_frame_flags st l
    obtain ⟨st2, e2, a2, b2, c2, d2, f2⟩ := ih st1
    exact ⟨st2, by simp [List.foldlM_cons, e1, bind, Except.bind, e2], a2.trans a1,
      b2.trans b1, c2.trans c1, d2.trans d1, f2.trans f1⟩


theorem parsed_flags (output : GoString) (parsed : RepoStatus)
    (h : parsePorcelainV2 output = .ok (parsed, none)) :
    parsed.MergeHead = false ∧ parsed.CherryPick = false ∧ parsed.Reverting = false ∧
      parsed.Bisecting = false ∧ parsed.RebaseHead = false := by
  obtain ⟨st, hs, a, b, c, d, f⟩ := fold_frame_flags (split 10 output) {}
  have : parsePorcelainV2 output = .ok (st, none) := by
    simp [parsePorcelainV2, parseLines, hs, bind, Except.bind, pure, Except.pure]
  rw [this] at h
  injection h with h
  injection h with h _
  subst h
  exact ⟨a, b, c, d, f⟩

theorem markSpecial_clean (m1 m2 m3 m4 m5 m6 : Bool) (s : RepoStatus)
    (h1 : s.MergeHead = false) (h2 : s.CherryPick = false) (h3 : s.Reverting = false)
    (h4 : s.Bisecting = false) (h5 : s.RebaseHead = false) :
    markSpecial m1 m2 m3 m4 m5 m6 s =
      { s with MergeHead := m1, CherryPick := m2, Reverting := m3, Bisecting := m4,
               RebaseHead := m5 || m6 } := by
  cases s
  simp only at h1 h2 h3 h4 h5
  subst h1 h2 h3 h4 h5
  cases m1 <;> cases m2 <;> cases m3 <;> cases m4 <;> cases m5 <;> cases m6 <;> rfl

/-- C12: `GetStatus` returns an error and a nil status exactly when the primary
status probe fails.  When it succeeds the record is the one parsed from the
primary output, except for `Stashes`, `LastCommit`, `Owner` and the five
special-state flags; `Stashes`, `LastCommit` and `Owner` are each determined by
their own probe alone and are zero when that probe fails, and the five flags
are determined by the marker files alone, whatever the probes did. -/
theorem GetStatus_probes (r : Runner) (fs : FileSys) (p : GoString) :
    (∀ err, r.exec p statusArgs = .error err → GetStatus r fs p = .ok (none, some err)) ∧
    (∀ out, r.exec p statusArgs = .ok out →
      ∃ parsed owner,
        parsePorcelainV2 out = .ok (parsed, none) ∧
        GetStatus r fs p = .ok (some
          { parsed with
            Stashes := (match r.exec p stashArgs with
              | .ok o => countLines o
              | .error _ => 0),
            LastCommit := (match r.exec p lastCommitArgs with
              | .ok o => if (ParseInt (TrimSpace o)).2 = none then (ParseInt (TrimSpace o)).1
                  else GoTime.zero
              | .error _ => GoTime.zero),
            Owner := owner,
            MergeHead := (fs.stat (fs.join (specialGitDir fs p) (str "MERGE_HEAD"))).isSome,
            CherryPick :=
              (fs.stat (fs.join (specialGitDir fs p) (str "CHERRY_PICK_HEAD"))).isSome,
            Reverting := (fs.stat (fs.join (specialGitDir fs p) (str "REVERT_HEAD"))).isSome,
            Bisecting := (fs.stat (fs.join (specialGitDir fs p) (str "BISECT_LOG"))).isSome,
            RebaseHead :=
              (fs.stat (fs.join (specialGitDir fs p) (str "rebase-merge"))).isSome ||
              (fs.stat (fs.join (specialGitDir fs p) (str "rebase-apply"))).isSome },
          none) ∧
        (∀ o, r.exec p remoteArgs = .ok o → parseOwnerFromURL (TrimSpace o) = .ok owner) ∧
        (∀ err, r.exec p remoteArgs = .error err → owner = [])) := by
  constructor
  · intro err h
    simp [GetStatus, runGit_error r p _ err h, pure, Except.pure]
  · intro out h
    obtain ⟨parsed, hp, h1, h2, h3⟩ := parsePorcelainV2_supp out
    obtain ⟨f1, f2, f3, f4, f5⟩ := parsed_flags out parsed hp
    obtain ⟨owner, ho, ho1, ho2⟩ := ownerStep_eq r p (lastCommitStep r p (stashStep r p parsed))
    refine ⟨parsed, owner, hp, ?_, ho1, ?_⟩
    · simp only [GetStatus, runGit_ok r p _ out h]
      unfold GetStatusFromOutput
      simp only [hp, bind, Except.bind, ho, pure, Except.pure]
      unfold checkSpecialStates
      rw [markSpecial_clean _ _ _ _ _ _ _ (by rw [lastCommitStep_eq, stashStep_eq]; exact f1)
        (by rw [lastCommitStep_eq, stashStep_eq]; exact f2)
        (by rw [lastCommitStep_eq, stashStep_eq]; exact f3)
        (by rw [lastCommitStep_eq, stashStep_eq]; exact f4)
        (by rw [lastCommitStep_eq, stashStep_eq]; exact f5)]
      rw [lastCommitStep_eq, stashStep_eq]
      simp only [h1, h2]
    · intro err herr
      rw [ho2 err herr, lastCommitStep_eq, stashStep_eq]
      exact h3

/-- Witness for C12: the primary probe of the failing runner fails, and that of
the sample runner succeeds while its stash and last-commit probes fail. -/
theorem GetStatus_probes_witness :
    GetStatus demoRunnerFailing demoFileSys (str "/repo") =
        .ok (none, some { msg := str "exit status 128" }) ∧
    ∃ st, GetStatus demoRunner demoFileSys (str "/repo") = .ok (some st, none) ∧
      st.Stashes = 0 ∧ st.LastCommit = GoTime.zero ∧ st.Owner = str "acme" ∧
      st.Branch = str "main" ∧ st.Untracked = 1 := by
  refine ⟨(GetStatus_probes demoRunnerFailing demoFileSys (str "/repo")).1 _ rfl, ?_⟩
  exact ⟨_, rfl, by decide, by decide, by decide, by decide, by decide⟩

/-- C11: `Fetch` returns a nil status and the status error when the status read
fails, whatever the fetch did; otherwise it returns the status `GetStatus`
reads, together with the fetch error, which is nil exactly when the fetch
succeeded. -/
theorem Fetch_result (r : Runner) (fs : FileSys) (p : GoString) :
    (∀ err, r.exec p statusArgs = .error err → Fetch r fs p = .ok (none, some err)) ∧
    (∀ out, r.exec p statusArgs = .ok out →
      ∃ st, GetStatus r fs p = .ok (some st, none) ∧
        (∀ ferr, r.exec p fetchArgs = .error ferr → Fetch r fs p = .ok (some st, some ferr)) ∧
        (∀ fout, r.exec p fetchArgs = .ok fout → Fetch r fs p = .ok (some st, none))) := by
  constructor
  · intro err h
    have hg : GetStatus r fs p = .ok (none, some err) := by
      simp [GetStatus, runGit_error r p _ err h, pure, Except.pure]
    simp [Fetch, hg, bind, Except.bind, pure, Except.pure]
  · intro out h
    obtain ⟨parsed, owner, a, b, c, d, e, -, h2, -, -⟩ := GetStatusFromOutput_spec r fs p out
    have hg : GetStatus r fs p = GetStatusFromOutput r fs p out := by
      simp only [GetStatus, runGit_ok r p _ out h]
    rw [h2] at hg
    refine ⟨_, hg, ?_, ?_⟩
    · intro ferr hf
      simp [Fetch, hg, bind, Except.bind, pure, Except.pure, runGit_error r p _ ferr hf]
    · intro fout hf
      simp [Fetch, hg, bind, Except.bind, pure, Except.pure, runGit_ok r p _ fout hf]

/-- Witness for C11: the fetch of the sample runner fails while its status
probe succeeds, and every probe of the failing runner fails. -/
theorem Fetch_result_witness :
    Fetch demoRunnerFailing demoFileSys (str "/repo") =
        .ok (none, some { msg := str "exit status 128" }) ∧
    ∃ st, GetStatus demoRunner demoFileSys (str "/repo") = .ok (some st, none) ∧
      Fetch demoRunner demoFileSys (str "/repo") =
        .ok (some st, some { msg := str "exit status 128" }) := by
  refine ⟨(Fetch_result demoRunnerFailing demoFileSys (str "/repo")).1 _ rfl, ?_⟩
  obtain ⟨st, h1, h2, -⟩ := (Fetch_result demoRunner demoFileSys (str "/repo")).2 _ rfl
  exact ⟨st, h1, h2 _ rfl⟩


/-! ## Numstat parser: properties -/

theorem wrapInt_add (a b : Int) : addInt (wrapInt a) b = wrapInt (a + b) := by
  unfold addInt wrapInt
  omega

theorem wrapInt_of_inRange (x : Int) (h : inIntRange x) : wrapInt x = x := by
  unfold inIntRange at h
  unfold wrapInt
  omega

theorem splitN_three (sep : UInt8) (x y z : GoString) (hx : sep ∉ x) (hy : sep ∉ y) :
    splitN sep 3 (x ++ sep :: (y ++ sep :: z)) = [x, y, z] := by
  simp [splitN, cut_append_sep sep x _ hx, cut_append_sep sep y z hy]

theorem splitN_three_cases (sep : UInt8) (line : GoString) :
    (splitN sep 3 line).length < 3 ∨
      ∃ x y z, splitN sep 3 line = [x, y, z] ∧ line = x ++ sep :: (y ++ sep :: z) ∧
        sep ∉ x ∧ sep ∉ y := by
  cases h1 : cut sep line with
  | none => left; simp [splitN, h1]
  | some ab =>
    obtain ⟨a, b⟩ := ab
    cases h2 : cut sep b with
    | none => left; simp [splitN, h1, h2]
    | some kv =>
      obtain ⟨k, v⟩ := kv
      right
      obtain ⟨e1, n1⟩ := cut_spec _ _ _ _ h1
      obtain ⟨e2, n2⟩ := cut_spec _ _ _ _ h2
      exact ⟨a, k, v, by simp [splitN, h1, h2], by rw [e1, e2], n1, n2⟩

theorem two_seps_decompose (sep : UInt8) (line x y z : GoString)
    (h : line = x ++ sep :: (y ++ sep :: z)) :
    ∃ x1 y1 z1, line = x1 ++ sep :: (y1 ++ sep :: z1) ∧ sep ∉ x1 ∧ sep ∉ y1 := by
  cases h1 : cut sep line with
  | none =>
    have := (cut_none_iff sep line).1 h1
    rw [h] at this
    exact absurd (by simp) this
  | some ab =>
    obtain ⟨a, b⟩ := ab
    obtain ⟨e1, n1⟩ := cut_spec _ _ _ _ h1
    cases h2 : cut sep b with
    | none =>
      exfalso
      have hb := (cut_none_iff sep b).1 h2
      have hcount : line.count sep = 1 := by
        rw [e1, List.count_append, List.count_cons_self, List.count_eq_zero_of_not_mem n1,
          List.count_eq_zero_of_not_mem hb]
      rw [h] at hcount
      simp only [List.count_append, List.count_cons_self] at hcount
      omega
    | some kv =>
      obtain ⟨k, v⟩ := kv
      obtain ⟨e2, n2⟩ := cut_spec _ _ _ _ h2
      exact ⟨a, k, v, by rw [e1, e2], n1, n2⟩

theorem numstatEntry_none (line : GoString)
    (h : ¬ ∃ x y z, TrimSpace line = x ++ 9 :: (y ++ 9 :: z)) : numstatEntry line = none := by
  unfold numstatEntry
  rcases splitN_three_cases 9 (TrimSpace line) with hl | ⟨x, y, z, -, e, -, -⟩
  · rcases hs : splitN 9 3 (TrimSpace line) with _ | ⟨p0, _ | ⟨p1, _ | ⟨p2, _ | ⟨p3, tl⟩⟩⟩⟩ <;>
      first
        | rfl
        | (rw [hs] at hl; simp at hl)
  · exact absurd ⟨x, y, z, e⟩ h

theorem numstatEntry_some (line x y z : GoString)
    (h : TrimSpace line = x ++ 9 :: (y ++ 9 :: z)) (hx : (9 : UInt8) ∉ x) (hy : (9 : UInt8) ∉ y) :
    ∃ f, numstatEntry line = some f ∧ f.Path = z ∧
      (f.Binary = true ↔ x = str "-" ∧ y = str "-") ∧
      (f.Binary = true → f.Added = 0 ∧ f.Deleted = 0) := by
  unfold numstatEntry
  rw [h, splitN_three 9 x y z hx hy]
  by_cases hb : x = str "-" ∧ y = str "-"
  · refine ⟨{ Path := z, Binary := true }, by simp only [hb, and_self, if_true], rfl,
      ?_, fun _ => ⟨rfl, rfl⟩⟩
    simp [hb]
  · refine ⟨{ Path := z, Added := (Atoi x).1, Deleted := (Atoi y).1 },
      by simp only [hb, if_false], rfl, ?_, ?_⟩
    · simp [hb]
    · intro hf
      cases hf

theorem numstatStep_eq (acc : NumstatAcc) (line : GoString) :
    numstatStep acc line = .ok (match numstatEntry line with
      | none => acc
      | some f =>
        if f.Binary = true then { acc with files := acc.files ++ [f] }
        else { files := acc.files ++ [f], totalAdded := addInt acc.totalAdded f.Added,
               totalDeleted := addInt acc.totalDeleted f.Deleted }) := by
  unfold numstatStep numstatEntry
  by_cases h0 : TrimSpace line = []
  · simp [h0, splitN, cut, pure, Except.pure]
  · simp only [h0, if_false]
    rcases hs : splitN 9 3 (TrimSpace line) with _ | ⟨p0, _ | ⟨p1, _ | ⟨p2, _ | ⟨p3, tl⟩⟩⟩⟩
    · simp [pure, Except.pure]
    · simp [pure, Except.pure]
    · simp [pure, Except.pure]
    · simp only [List.length_cons, List.length_nil, indexParts, List.get?, bind, Except.bind,
        pure, Except.pure]
      by_cases hb : p0 = str "-" ∧ p1 = str "-"
      · simp [hb]
      · simp [hb]
    · exfalso
      rcases splitN_three_cases 9 (TrimSpace line) with hl | ⟨x, y, z, e, -⟩
      · rw [hs] at hl
        simp only [List.length_cons] at hl
        omega
      · rw [hs] at e; simp at e


theorem sumAdded_cons (f : FileDiffStat) (fs : List FileDiffStat) :
    sumAdded (f :: fs) = (if f.Binary = true then 0 else f.Added) + sumAdded fs := by
  unfold sumAdded
  by_cases h : f.Binary = true
  · simp [List.filter_cons, h]
  · simp [List.filter_cons, h]

theorem sumDeleted_cons (f : FileDiffStat) (fs : List FileDiffStat) :
    sumDeleted (f :: fs) = (if f.Binary = true then 0 else f.Deleted) + sumDeleted fs := by
  unfold sumDeleted
  by_cases h : f.Binary = true
  · simp [List.filter_cons, h]
  · simp [List.filter_cons, h]

theorem numstatFold_spec (lines : List GoString) (acc : NumstatAcc) (sa sd : Int)
    (ha : acc.totalAdded = wrapInt sa) (hd : acc.totalDeleted = wrapInt sd) :
    ∃ acc', lines.foldlM numstatStep acc = .ok acc' ∧
      acc'.files = acc.files ++ lines.filterMap numstatEntry ∧
      acc'.totalAdded = wrapInt (sa + sumAdded (lines.filterMap numstatEntry)) ∧
      acc'.totalDeleted = wrapInt (sd + sumDeleted (lines.filterMap numstatEntry)) := by
  induction lines generalizing acc sa sd with
  | nil => exact ⟨acc, rfl, by simp, by simpa [sumAdded] using ha, by simpa [sumDeleted] using hd⟩
  | cons l ls ih =>
    simp only [List.foldlM_cons, numstatStep_eq, bind, Except.bind]
    cases he : numstatEntry l with
    | none =>
      obtain ⟨acc', e, h1, h2, h3⟩ := ih acc sa sd ha hd
      refine ⟨acc', e, ?_, ?_, ?_⟩
      · rw [h1, List.filterMap_cons, he]
      · rw [h2, List.filterMap_cons, he]
      · rw [h3, List.filterMap_cons, he]
    | some f =>
      by_cases hb : f.Binary = true
      · obtain ⟨acc', e, h1, h2, h3⟩ := ih { acc with files := acc.files ++ [f] } sa sd ha hd
        refine ⟨acc', by simpa [hb] using e, ?_, ?_, ?_⟩
        · rw [h1, List.filterMap_cons, he]; simp
        · rw [h2, List.filterMap_cons, he, sumAdded_cons, if_pos hb, zero_add]
        · rw [h3, List.filterMap_cons, he, sumDeleted_cons, if_pos hb, zero_add]
      · obtain ⟨acc', e, h1, h2, h3⟩ := ih
          { files := acc.files ++ [f], totalAdded := addInt acc.totalAdded f.Added,
            totalDeleted := addInt acc.totalDeleted f.Deleted }
          (sa + f.Added) (sd + f.Deleted)
          (by show addInt acc.totalAdded f.Added = _; rw [ha, wrapInt_add])
          (by show addInt acc.totalDeleted f.Deleted = _; rw [hd, wrapInt_add])
        refine ⟨acc', by simpa [hb] using e, ?_, ?_, ?_⟩
        · rw [h1, List.filterMap_cons, he]; simp
        · rw [h2, List.filterMap_cons, he, sumAdded_cons, if_neg hb, add_assoc]
        · rw [h3, List.filterMap_cons, he, sumDeleted_cons, if_neg hb, add_assoc]

theorem numstatEntry_blank (line : GoString) (h : TrimSpace line = []) :
    numstatEntry line = none := by
  unfold numstatEntry
  rw [h]
  rfl

theorem parseNumstat_spec (output : GoString) :
    parseNumstat output = .ok ((split 10 output).filterMap numstatEntry,
      wrapInt (sumAdded ((split 10 output).filterMap numstatEntry)),
      wrapInt (sumDeleted ((split 10 output).filterMap numstatEntry))) ∧
    (TrimSpace output = [] → (split 10 output).filterMap numstatEntry = []) := by
  have hblank : TrimSpace output = [] → (split 10 output).filterMap numstatEntry = [] := by
    intro h
    rw [List.filterMap_eq_nil_iff]
    intro l hl
    exact numstatEntry_blank l (blank_lines _ output (Nat.le_refl _) h l hl)
  refine ⟨?_, hblank⟩
  unfold parseNumstat
  by_cases h : TrimSpace output = []
  · rw [if_pos h, hblank h]
    rfl
  · rw [if_neg h]
    obtain ⟨acc', e, h1, h2, h3⟩ := numstatFold_spec (split 10 output) {} 0 0 rfl rfl
    simp only [e, bind, Except.bind, pure, Except.pure, h1, h2, h3, zero_add]
    rfl

theorem binary_zero (lines : List GoString) :
    ∀ f ∈ lines.filterMap numstatEntry, f.Binary = true → f.Added = 0 ∧ f.Deleted = 0 := by
  intro f hf hb
  obtain ⟨l, -, hl⟩ := List.mem_filterMap.1 hf
  unfold numstatEntry at hl
  split at hl
  · split_ifs at hl
    · cases hl
      exact ⟨rfl, rfl⟩
    · cases hl
      cases hb
  · cases hl

/-- C15: for every numstat output `parseNumstat` returns, and its totals are the
sums of `Added` and of `Deleted` over the returned entries that are not binary,
taken in 64-bit `int` arithmetic (the exact sums whenever these fit an `int`);
binary entries are in the list with zero counts, and white-space-only input
gives no files and zero totals. -/
theorem parseNumstat_totals (output : GoString) :
    ∃ files added deleted, parseNumstat output = .ok (files, added, deleted) ∧
      added = wrapInt (sumAdded files) ∧ deleted = wrapInt (sumDeleted files) ∧
      (inIntRange (sumAdded files) → added = sumAdded files) ∧
      (inIntRange (sumDeleted files) → deleted = sumDeleted files) ∧
      (∀ f ∈ files, f.Binary = true → f.Added = 0 ∧ f.Deleted = 0) ∧
      (TrimSpace output = [] → files = [] ∧ added = 0 ∧ deleted = 0) := by
  obtain ⟨h, hb⟩ := parseNumstat_spec output
  refine ⟨_, _, _, h, rfl, rfl, wrapInt_of_inRange _, wrapInt_of_inRange _,
    binary_zero _, ?_⟩
  intro hw
  rw [hb hw]
  exact ⟨rfl, rfl, rfl⟩

/-- Witness for C15: `10\t5\tsrc/main.go\n-\t-\timage.png\n` gives 2 files, 10
added and 5 deleted. -/
theorem parseNumstat_totals_witness :
    ∃ files added deleted,
      parseNumstat (str "10\t5\tsrc/main.go\n-\t-\timage.png\n") = .ok (files, added, deleted) ∧
      files.length = 2 ∧ added = 10 ∧ deleted = 5 := by
  obtain ⟨files, a, d, h, -, -, ha, hd, -, -⟩ :=
    parseNumstat_totals (str "10\t5\tsrc/main.go\n-\t-\timage.png\n")
  have hv : parseNumstat (str "10\t5\tsrc/main.go\n-\t-\timage.png\n") =
      .ok ([{ Path := str "src/main.go", Added := 10, Deleted := 5 },
            { Path := str "image.png", Binary := true }], 10, 5) := rfl
  rw [hv] at h
  cases h
  exact ⟨_, _, _, hv, rfl, rfl, rfl⟩

/-- A count that leaves the 64-bit range is stored as the bound `Atoi` returns
with its range error, which `parseNumstat` discards. -/
theorem numstatEntry_range :
    numstatEntry (str "99999999999999999999x\t1\tf") =
      some { Path := str "f", Added := 9223372036854775807, Deleted := 1 } := by
  decide

/-- C16: `parseNumstat` returns, in input order, one entry per line whose
trimmed text has at least three tab-separated fields `x`, `y` and the rest `z`
of the line; the entry has `Path = z`, is binary exactly when `x` and `y` are
both `-`, and then has zero counts; a line with fewer fields gives no entry. -/
theorem parseNumstat_entries (output : GoString) :
    ∃ files added deleted, parseNumstat output = .ok (files, added, deleted) ∧
      files = (split 10 output).filterMap numstatEntry ∧
      (∀ line x y z, TrimSpace line = x ++ 9 :: (y ++ 9 :: z) → (9 : UInt8) ∉ x →
        (9 : UInt8) ∉ y →
        ∃ f, numstatEntry line = some f ∧ f.Path = z ∧
          (f.Binary = true ↔ x = str "-" ∧ y = str "-") ∧
          (f.Binary = true → f.Added = 0 ∧ f.Deleted = 0)) ∧
      (∀ line, (¬ ∃ x y z, TrimSpace line = x ++ 9 :: (y ++ 9 :: z)) →
        numstatEntry line = none) :=
  ⟨_, _, _, (parseNumstat_spec output).1, rfl, numstatEntry_some, numstatEntry_none⟩

/-- Witness for C16: a text line, a binary line and a line with two fields. -/
theorem parseNumstat_entries_witness :
    (∃ f, numstatEntry (str " 22\t5\tsrc/app.go") = some f ∧ f.Path = str "src/app.go" ∧
      (f.Binary = true ↔ str "22" = str "-" ∧ str "5" = str "-") ∧
      (f.Binary = true → f.Added = 0 ∧ f.Deleted = 0)) ∧
    numstatEntry (str "22\tsrc/app.go") = none := by
  obtain ⟨_, _, _, -, -, h1, h2⟩ := parseNumstat_entries (str "22\t5\tsrc/app.go\n")
  refine ⟨h1 _ (str "22") (str "5") (str "src/app.go") (by decide) (by decide) (by decide),
    h2 _ ?_⟩
  rintro ⟨x, y, z, e⟩
  have hc : (TrimSpace (str "22\tsrc/app.go")).count 9 = 1 := by decide
  rw [e] at hc
  simp only [List.count_append, List.count_cons_self] at hc
  omega


/-! ## Diff statistics: properties -/

theorem GetDiffStats_spec (r : Runner) (collectedAt : GoTime) (clk : Clock) (p : GoString) :
    ∃ uf ua ud sf sa sd dc fc,
      GetDiffStats r collectedAt clk p = .ok
        { UnstagedFiles := uf, UnstagedAdded := ua, UnstagedDeleted := ud,
          StagedFiles := sf, StagedAdded := sa, StagedDeleted := sd,
          TotalAdded := addInt ua sa, TotalDeleted := addInt ud sd,
          NetDelta := subInt (addInt ua sa) (addInt ud sd),
          DailyCommits := dc, FileChurn := fc, CollectedAt := collectedAt } ∧
      (∀ e, r.exec p unstagedArgs = .error e → uf = [] ∧ ua = 0 ∧ ud = 0) ∧
      (∀ e, r.exec p stagedArgs = .error e → sf = [] ∧ sa = 0 ∧ sd = 0) ∧
      (∀ e, r.exec p activityArgs = .error e → dc = List.replicate 7 0) ∧
      (∀ e, r.exec p churnArgs = .error e → fc = some []) := by
  unfold GetDiffStats
  rcases h1 : r.exec p unstagedArgs with e1 | o1 <;>
  rcases h2 : r.exec p stagedArgs with e2 | o2 <;>
  rcases h3 : r.exec p activityArgs with e3 | o3 <;>
  rcases h4 : r.exec p churnArgs with e4 | o4 <;>
  simp only [runGit, h1, h2, h3, h4, (parseNumstat_spec _).1, bind, Except.bind, pure,
    Except.pure, if_true, if_false, reduceCtorEq] <;>
  refine ⟨_, _, _, _, _, _, _, _, rfl, ?_, ?_, ?_, ?_⟩ <;>
  intro e he <;>
  first
    | exact ⟨rfl, rfl, rfl⟩
    | rfl
    | cases he

/-- C13: `GetDiffStats` always returns a result; the part owned by each probe
that fails (unstaged files and aggregates, staged files and aggregates, the
seven daily slots, the churn map) is zero or empty, and when all four fail
every list, aggregate, derived total and daily slot is zero and the churn map
is the empty, non-nil map. -/
theorem GetDiffStats_partial (r : Runner) (collectedAt : GoTime) (clk : Clock) (p : GoString) :
    ∃ ds, GetDiffStats r collectedAt clk p = .ok ds ∧
      (∀ e, r.exec p unstagedArgs = .error e →
        ds.UnstagedFiles = [] ∧ ds.UnstagedAdded = 0 ∧ ds.UnstagedDeleted = 0) ∧
      (∀ e, r.exec p stagedArgs = .error e →
        ds.StagedFiles = [] ∧ ds.StagedAdded = 0 ∧ ds.StagedDeleted = 0) ∧
      (∀ e, r.exec p activityArgs = .error e → ds.DailyCommits = [0, 0, 0, 0, 0, 0, 0]) ∧
      (∀ e, r.exec p churnArgs = .error e → ds.FileChurn = some []) ∧
      (∀ e1 e2 e3 e4, r.exec p unstagedArgs = .error e1 → r.exec p stagedArgs = .error e2 →
        r.exec p activityArgs = .error e3 → r.exec p churnArgs = .error e4 →
        ds = { UnstagedFiles := [], UnstagedAdded := 0, UnstagedDeleted := 0,
               StagedFiles := [], StagedAdded := 0, StagedDeleted := 0,
               TotalAdded := 0, TotalDeleted := 0, NetDelta := 0,
               DailyCommits := [0, 0, 0, 0, 0, 0, 0], FileChurn := some [],
               CollectedAt := collectedAt }) := by
  obtain ⟨uf, ua, ud, sf, sa, sd, dc, fc, h, h1, h2, h3, h4⟩ :=
    GetDiffStats_spec r collectedAt clk p
  refine ⟨_, h, h1, h2, h3, h4, ?_⟩
  intro e1 e2 e3 e4 g1 g2 g3 g4
  obtain ⟨rfl, rfl, rfl⟩ := h1 e1 g1
  obtain ⟨rfl, rfl, rfl⟩ := h2 e2 g2
  rw [h3 e3 g3, h4 e4 g4]
  rfl

/-- Witness for C13: every probe of the failing runner fails. -/
theorem GetDiffStats_partial_witness :
    ∃ ds, GetDiffStats demoRunnerFailing 0 { unix := 0, offset := 0 } (str "/repo") = .ok ds ∧
      ds = { UnstagedFiles := [], UnstagedAdded := 0, UnstagedDeleted := 0,
             StagedFiles := [], StagedAdded := 0, StagedDeleted := 0,
             TotalAdded := 0, TotalDeleted := 0, NetDelta := 0,
             DailyCommits := [0, 0, 0, 0, 0, 0, 0], FileChurn := some [],
             CollectedAt := 0 } := by
  obtain ⟨ds, h, -, -, -, -, hall⟩ :=
    GetDiffStats_partial demoRunnerFailing 0 { unix := 0, offset := 0 } (str "/repo")
  exact ⟨ds, h, hall _ _ _ _ rfl rfl rfl rfl⟩

/-- C14: the record `GetDiffStats` returns has `TotalAdded = UnstagedAdded +
StagedAdded`, `TotalDeleted = UnstagedDeleted + StagedDeleted` and `NetDelta =
TotalAdded - TotalDeleted`, and `TotalDiffVolume` is `TotalAdded +
TotalDeleted`, all in 64-bit `int` arithmetic: the exact sums and difference
whenever these fit an `int`. -/
theorem GetDiffStats_totals (r : Runner) (collectedAt : GoTime) (clk : Clock) (p : GoString) :
    ∃ ds, GetDiffStats r collectedAt clk p = .ok ds ∧
      ds.TotalAdded = addInt ds.UnstagedAdded ds.StagedAdded ∧
      ds.TotalDeleted = addInt ds.UnstagedDeleted ds.StagedDeleted ∧
      ds.NetDelta = subInt ds.TotalAdded ds.TotalDeleted ∧
      ds.TotalDiffVolume = addInt ds.TotalAdded ds.TotalDeleted ∧
      (inIntRange (ds.UnstagedAdded + ds.StagedAdded) →
        ds.TotalAdded = ds.UnstagedAdded + ds.StagedAdded) ∧
      (inIntRange (ds.UnstagedDeleted + ds.StagedDeleted) →
        ds.TotalDeleted = ds.UnstagedDeleted + ds.StagedDeleted) ∧
      (inIntRange (ds.TotalAdded - ds.TotalDeleted) →
        ds.NetDelta = ds.TotalAdded - ds.TotalDeleted) ∧
      (inIntRange (ds.TotalAdded + ds.TotalDeleted) →
        ds.TotalDiffVolume = ds.TotalAdded + ds.TotalDeleted) := by
  obtain ⟨uf, ua, ud, sf, sa, sd, dc, fc, h, -⟩ := GetDiffStats_spec r collectedAt clk p
  exact ⟨_, h, rfl, rfl, rfl, rfl, wrapInt_of_inRange _, wrapInt_of_inRange _,
    wrapInt_of_inRange _, wrapInt_of_inRange _⟩


/-- Witness for C14: unstaged `10/5`, staged `3/1` plus a binary file. -/
theorem GetDiffStats_totals_witness :
    ∃ ds, GetDiffStats demoRunnerDiff 0 { unix := 0, offset := 0 } (str "/repo") = .ok ds ∧
      ds.TotalAdded = 13 ∧ ds.TotalDeleted = 6 ∧ ds.NetDelta = 7 ∧ ds.TotalDiffVolume = 19 := by
  obtain ⟨ds, h, -, -, -, -, h1, h2, h3, h4⟩ :=
    GetDiffStats_totals demoRunnerDiff 0 { unix := 0, offset := 0 } (str "/repo")
  have hv : GetDiffStats demoRunnerDiff 0 { unix := 0, offset := 0 } (str "/repo") = .ok
      { UnstagedFiles := [{ Path := str "src/main.go", Added := 10, Deleted := 5 }],
        UnstagedAdded := 10, UnstagedDeleted := 5,
        StagedFiles := [{ Path := str "README.md", Added := 3, Deleted := 1 },
                        { Path := str "logo.png", Binary := true }],
        StagedAdded := 3, StagedDeleted := 1,
        TotalAdded := 13, TotalDeleted := 6, NetDelta := 7,
        DailyCommits := [0, 0, 0, 0, 0, 0, 0], FileChurn := some [], CollectedAt := 0 } := rfl
  rw [hv] at h
  cases h
  exact ⟨_, hv, h1 ⟨by decide, by decide⟩, h2 ⟨by decide, by decide⟩,
    h3 ⟨by decide, by decide⟩, h4 ⟨by decide, by decide⟩⟩

/-! ## File churn: properties -/

theorem countGet_countIncr_self (m : CountMap) (k : GoString) :
    countGet (countIncr m k) k = countGet m k + 1 := by
  induction m with
  | nil => simp [countIncr, countGet]
  | cons e m ih =>
    obtain ⟨k0, v⟩ := e
    by_cases h : k0 = k
    · simp [countIncr, countGet, h]
    · simp [countIncr, countGet, h, ih]

theorem countGet_countIncr_ne (m : CountMap) (k x : GoString) (h : x ≠ k) :
    countGet (countIncr m k) x = countGet m x := by
  induction m with
  | nil =>
    have h' : ¬ k = x := fun e => h e.symm
    simp [countIncr, countGet, h']
  | cons e m ih =>
    obtain ⟨k0, v⟩ := e
    by_cases hk : k0 = k
    · subst hk
      have hx : ¬ k0 = x := fun e => h e.symm
      simp only [countIncr, if_true, countGet, hx, if_false]
    · by_cases hx : k0 = x
      · subst hx
        simp only [countIncr, hk, if_false, countGet, if_true]
      · simp only [countIncr, hk, if_false, countGet, hx, ih]

theorem countKeys_countIncr (m : CountMap) (k : GoString) :
    countKeys (countIncr m k) = if k ∈ countKeys m then countKeys m else countKeys m ++ [k] := by
  induction m with
  | nil => simp [countIncr, countKeys]
  | cons e m ih =>
    obtain ⟨k0, v⟩ := e
    by_cases hk : k0 = k
    · subst hk
      simp [countIncr, countKeys]
    · have hk' : ¬ k = k0 := fun e => hk e.symm
      simp only [countKeys] at ih
      simp only [countIncr, hk, if_false, countKeys, List.map_cons, List.mem_cons, hk',
        false_or, ih]
      split_ifs <;> simp

theorem countValues_countIncr (m : CountMap) (k : GoString) :
    (countValues (countIncr m k)).sum = (countValues m).sum + 1 := by
  induction m with
  | nil => simp [countIncr, countValues]
  | cons e m ih =>
    obtain ⟨k0, v⟩ := e
    by_cases hk : k0 = k
    · simp only [countIncr, hk, if_true, countValues, List.map_cons, List.sum_cons]
      omega
    · simp only [countValues] at ih
      simp only [countIncr, hk, if_false, countValues, List.map_cons, List.sum_cons, ih]
      omega

theorem countFold_spec (xs : List GoString) (m : CountMap) (hnd : (countKeys m).Nodup) :
    (countKeys (xs.foldl countIncr m)).Nodup ∧
    (∀ k, k ∈ countKeys (xs.foldl countIncr m) ↔ k ∈ countKeys m ∨ k ∈ xs) ∧
    (∀ k, countGet (xs.foldl countIncr m) k = countGet m k + (xs.count k : Nat)) ∧
    (countValues (xs.foldl countIncr m)).sum = (countValues m).sum + (xs.length : Nat) := by
  induction xs generalizing m with
  | nil => simpa using hnd
  | cons x xs ih =>
    have hnd1 : (countKeys (countIncr m x)).Nodup := by
      rw [countKeys_countIncr]
      split_ifs with hx
      · exact hnd
      · exact List.Nodup.append hnd (List.nodup_singleton x) (by simpa using hx)
    obtain ⟨h1, h2, h3, h4⟩ := ih (countIncr m x) hnd1
    refine ⟨h1, ?_, ?_, ?_⟩
    · intro k
      rw [List.foldl_cons, h2 k, countKeys_countIncr]
      split_ifs with hx
      · constructor
        · rintro (h | h)
          · exact Or.inl h
          · exact Or.inr (List.mem_cons_of_mem _ h)
        · rintro (h | h)
          · exact Or.inl h
          · rcases List.mem_cons.1 h with rfl | h
            · exact Or.inl hx
            · exact Or.inr h
      · simp only [List.mem_append, List.mem_singleton, List.mem_cons]
        tauto
    · intro k
      rw [List.foldl_cons, h3 k]
      by_cases hk : k = x
      · subst hk
        rw [countGet_countIncr_self, List.count_cons_self]
        push_cast
        omega
      · rw [countGet_countIncr_ne _ _ _ hk, List.count_cons_of_ne hk]
    · rw [List.foldl_cons, h4, countValues_countIncr, List.length_cons]
      push_cast
      omega

theorem countLinesInto_fold (lines : List GoString) (m : CountMap) :
    lines.foldl countLinesInto m =
      ((lines.map TrimSpace).filter (fun l => decide (l ≠ []))).foldl countIncr m := by
  induction lines generalizing m with
  | nil => rfl
  | cons l ls ih =>
    by_cases h : TrimSpace l = []
    · simp [List.foldl_cons, countLinesInto, h, ih]
    · simp [List.foldl_cons, countLinesInto, h, ih]

theorem nonBlankLines_blank (output : GoString) (h : TrimSpace output = []) :
    nonBlankLines output = [] := by
  unfold nonBlankLines
  rw [List.filter_eq_nil_iff]
  intro l hl
  obtain ⟨raw, hraw, rfl⟩ := List.mem_map.1 hl
  simp [blank_lines _ output (Nat.le_refl _) h raw hraw]

theorem parseFileChurn_eq (output : GoString) :
    parseFileChurn output = some ((nonBlankLines output).foldl countIncr []) := by
  unfold parseFileChurn
  split_ifs with h
  · rw [nonBlankLines_blank output h]
    rfl
  · rw [countLinesInto_fold]
    rfl

/-- C18: `parseFileChurn` returns a non-nil map whose keys are exactly the
distinct non-blank trimmed lines of the input, each with the number of lines
equal to it after trimming; the values add up to the number of non-blank lines,
and empty or white-space-only input gives the empty map. -/
theorem parseFileChurn_counts (output : GoString) :
    ∃ m, parseFileChurn output = some m ∧
      (countKeys m).Nodup ∧
      (∀ k, k ∈ countKeys m ↔ k ∈ nonBlankLines output) ∧
      (∀ k, countGet m k = ((nonBlankLines output).count k : Nat)) ∧
      (countValues m).sum = ((nonBlankLines output).length : Nat) ∧
      (TrimSpace output = [] → m = []) := by
  obtain ⟨h1, h2, h3, h4⟩ := countFold_spec (nonBlankLines output) [] List.nodup_nil
  refine ⟨_, parseFileChurn_eq output, h1, ?_, ?_, ?_, ?_⟩
  · intro k
    rw [h2 k]
    simp [countKeys]
  · intro k
    rw [h3 k]
    simp [countGet]
  · rw [h4]
    simp [countValues]
  · intro h
    rw [nonBlankLines_blank output h]
    rfl

/-- Witness for C18: white-space-only input gives the empty map. -/
theorem parseFileChurn_counts_witness :
    ∃ m, parseFileChurn (str "  \n  \n") = some m ∧ m = [] := by
  obtain ⟨m, h, -, -, -, -, hm⟩ := parseFileChurn_counts (str "  \n  \n")
  exact ⟨m, h, hm (by decide)⟩

/-- C17 (code at the failing input): in a zone nine hours east of UTC, at
2026-11-04 08:00 local time (Unix time 1793746800), the local date is
2026-11-04, yet a log with one commit dated 2026-11-04 fills no slot, and a
commit dated 2026-11-03 is counted in slot 6. -/
theorem parseDailyCommits_utc_midnight :
    formatDate 1793746800 32400 = str "2026-11-04" ∧
    parseDailyCommits { unix := 1793746800, offset := 32400 } (str "2026-11-04\n") =
      [0, 0, 0, 0, 0, 0, 0] ∧
    parseDailyCommits { unix := 1793746800, offset := 32400 } (str "2026-11-03\n") =
      [0, 0, 0, 0, 0, 0, 1] := by
  decide

/-! ## Top churn files: properties -/

theorem toNat_map_injective (a b : GoString) (h : a.map UInt8.toNat = b.map UInt8.toNat) :
    a = b := by
  induction a generalizing b with
  | nil =>
    cases b with
    | nil => rfl
    | cons y ys => simp at h
  | cons x xs ih =>
    cases b with
    | nil => simp at h
    | cons y ys =>
      simp only [List.map_cons, List.cons.injEq] at h
      have hxy : x = y := by
        cases x; cases y
        simp only [UInt8.toNat] at h
        have := BitVec.eq_of_toNat_eq h.1
        subst this
        rfl
      rw [hxy, ih ys h.2]

/-- The ranking relation handed to the sort: `b` is not `less` than `a`. -/
theorem notLess_iff (a b : FileChurnEntry) :
    churnLess b a = false ↔
      b.Count < a.Count ∨
        (a.Count = b.Count ∧ a.Path.map UInt8.toNat ≤ b.Path.map UInt8.toNat) := by
  unfold churnLess strLess
  by_cases hc : b.Count = a.Count
  · simp only [hc, ne_eq, not_true_eq_false, if_false, decide_eq_false_iff_not, not_lt,
      lt_self_iff_false, false_or, true_and]
  · simp only [ne_eq, hc, not_false_eq_true, if_true, decide_eq_false_iff_not, not_lt]
    constructor
    · intro h
      left
      omega
    · rintro (h | ⟨h, -⟩)
      · omega
      · exact absurd h.symm hc

theorem list_lt_cons (x y : Nat) (xs ys : List Nat) :
    x :: xs < y :: ys ↔ x < y ∨ (x = y ∧ xs < ys) := by
  constructor
  · intro h
    cases h with
    | rel h => exact Or.inl h
    | cons h => exact Or.inr ⟨rfl, h⟩
  · rintro (h | ⟨rfl, h⟩)
    · exact List.Lex.rel h
    · exact List.Lex.cons h

theorem list_nil_lt_cons (y : Nat) (ys : List Nat) : ([] : List Nat) < y :: ys :=
  List.Lex.nil

theorem list_not_lt_nil (xs : List Nat) : ¬ xs < ([] : List Nat) := by
  intro h
  cases h

theorem strLess_eq (a b : GoString) : strLess a b = bytesBefore a b := by
  unfold strLess
  induction a generalizing b with
  | nil =>
    cases b with
    | nil =>
      simp only [List.map_nil, bytesBefore, decide_eq_false_iff_not]
      exact list_not_lt_nil _
    | cons y ys =>
      simp only [List.map_nil, List.map_cons, bytesBefore, decide_eq_true_eq]
      exact list_nil_lt_cons _ _
  | cons x xs ih =>
    cases b with
    | nil =>
      simp only [List.map_nil, List.map_cons, bytesBefore, decide_eq_false_iff_not]
      exact list_not_lt_nil _
    | cons y ys =>
      have hxy : x = y ↔ x.toNat = y.toNat := by
        constructor
        · rintro rfl; rfl
        · intro h
          cases x; cases y
          congr
          exact BitVec.eq_of_toNat_eq h
      simp only [List.map_cons, bytesBefore, ← ih ys]
      rw [Bool.eq_iff_iff]
      simp only [decide_eq_true_eq, Bool.or_eq_true, Bool.and_eq_true, list_lt_cons, hxy]

theorem ranksBefore_def (a b : FileChurnEntry) :
    ranksBefore a b ↔
      b.Count < a.Count ∨ (a.Count = b.Count ∧ (strLess a.Path b.Path = true ∨ a.Path = b.Path)) := by
  unfold ranksBefore
  rw [strLess_eq]

theorem ranksBefore_iff (a b : FileChurnEntry) : ranksBefore a b ↔ churnLess b a = false := by
  rw [notLess_iff, ranksBefore_def]
  unfold strLess
  constructor
  · rintro (h | ⟨h1, h2 | h2⟩)
    · exact Or.inl h
    · exact Or.inr ⟨h1, le_of_lt (of_decide_eq_true h2)⟩
    · exact Or.inr ⟨h1, by rw [h2]⟩
  · rintro (h | ⟨h1, h2⟩)
    · exact Or.inl h
    · refine Or.inr ⟨h1, ?_⟩
      rcases lt_or_eq_of_le h2 with h3 | h3
      · exact Or.inl (decide_eq_true h3)
      · exact Or.inr (toNat_map_injective _ _ h3)

theorem notLess_total : IsTotal FileChurnEntry (fun a b => churnLess b a = false) :=
  ⟨fun a b => by
    rw [notLess_iff, notLess_iff]
    rcases lt_trichotomy a.Count b.Count with h | h | h
    · exact Or.inr (Or.inl h)
    · rcases le_total (a.Path.map UInt8.toNat) (b.Path.map UInt8.toNat) with h2 | h2
      · exact Or.inl (Or.inr ⟨h, h2⟩)
      · exact Or.inr (Or.inr ⟨h.symm, h2⟩)
    · exact Or.inl (Or.inl h)⟩

theorem notLess_trans : IsTrans FileChurnEntry (fun a b => churnLess b a = false) :=
  ⟨fun a b c => by
    simp only [notLess_iff]
    rintro (h1 | ⟨h1, h2⟩) (h3 | ⟨h3, h4⟩)
    · exact Or.inl (by omega)
    · exact Or.inl (by omega)
    · exact Or.inl (by omega)
    · exact Or.inr ⟨by omega, le_trans h2 h4⟩⟩

theorem notLess_antisymm : IsAntisymm FileChurnEntry (fun a b => churnLess b a = false) :=
  ⟨fun a b => by
    simp only [notLess_iff]
    rintro (h1 | ⟨h1, h2⟩) (h3 | ⟨h3, h4⟩)
    · omega
    · omega
    · omega
    · have hp := toNat_map_injective _ _ (le_antisymm h2 h4)
      cases a; cases b
      simp only at h1 hp
      rw [h1, hp]⟩

theorem sortSlice_perm_eq (l1 l2 : List FileChurnEntry) (h : l1.Perm l2) :
    sortSlice churnLess l1 = sortSlice churnLess l2 := by
  haveI := notLess_total
  haveI := notLess_trans
  haveI := notLess_antisymm
  unfold sortSlice
  apply @List.eq_of_perm_of_sorted _ (fun a b => churnLess b a = false)
  · exact (List.perm_insertionSort _ l1).trans (h.trans (List.perm_insertionSort _ l2).symm)
  · exact List.sorted_insertionSort _ l1
  · exact List.sorted_insertionSort _ l2

theorem sortSlice_sorted (l : List FileChurnEntry) :
    (sortSlice churnLess l).Sorted ranksBefore := by
  haveI := notLess_total
  haveI := notLess_trans
  have h := List.sorted_insertionSort (fun a b => churnLess b a = false) l
  unfold sortSlice
  exact h.imp (fun {a b} hab => (ranksBefore_iff a b).2 hab)

theorem less_of_ranksBefore_ne (a b : FileChurnEntry) (h : ranksBefore a b) (hne : a ≠ b) :
    churnLess a b = true := by
  by_contra hc
  simp only [Bool.not_eq_true] at hc
  exact hne (notLess_antisymm.antisymm a b ((ranksBefore_iff a b).1 h) hc)

/-- C19: for every churn map `m` and every `n` (so every `n >= 0`), whatever
the order in which the map is iterated, `TopChurnFiles(n)` is the list of all
(path, count) entries of `m` sorted by descending count with ties broken by
ascending path, cut to its first `n` entries when `n > 0` and more than `n`
exist, and whole when `n = 0`; every entry left out ranks strictly after every
entry returned. -/
theorem TopChurnFiles_sorted (m iteration : CountMap) (n : Int)
    (hperm : iteration.Perm m) :
    TopChurnFiles iteration n = TopChurnFiles m n ∧
    ∃ full : List FileChurnEntry,
      full.Perm (m.map (fun e => ({ Path := e.1, Count := e.2 } : FileChurnEntry))) ∧
      (∀ path count, (path, count) ∈ m ↔
        ({ Path := path, Count := count } : FileChurnEntry) ∈ full) ∧
      full.Sorted ranksBefore ∧
      TopChurnFiles iteration n =
        (if n > 0 ∧ (m.length : Int) > n then full.take n.toNat else full) ∧
      (n = 0 → TopChurnFiles iteration n = full) ∧
      (∀ x ∈ TopChurnFiles iteration n,
        ∀ y ∈ m.map (fun e => ({ Path := e.1, Count := e.2 } : FileChurnEntry)),
        y ∉ TopChurnFiles iteration n → ranksBefore x y ∧ ¬ ranksBefore y x) := by
  have hce : churnEntries m =
      m.map (fun e => ({ Path := e.1, Count := e.2 } : FileChurnEntry)) := rfl
  have hent : (churnEntries iteration).Perm (churnEntries m) := hperm.map _
  have hsort : sortSlice churnLess (churnEntries iteration) =
      sortSlice churnLess (churnEntries m) := sortSlice_perm_eq _ _ hent
  have hp : (sortSlice churnLess (churnEntries m)).Perm (churnEntries m) :=
    List.perm_insertionSort _ _
  have hsorted := sortSlice_sorted (churnEntries m)
  have hlen : (sortSlice churnLess (churnEntries m)).length = m.length := by
    rw [hp.length_eq, hce, List.length_map]
  have heq : TopChurnFiles iteration n =
      (if n > 0 ∧ (m.length : Int) > n then
        (sortSlice churnLess (churnEntries m)).take n.toNat
       else sortSlice churnLess (churnEntries m)) := by
    unfold TopChurnFiles
    simp only [hsort, hlen]
  have heqm : TopChurnFiles m n =
      (if n > 0 ∧ (m.length : Int) > n then
        (sortSlice churnLess (churnEntries m)).take n.toNat
       else sortSlice churnLess (churnEntries m)) := by
    unfold TopChurnFiles
    dsimp only
    rw [hlen]
  refine ⟨heq.trans heqm.symm, sortSlice churnLess (churnEntries m), hce ▸ hp, ?_, hsorted,
    heq, ?_, ?_⟩
  · intro path count
    rw [hp.mem_iff, hce, List.mem_map]
    constructor
    · intro h
      exact ⟨(path, count), h, rfl⟩
    · rintro ⟨⟨k, v⟩, h, e⟩
      injection e with e1 e2
      subst e1 e2
      exact h
  · intro h0
    rw [heq, h0]
    simp
  · intro x hx y hy hny
    rw [heq] at hx hny
    rw [← hce] at hy
    have hyall : y ∈ sortSlice churnLess (churnEntries m) := hp.symm.subset hy
    split_ifs at hx hny with hc
    · have hsplit := List.take_append_drop n.toNat (sortSlice churnLess (churnEntries m))
      have hyd : y ∈ (sortSlice churnLess (churnEntries m)).drop n.toNat := by
        rw [← hsplit] at hyall
        rcases List.mem_append.1 hyall with h | h
        · exact absurd h hny
        · exact h
      rw [← hsplit] at hsorted
      have hxy : ranksBefore x y := (List.pairwise_append.1 hsorted).2.2 x hx y hyd
      have hne : x ≠ y := by
        rintro rfl
        exact hny hx
      refine ⟨hxy, ?_⟩
      intro hyx
      have h1 := less_of_ranksBefore_ne x y hxy hne
      rw [(ranksBefore_iff y x).1 hyx] at h1
      exact absurd h1 (by simp)
    · exact absurd hyall hny

/-- Witness for C19: four entries, two of them tied, asked for the top two. -/
theorem TopChurnFiles_sorted_witness :
    TopChurnFiles [(str "b", 2), (str "a", 2), (str "c", 5), (str "d", 1)] 2 =
      TopChurnFiles [(str "a", 2), (str "b", 2), (str "c", 5), (str "d", 1)] 2 ∧
    TopChurnFiles [(str "b", 2), (str "a", 2), (str "c", 5), (str "d", 1)] 2 =
      [{ Path := str "c", Count := 5 }, { Path := str "a", Count := 2 }] :=
  ⟨(TopChurnFiles_sorted [(str "a", 2), (str "b", 2), (str "c", 5), (str "d", 1)]
    [(str "b", 2), (str "a", 2), (str "c", 5), (str "d", 1)] 2
    (List.Perm.swap _ _ _)).1, by decide⟩

/-! ## Owner of a scheme-qualified URL -/

theorem str_https : str "https://" = [104, 116, 116, 112, 115, 58, 47, 47] := by decide
theorem str_ssh : str "ssh://" = [115, 115, 104, 58, 47, 47] := by decide
theorem str_http : str "http://" = [104, 116, 116, 112, 58, 47, 47] := by decide

theorem ownerShorthand_colon (url a rest : GoString) (hat : (64 : UInt8) ∈ url)
    (e : url = a ++ 58 :: rest) (hcolon : (58 : UInt8) ∉ a) (hslash : (47 : UInt8) ∉ a)
    (hssh : hasPrefix url (str "ssh://") = false) :
    ownerShorthand url = .ok (some (rest.takeWhile (fun c => decide (c ≠ 47)))) := by
  have h58 : (58 : UInt8) ∈ url := by rw [e]; simp
  have hparts : splitN 58 2 url = [a, rest] := by
    simp [splitN, e, cut_append_sep 58 a rest hcolon]
  obtain ⟨tl, htl⟩ := split_head 47 rest
  unfold ownerShorthand
  simp only [containsByte, List.elem_eq_mem, hat, h58, decide_True, hssh, Bool.not_false,
    Bool.and_self, if_true, hparts, List.length_cons, List.length_nil, indexParts,
    List.get?, bind, Except.bind, pure, Except.pure, hslash, decide_False, htl]
  simp

theorem owner_after_scheme (a t : GoString) (h : (64 : UInt8) ∈ t)
    (hcolon : (58 : UInt8) ∉ a) (hslash : (47 : UInt8) ∉ a)
    (hssh : ∀ u, hasPrefix (a ++ 58 :: 47 :: 47 :: u) (str "ssh://") = false) :
    parseOwnerFromURL (a ++ 58 :: 47 :: 47 :: t) = .ok [] := by
  have hs := ownerShorthand_colon (a ++ 58 :: 47 :: 47 :: t) a (47 :: 47 :: t)
    (by simp [h]) rfl hcolon hslash (hssh t)
  unfold parseOwnerFromURL
  simp only [hs, bind, Except.bind]
  rfl

/-- C21 (code at the failing inputs): for every text `t` that holds an `@`,
so for every `userinfo@host/owner/rest`, `parseOwnerFromURL` returns the empty
string on `https://t` and on `http://t`: the SSH-shorthand branch takes the
URL, the text before its first `:` being the scheme name. -/
theorem parseOwnerFromURL_http_userinfo (t : GoString) (h : (64 : UInt8) ∈ t) :
    parseOwnerFromURL (str "https://" ++ t) = .ok [] ∧
    parseOwnerFromURL (str "http://" ++ t) = .ok [] := by
  constructor
  · have := owner_after_scheme [104, 116, 116, 112, 115] t h (by decide) (by decide)
      (fun u => by rw [str_ssh]; simp [hasPrefix, List.isPrefixOf])
    rw [str_https]
    exact this
  · have := owner_after_scheme [104, 116, 116, 112] t h (by decide) (by decide)
      (fun u => by rw [str_ssh]; simp [hasPrefix, List.isPrefixOf])
    rw [str_http]
    exact this

/-- Witness for C21: the owner `acme` is lost with `https://` and `http://`
when the URL carries userinfo. -/
theorem parseOwnerFromURL_http_userinfo_witness :
    (64 : UInt8) ∈ str "user@github.com/acme/repo.git" ∧
    parseOwnerFromURL (str "https://" ++ str "user@github.com/acme/repo.git") = .ok [] ∧
    parseOwnerFromURL (str "http://" ++ str "user@github.com/acme/repo.git") = .ok [] :=
  ⟨by decide, parseOwnerFromURL_http_userinfo (str "user@github.com/acme/repo.git") (by decide)⟩

/-! ## URLs without an owner segment -/

theorem indexByte_cons_ne (c b : UInt8) (cs : GoString) (h : ¬ c = b) :
    indexByte (c :: cs) b = if indexByte cs b = -1 then -1 else indexByte cs b + 1 := by
  simp [indexByte, h]

theorem indexByte_append_sep (sep : UInt8) (a b : GoString) (h : sep ∉ a) :
    indexByte (a ++ sep :: b) sep = a.length := by
  induction a with
  | nil =>
    show indexByte (sep :: b) sep = 0
    unfold indexByte
    exact if_pos rfl
  | cons c cs ih =>
    simp only [List.mem_cons, not_or] at h
    have hc : ¬ c = sep := fun e => h.1 e.symm
    rw [List.cons_append, indexByte_cons_ne c sep _ hc, ih h.2]
    have hne : ¬ ((cs.length : Int) = -1) := by omega
    rw [if_neg hne, List.length_cons]
    push_cast
    rfl

theorem indexByte_absent (sep : UInt8) (s : GoString) (h : sep ∉ s) : indexByte s sep = -1 := by
  induction s with
  | nil => rfl
  | cons c cs ih =>
    simp only [List.mem_cons, not_or] at h
    have hc : ¬ c = sep := fun e => h.1 e.symm
    simp [indexByte, hc, ih h.2]

theorem ownerShorthand_none (url : GoString) (h : isShorthand url = false) :
    ownerShorthand url = .ok none := by
  unfold ownerShorthand
  by_cases h1 : (containsByte url 64 && containsByte url 58 &&
      !hasPrefix url (str "ssh://")) = true
  · have h58 : (58 : UInt8) ∈ url := by
      simp only [Bool.and_eq_true, containsByte, List.elem_eq_mem, decide_eq_true_eq] at h1
      exact h1.1.2
    have hslash : containsByte (url.takeWhile (fun c => decide (c ≠ 58))) 47 = true := by
      unfold isShorthand at h
      rw [h1] at h
      simpa using h
    cases hc : cut 58 url with
    | none => exact absurd h58 ((cut_none_iff 58 url).1 hc)
    | some ab =>
      obtain ⟨a, b⟩ := ab
      obtain ⟨e, hn⟩ := cut_spec 58 url a b hc
      have hparts : splitN 58 2 url = [a, b] := by simp [splitN, hc]
      have hta : url.takeWhile (fun c => decide (c ≠ 58)) = a := by
        rw [e]; exact takeWhile_before 58 a b hn
      rw [hta] at hslash
      simp only [h1, if_true, hparts, List.length_cons, List.length_nil, indexParts, List.get?,
        bind, Except.bind, pure, Except.pure, hslash]
      simp
  · simp [h1, pure, Except.pure]

theorem ownerFromPath_no_slash (url : GoString) (h : (47 : UInt8) ∉ strippedURL url) :
    ownerFromPath url = .ok [] := by
  unfold strippedURL at h
  unfold ownerFromPath
  simp only [bind, Except.bind, pure, Except.pure]
  generalize TrimPrefix (TrimPrefix (TrimPrefix url (str "ssh://")) (str "https://"))
    (str "http://") = u at h ⊢
  dsimp only at h
  have hone : ∀ v : GoString, (47 : UInt8) ∉ v →
      (if (split 47 v).length ≥ 2 then indexParts (split 47 v) 1 else Except.ok []) =
        Except.ok [] := by
    intro v hv
    have : split 47 v = [v] := by
      rw [split_eq, (cut_none_iff 47 v).2 hv]
    simp [this]
  cases hc : cut 64 u with
  | none =>
    rw [hc] at h
    have hi : indexByte u 64 = -1 := indexByte_absent 64 u ((cut_none_iff 64 u).1 hc)
    simp only [hi, ne_eq, not_true_eq_false, if_false]
    exact hone u h
  | some ab =>
    obtain ⟨a, b⟩ := ab
    rw [hc] at h
    obtain ⟨e, hn⟩ := cut_spec 64 u a b hc
    have hi : indexByte u 64 = a.length := by rw [e]; exact indexByte_append_sep 64 a b hn
    have hne : ¬ ((a.length : Int) = -1) := by omega
    have hsl : sliceFrom u ((a.length : Int) + 1).toNat = .ok b := by
      have hk : ((a.length : Int) + 1).toNat = a.length + 1 := by omega
      rw [hk, sliceFrom_ok u _ (by rw [e]; simp)]
      rw [e]
      simp
    simp only [hi, ne_eq, hne, not_false_eq_true, if_true, hsl]
    exact hone b h

/-- C22: `parseOwnerFromURL` returns a value for every string, and it returns
the empty string for every URL that is not of the SSH-shorthand form and has
no `/` left once its scheme prefix and its userinfo are stripped. -/
theorem parseOwnerFromURL_no_segments :
    (∀ url : GoString, ∃ r, parseOwnerFromURL url = .ok r) ∧
    (∀ url : GoString, isShorthand url = false → (47 : UInt8) ∉ strippedURL url →
      parseOwnerFromURL url = .ok []) := by
  refine ⟨parseOwnerFromURL_total, ?_⟩
  intro url h1 h2
  unfold parseOwnerFromURL
  simp only [ownerShorthand_none url h1, bind, Except.bind]
  exact ownerFromPath_no_slash url h2

/-- Witness for C22: `https://github.com`, and the empty string. -/
theorem parseOwnerFromURL_no_segments_witness :
    parseOwnerFromURL (str "https://github.com") = .ok [] ∧
    parseOwnerFromURL (str "") = .ok [] :=
  ⟨parseOwnerFromURL_no_segments.2 (str "https://github.com") (by decide) (by decide),
    parseOwnerFromURL_no_segments.2 (str "") (by decide) (by decide)⟩

/-! ## Dirty flag -/

theorem parsePorcelainV2_counts_nonneg (output : GoString) :
    ∃ st, parsePorcelainV2 output = .ok (st, none) ∧
      0 ≤ st.Staged ∧ 0 ≤ st.Modified ∧ 0 ≤ st.Untracked := by
  obtain ⟨st, h, hs, hm, hu⟩ := parseLines_counts (split 10 output) {}
  refine ⟨st, by simp [parsePorcelainV2, parseLines, h, bind, Except.bind, pure, Except.pure],
    ?_, ?_, ?_⟩
  · rw [hs]; exact Int.add_nonneg (le_refl _) (Int.ofNat_nonneg _)
  · rw [hm]
    exact Int.add_nonneg (Int.add_nonneg (le_refl _) (Int.ofNat_nonneg _)) (Int.ofNat_nonneg _)
  · rw [hu]; exact Int.add_nonneg (le_refl _) (Int.ofNat_nonneg _)

theorem IsDirty_of_nonneg (s : RepoStatus) (h1 : 0 ≤ s.Staged) (h2 : 0 ≤ s.Modified)
    (h3 : 0 ≤ s.Untracked) :
    s.IsDirty = true ↔ s.Staged + s.Modified + s.Untracked > 0 := by
  unfold RepoStatus.IsDirty
  simp only [Bool.or_eq_true, decide_eq_true_eq]
  constructor
  · intro h; omega
  · intro h; omega

/-- C28: for every status whose three counts are non-negative, `IsDirty` is
true exactly when `Staged + Modified + Untracked > 0`; and for every input
`parsePorcelainV2` returns a status with non-negative counts, for which the
equivalence therefore holds. -/
theorem IsDirty_iff_sum_pos :
    (∀ s : RepoStatus, 0 ≤ s.Staged → 0 ≤ s.Modified → 0 ≤ s.Untracked →
      (s.IsDirty = true ↔ s.Staged + s.Modified + s.Untracked > 0)) ∧
    (∀ output : GoString, ∃ st, parsePorcelainV2 output = .ok (st, none) ∧
      0 ≤ st.Staged ∧ 0 ≤ st.Modified ∧ 0 ≤ st.Untracked ∧
      (st.IsDirty = true ↔ st.Staged + st.Modified + st.Untracked > 0)) := by
  refine ⟨IsDirty_of_nonneg, ?_⟩
  intro output
  obtain ⟨st, h, h1, h2, h3⟩ := parsePorcelainV2_counts_nonneg output
  exact ⟨st, h, h1, h2, h3, IsDirty_of_nonneg st h1 h2 h3⟩

/-- Witness for C28: one staged file makes the status dirty, and a status
without changes is clean. -/
theorem IsDirty_iff_sum_pos_witness :
    (({ Staged := 1 } : RepoStatus).IsDirty = true ↔ (1 : Int) + 0 + 0 > 0) ∧
    (({} : RepoStatus).IsDirty = true ↔ (0 : Int) + 0 + 0 > 0) :=
  ⟨IsDirty_iff_sum_pos.1 { Staged := 1 } (by decide) (by decide) (by decide),
    IsDirty_iff_sum_pos.1 {} (by decide) (by decide) (by decide)⟩

/-! ## Ignore patterns -/

theorem slice_five (pattern : GoString) (h : pattern.length = 5) :
    slice pattern 3 (pattern.length - 3) = .error .sliceOutOfRange := by
  simp [slice, h]

theorem matchDoublestar_five (pattern path : GoString) (h : pattern.length = 5) :
    matchDoublestar pattern path = .error .sliceOutOfRange := by
  unfold matchDoublestar
  rw [slice_five pattern h]
  simp [h]

/-- C27 (code at the failing input): on the path `/a/node_modules/b/c`, which
holds `/node_modules/`, `matchDoublestar` returns false for the pattern
`**/node_modules/**`, and so does `ShouldIgnore` whenever `filepath.Match`
reports no match for that pattern and path, as it does: only the last two
elements of the path are compared with the middle of the pattern. -/
theorem ShouldIgnore_deeper_path (glob : Glob)
    (h : glob (str "**/node_modules/**") (str "/a/node_modules/b/c") = (false, none)) :
    matchDoublestar (str "**/node_modules/**") (str "/a/node_modules/b/c") = .ok false ∧
    ShouldIgnore glob { IgnorePatterns := [str "**/node_modules/**"] }
      (str "/a/node_modules/b/c") = .ok false := by
  have hm : matchDoublestar (str "**/node_modules/**") (str "/a/node_modules/b/c") =
      .ok false := by rfl
  refine ⟨hm, ?_⟩
  have hd : containsDoublestar (str "**/node_modules/**") = true := by decide
  simp [ShouldIgnore, ignoreLoop, h, hd, hm, bind, Except.bind, pure, Except.pure]

/-- Witness for C27: a matcher that reports no match. -/
theorem ShouldIgnore_deeper_path_witness :
    matchDoublestar (str "**/node_modules/**") (str "/a/node_modules/b/c") = .ok false ∧
    ShouldIgnore (fun _ _ => (false, none)) { IgnorePatterns := [str "**/node_modules/**"] }
      (str "/a/node_modules/b/c") = .ok false :=
  ShouldIgnore_deeper_path (fun _ _ => (false, none)) rfl

/-- C30 (code at the failing inputs): a pattern of exactly five bytes passes
the guard `len(pattern) < 5` and the slice `pattern[3 : len(pattern)-3]`
is `pattern[3:2]`, which panics; `ShouldIgnore` panics with it when the
pattern holds `**` and `filepath.Match` reports no match. -/
theorem matchDoublestar_panics (pattern path : GoString) (h : pattern.length = 5) :
    matchDoublestar pattern path = .error .sliceOutOfRange ∧
    ∀ glob : Glob, containsDoublestar pattern = true → (glob pattern path).1 = false →
      ShouldIgnore glob { IgnorePatterns := [pattern] } path = .error .sliceOutOfRange := by
  refine ⟨matchDoublestar_five pattern path h, ?_⟩
  intro glob hd hg
  simp [ShouldIgnore, ignoreLoop, hg, hd, matchDoublestar_five pattern path h, bind,
    Except.bind]

/-- Witness for C30: the pattern `**/**` on the path `/a/b`. -/
theorem matchDoublestar_panics_witness :
    matchDoublestar (str "**/**") (str "/a/b") = .error .sliceOutOfRange ∧
    ShouldIgnore (fun _ _ => (false, none)) { IgnorePatterns := [str "**/**"] } (str "/a/b") =
      .error .sliceOutOfRange :=
  ⟨(matchDoublestar_panics (str "**/**") (str "/a/b") (by decide)).1,
    (matchDoublestar_panics (str "**/**") (str "/a/b") (by decide)).2 (fun _ _ => (false, none))
      (by decide) rfl⟩

/-! ## Repository detection: properties -/

theorem hasPrefix_iff (s pre : GoString) : hasPrefix s pre = true ↔ ∃ t, s = pre ++ t := by
  unfold hasPrefix
  induction pre generalizing s with
  | nil => simp
  | cons p ps ih =>
    cases s with
    | nil => simp [List.isPrefixOf]
    | cons c cs =>
      simp only [List.isPrefixOf, Bool.and_eq_true, beq_iff_eq, ih, List.cons_append,
        List.cons.injEq]
      constructor
      · rintro ⟨h1, t, h2⟩
        exact ⟨t, h1.symm, h2⟩
      · rintro ⟨t, h1, h2⟩
        exact ⟨h1.symm, t, h2⟩

theorem TrimPrefix_append (pre t : GoString) : TrimPrefix (pre ++ t) pre = t := by
  unfold TrimPrefix
  rw [if_pos ((hasPrefix_iff _ _).2 ⟨t, rfl⟩)]
  simp

theorem indexSub_range (sub s : GoString) :
    indexSub sub s = -1 ∨ (0 ≤ indexSub sub s ∧ indexSub sub s ≤ s.length) := by
  induction s with
  | nil => unfold indexSub; split_ifs <;> simp
  | cons c cs ih =>
    unfold indexSub
    dsimp only
    simp only [List.length_cons]
    push_cast
    split_ifs with h1 h2
    · right; omega
    · left; rfl
    · right
      rcases ih with h | ⟨h3, h4⟩
      · exact absurd h h2
      · constructor <;> omega

theorem indexSub_first (sub : GoString) (X Y : GoString)
    (hmin : ∀ X' Y', X ++ sub ++ Y = X' ++ sub ++ Y' → X.length ≤ X'.length) :
    indexSub sub (X ++ sub ++ Y) = X.length := by
  induction X with
  | nil =>
    cases hs : ([] ++ sub ++ Y : GoString) with
    | nil =>
      have : sub = [] := by
        have := congrArg List.length hs
        simp at this
        exact this.1
      simp [indexSub, this]
    | cons c cs =>
      unfold indexSub
      rw [if_pos]
      · rfl
      · rw [← hs]; exact (hasPrefix_iff _ _).2 ⟨Y, by simp⟩
  | cons x X1 ih =>
    have hnp : hasPrefix (x :: (X1 ++ sub ++ Y)) sub = false := by
      cases hp : hasPrefix (x :: (X1 ++ sub ++ Y)) sub with
      | false => rfl
      | true =>
        obtain ⟨t, ht⟩ := (hasPrefix_iff _ _).1 hp
        have := hmin [] t (by simpa using ht)
        simp at this
    have ih' := ih (fun X' Y' e => by
      have := hmin (x :: X') Y' (by simp [List.append_assoc] at e ⊢; exact e)
      simpa using this)
    show indexSub sub (x :: (X1 ++ sub ++ Y)) = _
    unfold indexSub
    rw [hnp]
    simp only [Bool.false_eq_true, if_false, ih']
    have hne : ¬ ((X1.length : Int) = -1) := by omega
    rw [if_neg hne, List.length_cons]
    push_cast
    rfl

theorem indexSub_le (sub X Y : GoString) :
    0 ≤ indexSub sub (X ++ sub ++ Y) ∧ indexSub sub (X ++ sub ++ Y) ≤ X.length := by
  induction X with
  | nil =>
    have h := indexSub_first sub [] Y (fun _ _ _ => Nat.zero_le _)
    rw [h]
    simp
  | cons x X1 ih =>
    show 0 ≤ indexSub sub (x :: (X1 ++ sub ++ Y)) ∧
      indexSub sub (x :: (X1 ++ sub ++ Y)) ≤ ((x :: X1).length : Int)
    unfold indexSub
    dsimp only
    simp only [List.length_cons]
    push_cast
    split_ifs with h1 h2
    · constructor <;> omega
    · omega
    · constructor <;> omega

theorem detectGitDir_ok (sys : ScanSys) (path : GoString) :
    ∃ found, detectGitDir sys path = .ok found ∧
      ∀ r, found.1 = some r → r.Path = path := by
  unfold detectGitDir
  dsimp only
  cases hst : sys.stat (Join [path, str ".git"]) with
  | error e =>
    by_cases he : e = .notExist
    · exact ⟨(none, none), by simp [he, pure, Except.pure], by simp⟩
    · exact ⟨(none, some e), by simp [he, pure, Except.pure], by simp⟩
  | ok isDir =>
    cases isDir with
    | true => exact ⟨_, by simp [pure, Except.pure]; rfl, by intro r hr; cases hr; rfl⟩
    | false =>
      cases hrf : sys.readFile (Join [path, str ".git"]) with
      | error e => exact ⟨(none, some e), by simp [pure, Except.pure], by simp⟩
      | ok content =>
        simp only [Bool.false_eq_true, if_false]
        by_cases hp : hasPrefix (TrimSpace content) (str "gitdir:") = true
        · simp only [hp, if_true]
          by_cases hi : indexSub (str "/.git/worktrees/")
              (TrimSpace (TrimPrefix (TrimSpace content) (str "gitdir:"))) = -1
          · simp only [hi, ne_eq, not_true_eq_false, if_false]
            exact ⟨_, rfl, by intro r hr; cases hr; rfl⟩
          · simp only [ne_eq, hi, not_false_eq_true, if_true]
            rcases indexSub_range (str "/.git/worktrees/")
                (TrimSpace (TrimPrefix (TrimSpace content) (str "gitdir:"))) with h | ⟨h1, h2⟩
            · exact absurd h hi
            · have hsl : ∃ m, slice (TrimSpace (TrimPrefix (TrimSpace content) (str "gitdir:"))) 0
                  (indexSub (str "/.git/worktrees/")
                    (TrimSpace (TrimPrefix (TrimSpace content) (str "gitdir:")))).toNat =
                  .ok m := by
                unfold slice
                rw [if_pos]
                · exact ⟨_, rfl⟩
                · constructor
                  · omega
                  · omega
              obtain ⟨m, hm⟩ := hsl
              simp only [hm, bind, Except.bind, pure, Except.pure]
              exact ⟨_, rfl, by intro r hr; cases hr; rfl⟩
        · simp only [hp, Bool.false_eq_true, if_false]
          exact ⟨_, rfl, by intro r hr; cases hr; rfl⟩

/-- C26: for every directory `dir`, with `<dir>/.git` the joined path:
when it is a directory, `detectGitDir` returns the record with `Path = dir`
and `IsWorktree = false`; when it is a file whose trimmed content is
`gitdir:` followed by a text that, trimmed, reads `X/.git/worktrees/Y` with
no earlier occurrence of `/.git/worktrees/`, it returns the record with
`IsWorktree = true` and `MainWorktree = X`; when it does not exist, it
returns no record and no error. -/
theorem detectGitDir_cases (sys : ScanSys) (dir : GoString) :
    (sys.stat (Join [dir, str ".git"]) = .ok true →
      detectGitDir sys dir = .ok (some { Path := dir, IsWorktree := false }, none)) ∧
    (∀ content g X Y : GoString,
      sys.stat (Join [dir, str ".git"]) = .ok false →
      sys.readFile (Join [dir, str ".git"]) = .ok content →
      TrimSpace content = str "gitdir:" ++ g →
      TrimSpace g = X ++ str "/.git/worktrees/" ++ Y →
      (∀ X' Y' : GoString, X ++ str "/.git/worktrees/" ++ Y = X' ++ str "/.git/worktrees/" ++ Y' →
        X.length ≤ X'.length) →
      detectGitDir sys dir =
        .ok (some { Path := dir, IsWorktree := true, MainWorktree := X }, none)) ∧
    (sys.stat (Join [dir, str ".git"]) = .error .notExist →
      detectGitDir sys dir = .ok (none, none)) := by
  refine ⟨?_, ?_, ?_⟩
  · intro h
    simp [detectGitDir, h, pure, Except.pure]
  · intro content g X Y hst hrf hc hg hmin
    have hp : hasPrefix (TrimSpace content) (str "gitdir:") = true :=
      (hasPrefix_iff _ _).2 ⟨g, hc⟩
    have hidx := indexSub_first (str "/.git/worktrees/") X Y hmin
    have hne : ¬ ((X.length : Int) = -1) := by omega
    have hsl : slice (X ++ str "/.git/worktrees/" ++ Y) 0 X.length = .ok X := by
      unfold slice
      rw [if_pos]
      · simp [List.append_assoc]
      · simp
    unfold detectGitDir
    simp only [hst, hrf, Bool.false_eq_true, if_false, hp, if_true]
    rw [hc, TrimPrefix_append, hg, hidx]
    simp only [ne_eq, hne, not_false_eq_true, if_true, Int.toNat_ofNat, hsl, bind, Except.bind,
      pure, Except.pure]
  · intro h
    simp [detectGitDir, h, pure, Except.pure]

/-! ## Directory walk: the walk function -/

theorem matchDoublestar_ok (pattern path : GoString) (h : pattern.length ≠ 5) :
    ∃ b, matchDoublestar pattern path = .ok b := by
  unfold matchDoublestar
  by_cases h5 : pattern.length < 5
  · exact ⟨false, by simp [h5, pure, Except.pure]⟩
  · have hs : slice pattern 3 (pattern.length - 3) =
        .ok ((pattern.take (pattern.length - 3)).drop 3) := by
      unfold slice
      rw [if_pos]
      constructor <;> omega
    rw [if_neg h5, hs]
    exact ⟨_, rfl⟩

theorem ignoreLoop_ok (glob : Glob) (pats : List GoString) (path : GoString)
    (h : ∀ p ∈ pats, containsDoublestar p = true → p.length ≠ 5) :
    ∃ b, ignoreLoop glob pats path = .ok b := by
  induction pats with
  | nil => exact ⟨false, rfl⟩
  | cons p ps ih =>
    obtain ⟨b, hb⟩ := ih (fun q hq => h q (List.mem_cons_of_mem _ hq))
    unfold ignoreLoop
    dsimp only
    split_ifs with h1 h2
    · exact ⟨true, rfl⟩
    · obtain ⟨m, hm⟩ := matchDoublestar_ok p path (h p (List.mem_cons_self _ _) h2)
      simp only [hm, bind, Except.bind]
      cases m
      · exact ⟨b, by simpa using hb⟩
      · exact ⟨true, rfl⟩
    · exact ⟨b, hb⟩

theorem ShouldIgnore_ok (glob : Glob) (cfg : Config) (path : GoString) (h : safePatterns cfg) :
    ∃ b, ShouldIgnore glob cfg path = .ok b :=
  ignoreLoop_ok glob cfg.IgnorePatterns path h

/-- What the walk function returns once its pruning tests are passed. -/
theorem scanVisit_eq (sys : ScanSys) (glob : Glob) (cfg : Config) (root : GoString)
    (maxDepth : Int) (path : GoString) (rel : List GoString) (d : DirEntry)
    (repos : List Repository) (found : Option Repository × Option FsError)
    (hctx : sys.ctxErr path = none) (hp : passes glob cfg root path d)
    (hsafe : safePatterns cfg)
    (hdepth : depthOf (relText rel) ≤ maxDepth) (hf : detectGitDir sys path = .ok found) :
    scanVisit sys glob cfg root maxDepth path rel d false repos =
      .ok (if found.2 ≠ none then (repos, .nil)
        else match found.1 with
          | some repo =>
            (if !repo.IsWorktree then (repos ++ [repo]) ++ discoverWorktrees sys path
              else repos ++ [repo], .skipDir)
          | none => (repos, .nil)) := by
  obtain ⟨hdir, hname, hign⟩ := hp
  have hnd : ¬ depthOf (relText rel) > maxDepth := by omega
  obtain ⟨b, hb⟩ := ShouldIgnore_ok glob cfg path hsafe
  have hpr : ¬ (b = true ∧ path ≠ root) := by
    rcases hign with h | h
    · rw [h] at hb
      cases hb
      simp
    · simp [h]
  unfold scanVisit
  simp only [Bool.false_eq_true, if_false, hctx, hdir, Bool.not_true, hnd, hname, hb, bind,
    Except.bind, hpr, hf, pure, Except.pure]
  split_ifs with h1
  · rfl
  · cases found.1 <;> rfl

theorem scanVisit_spec (sys : ScanSys) (glob : Glob) (cfg : Config) (root : GoString)
    (maxDepth : Int) (hsafe : safePatterns cfg) (path : GoString) (rel : List GoString)
    (d : DirEntry) (failed : Bool) (repos : List Repository) :
    ∃ extra res,
      scanVisit sys glob cfg root maxDepth path rel d failed repos = .ok (repos ++ extra, res) ∧
      res ≠ .exhausted ∧ (res = .skipDir → d.IsDir = true) ∧
      (sys.ctxErr path = none → ∀ e, res ≠ .err e) ∧
      (failed = true → res = .nil ∧ extra = []) ∧
      (res = .nil → d.IsDir = true → failed = false → depthOf (relText rel) ≤ maxDepth) ∧
      (∀ r ∈ extra, depthOf (relText rel) ≤ maxDepth ∧ d.IsDir = true ∧
        recordOf sys path r) := by
  cases failed with
  | true =>
    exact ⟨[], .nil, by simp [scanVisit, pure, Except.pure], by simp, by simp, by simp, by simp,
      by simp, by simp⟩
  | false =>
    cases hctx : sys.ctxErr path with
    | some e =>
      exact ⟨[], .err e, by simp [scanVisit, hctx, pure, Except.pure], by simp, by simp,
        by simp, by simp, by simp, by simp⟩
    | none =>
      by_cases hdir : d.IsDir = true
      swap
      · exact ⟨[], .nil, by simp [scanVisit, hctx, hdir, pure, Except.pure], by simp,
          by simp, by simp, by simp, by simp [hdir], by simp⟩
      by_cases hdepth : depthOf (relText rel) > maxDepth
      · exact ⟨[], .skipDir, by simp [scanVisit, hctx, hdir, hdepth, pure, Except.pure],
          by simp, by simp [hdir], by simp, by simp, by simp, by simp⟩
      have hle : depthOf (relText rel) ≤ maxDepth := by omega
      by_cases hname : d.Name = str ".git"
      · exact ⟨[], .skipDir, by simp [scanVisit, hctx, hdir, hdepth, hname, pure, Except.pure],
          by simp, by simp [hdir], by simp, by simp, by simp, by simp⟩
      obtain ⟨b, hb⟩ := ShouldIgnore_ok glob cfg path hsafe
      by_cases hpr : b = true ∧ path ≠ root
      · exact ⟨[], .skipDir, by
            simp [scanVisit, hctx, hdir, hdepth, hname, hb, bind, Except.bind, hpr.1, hpr.2,
              pure, Except.pure],
          by simp, by simp [hdir], by simp, by simp, by simp, by simp⟩
      have hp : passes glob cfg root path d := by
        refine ⟨hdir, hname, ?_⟩
        by_cases hroot : path = root
        · exact Or.inr hroot
        · left
          cases b
          · exact hb
          · exact absurd ⟨rfl, hroot⟩ hpr
      obtain ⟨found, hf, hfp⟩ := detectGitDir_ok sys path
      rw [scanVisit_eq sys glob cfg root maxDepth path rel d repos found hctx hp hsafe hle hf]
      by_cases h2 : found.2 ≠ none
      · exact ⟨[], .nil, by simp [h2], by simp, by simp, by simp, by simp, fun _ _ _ => hle,
          by simp⟩
      · rw [if_neg h2]
        cases h1 : found.1 with
        | none =>
          exact ⟨[], .nil, by simp, by simp, by simp, by simp, by simp, fun _ _ _ => hle,
            by simp⟩
        | some repo =>
          have hrp : repo.Path = path := hfp repo h1
          have hfe : detectGitDir sys path = .ok (some repo, none) := by
            rw [hf]
            obtain ⟨f1, f2⟩ := found
            simp only [ne_eq, not_not] at h1 h2
            rw [h1, h2]
          by_cases hw : repo.IsWorktree = true
          · refine ⟨[repo], .skipDir, by simp [hw], by simp, by simp [hdir], by simp, by simp,
              by simp, ?_⟩
            intro r hr
            simp only [List.mem_singleton] at hr
            subst hr
            exact ⟨hle, hdir, Or.inl ⟨hrp, hfe⟩⟩
          · refine ⟨[repo] ++ discoverWorktrees sys path, .skipDir, by simp [hw], by simp,
              by simp [hdir], by simp, by simp, by simp, ?_⟩
            intro r hr
            simp only [List.singleton_append, List.mem_cons] at hr
            rcases hr with hr | hr
            · subst hr
              exact ⟨hle, hdir, Or.inl ⟨hrp, hfe⟩⟩
            · exact ⟨hle, hdir, Or.inr ⟨repo, hfe, by simpa using hw, hr⟩⟩

/-! ## Directory walk: depth of a visited path -/

theorem str_dot : str "." = [46] := by decide

theorem count_joinSep_le (rel : List GoString) (h : rel ≠ []) :
    rel.length ≤ (joinSep rel).count 47 + 1 := by
  induction rel with
  | nil => exact absurd rfl h
  | cons n ns ih =>
    cases ns with
    | nil => simp [joinSep]
    | cons m ms =>
      have := ih (by simp)
      simp only [joinSep, List.count_append, List.count_cons_self, List.length_cons] at this ⊢
      omega

theorem count_joinSep_eq (rel : List GoString) (h : rel ≠ [])
    (hv : ∀ n ∈ rel, (47 : UInt8) ∉ n) : (joinSep rel).count 47 + 1 = rel.length := by
  induction rel with
  | nil => exact absurd rfl h
  | cons n ns ih =>
    have hn : n.count 47 = 0 := List.count_eq_zero_of_not_mem (hv n (List.mem_cons_self _ _))
    cases ns with
    | nil => simp [joinSep, hn]
    | cons m ms =>
      have := ih (by simp) (fun x hx => hv x (List.mem_cons_of_mem _ hx))
      simp only [joinSep, List.count_append, List.count_cons_self, List.length_cons, hn] at this ⊢
      omega

theorem length_le_depth_succ (rel : List GoString) :
    (rel.length : Int) ≤ depthOf (relText rel) + 1 := by
  unfold depthOf relText
  by_cases h : rel = []
  · simp [h]
  · rw [if_neg h]
    have h1 := count_joinSep_le rel h
    split_ifs with h2
    · omega
    · have h3 : joinSep rel = str "." := not_not.1 h2
      rw [h3, str_dot] at h1
      simp at h1
      omega

theorem depth_eq_length (rel : List GoString) (hv : ∀ n ∈ rel, validName n) :
    depthOf (relText rel) = rel.length := by
  unfold depthOf relText
  by_cases h : rel = []
  · simp [h]
  · rw [if_neg h]
    have h1 := count_joinSep_eq rel h (fun n hn => (hv n hn).2.2.2)
    have h2 : joinSep rel ≠ str "." := by
      intro e
      rcases rel with _ | ⟨n, _ | ⟨m, ms⟩⟩
      · exact h rfl
      · exact (hv n (List.mem_cons_self _ _)).2.1 e
      · rw [e, str_dot] at h1
        simp at h1
    rw [if_pos h2]
    omega

theorem walkPath_snoc (root : GoString) (rel : List GoString) (n : GoString) :
    walkPath root (rel ++ [n]) = Join [walkPath root rel, n] := by
  simp [walkPath, List.foldl_append]

theorem walkPath_cons (root : GoString) (n : GoString) (rel : List GoString) :
    walkPath root (n :: rel) = walkPath (Join [root, n]) rel := rfl

theorem dirChain_snoc (sys : ScanSys) (rel : List GoString) :
    ∀ (root n : GoString), dirChain sys root rel →
      (⟨n, true⟩ : DirEntry) ∈ (sys.readDir (walkPath root rel)).1 →
      dirChain sys root (rel ++ [n]) := by
  induction rel with
  | nil =>
    intro root n _ h
    exact ⟨h, trivial⟩
  | cons m ms ih =>
    intro root n hc h
    exact ⟨hc.1, ih (Join [root, m]) n hc.2 (by rw [← walkPath_cons]; exact h)⟩

theorem dirChain_valid (sys : ScanSys)
    (hnames : ∀ p, ∀ e ∈ (sys.readDir p).1, validName e.Name) (rel : List GoString) :
    ∀ root : GoString, dirChain sys root rel → ∀ n ∈ rel, validName n := by
  induction rel with
  | nil => intro _ _ n hn; simp at hn
  | cons m ms ih =>
    intro root hc n hn
    rcases List.mem_cons.1 hn with h | h
    · rw [h]
      exact hnames root ⟨m, true⟩ hc.1
    · exact ih (Join [root, m]) hc.2 n h

/-! ## Directory walk: the recursion -/

theorem walkEntries_spec (sys : ScanSys) (root : GoString) (maxDepth : Int)
    (step : DirEntry → List Repository → Except Panic (List Repository × WalkResult))
    (entries : List DirEntry)
    (h : ∀ d1 ∈ entries, ∀ acc, WalkOutcome sys root maxDepth acc (step d1 acc))
    (acc : List Repository) :
    WalkOutcome sys root maxDepth acc (walkEntries step entries acc) := by
  induction entries generalizing acc with
  | nil => exact ⟨[], .nil, by simp [walkEntries, pure, Except.pure], Or.inl rfl, fun _ => rfl,
      by simp⟩
  | cons d1 rest ih =>
    obtain ⟨e1, res1, h1, hres1, hn1, hs1⟩ := h d1 (List.mem_cons_self _ _) acc
    unfold walkEntries
    simp only [h1, bind, Except.bind]
    rcases hres1 with hr | ⟨e, hr⟩
    · subst hr
      obtain ⟨e2, res2, h2, hres2, hn2, hs2⟩ :=
        ih (fun d hd => h d (List.mem_cons_of_mem _ hd)) (acc ++ e1)
      refine ⟨e1 ++ e2, res2, by simp [h2, List.append_assoc], hres2, hn2, ?_⟩
      intro r hr
      rcases List.mem_append.1 hr with h | h
      · exact hs1 r h
      · exact hs2 r h
    · subst hr
      exact ⟨e1, .err e, rfl, Or.inr ⟨e, rfl⟩, hn1, hs1⟩

theorem skipped_nil (d : DirEntry) : skipped d .nil = .nil := by simp [skipped]

theorem walkDir_spec (sys : ScanSys) (glob : Glob) (cfg : Config) (root : GoString)
    (maxDepth : Int) (hsafe : safePatterns cfg) (fuel : Nat) :
    ∀ (path : GoString) (rel : List GoString) (d : DirEntry) (repos : List Repository),
      (d.IsDir = true → dirChain sys root rel) → path = walkPath root rel →
      maxDepth.toNat + 3 ≤ rel.length + fuel → 1 ≤ fuel →
      WalkOutcome sys root maxDepth repos
        (walkDir sys glob cfg root maxDepth fuel path rel d repos) := by
  induction fuel with
  | zero => intro _ _ _ _ _ _ _ h; omega
  | succ fuel ih =>
    intro path rel d repos hrel hpath hfuel _
    obtain ⟨e1, res1, h1, hex1, hskip1, hctx1, -, hdep1, hs1⟩ :=
      scanVisit_spec sys glob cfg root maxDepth hsafe path rel d false repos
    have hrep1 : ∀ r ∈ e1, reportedAt sys root maxDepth r := fun r hr =>
      ⟨rel, hrel (hs1 r hr).2.1, (hs1 r hr).1, by rw [← hpath]; exact (hs1 r hr).2.2⟩
    unfold walkDir
    simp only [h1, bind, Except.bind]
    by_cases hstop : res1 ≠ .nil ∨ d.IsDir = false
    · rw [if_pos hstop]
      refine ⟨e1, skipped d res1, rfl, ?_, ?_, hrep1⟩
      · cases res1 with
        | nil => exact Or.inl (skipped_nil d)
        | skipDir => left; simp [skipped, hskip1 rfl]
        | err e => right; exact ⟨e, by simp [skipped]⟩
        | exhausted => exact absurd rfl hex1
      · intro hnc
        cases res1 with
        | nil => exact skipped_nil d
        | skipDir => simp [skipped, hskip1 rfl]
        | err e => exact absurd rfl (hctx1 (hnc path) e)
        | exhausted => exact absurd rfl hex1
    · rw [if_neg hstop]
      have hnil : res1 = .nil := by
        by_contra hc
        exact hstop (Or.inl hc)
      have hdir : d.IsDir = true := by
        cases hd : d.IsDir with
        | true => rfl
        | false => exact absurd (Or.inr hd) hstop
      subst hnil
      have hdepth := hdep1 rfl hdir rfl
      have hlen := length_le_depth_succ rel
      have hsv : scanVisit sys glob cfg root maxDepth path rel d true (repos ++ e1) =
          .ok (repos ++ e1, WalkResult.nil) := by
        simp [scanVisit, pure, Except.pure]
      simp only [hsv, pure, Except.pure, ne_eq, not_true_eq_false, if_false, ite_self]
      have hent := walkEntries_spec sys root maxDepth
        (fun d1 acc => walkDir sys glob cfg root maxDepth fuel (Join [path, d1.Name])
          (rel ++ [d1.Name]) d1 acc) (sys.readDir path).1
        (fun d1 hd1 acc => ih (Join [path, d1.Name]) (rel ++ [d1.Name]) d1 acc
          (by
            intro hd1dir
            refine dirChain_snoc sys rel root d1.Name (hrel hdir) ?_
            rw [← hpath]
            obtain ⟨nm, isd⟩ := d1
            simp only at hd1dir
            subst hd1dir
            exact hd1)
          (by rw [walkPath_snoc, hpath])
          (by simp only [List.length_append, List.length_singleton]; omega)
          (by omega))
        (repos ++ e1)
      obtain ⟨e2, res2, h2, hres2, hn2, hs2⟩ := hent
      refine ⟨e1 ++ e2, res2, by rw [h2, List.append_assoc], hres2, hn2, ?_⟩
      intro r hr
      rcases List.mem_append.1 hr with h | h
      · exact hrep1 r h
      · exact hs2 r h

theorem ScanPath_spec (sys : ScanSys) (glob : Glob) (cfg : Config) (root : GoString)
    (maxDepth : Int) (hsafe : safePatterns cfg) :
    WalkOutcome sys root maxDepth [] (ScanPath sys glob cfg root maxDepth) := by
  unfold ScanPath
  cases hl : sys.lstat root with
  | error e =>
    refine ⟨[], .nil, ?_, Or.inl rfl, fun _ => rfl, by simp⟩
    simp [scanVisit, bind, Except.bind, pure, Except.pure]
  | ok isDir =>
    obtain ⟨extra, res, h, hres, hn, hs⟩ := walkDir_spec sys glob cfg root maxDepth hsafe
      (maxDepth.toNat + 3) root [] ⟨Base root, isDir⟩ [] (fun _ => trivial) rfl (by simp)
      (by omega)
    refine ⟨extra, res, ?_, hres, hn, hs⟩
    simp only [h, bind, Except.bind, pure, Except.pure]
    rcases hres with hr | ⟨e, hr⟩ <;> subst hr <;> simp

/-! ## Directory walk: what is found -/

theorem walkEntries_finds (sys : ScanSys) (root : GoString) (maxDepth : Int)
    (step : DirEntry → List Repository → Except Panic (List Repository × WalkResult))
    (entries : List DirEntry) (e : DirEntry) (r : Repository)
    (hall : ∀ d1 ∈ entries, ∀ acc, WalkOutcome sys root maxDepth acc (step d1 acc))
    (hnc : ∀ p, sys.ctxErr p = none) (he : e ∈ entries)
    (hfind : ∀ acc, ∃ extra, step e acc = .ok (acc ++ extra, .nil) ∧ r ∈ extra)
    (acc : List Repository) :
    ∃ extra, walkEntries step entries acc = .ok (acc ++ extra, .nil) ∧ r ∈ extra := by
  induction entries generalizing acc with
  | nil => simp at he
  | cons d1 rest ih =>
    obtain ⟨e1, res1, h1, -, hn1, -⟩ := hall d1 (List.mem_cons_self _ _) acc
    have hres1 := hn1 hnc
    subst hres1
    unfold walkEntries
    simp only [h1, bind, Except.bind]
    by_cases hin : e ∈ rest
    · obtain ⟨e2, h2, hr2⟩ := ih (fun d hd => hall d (List.mem_cons_of_mem _ hd)) hin (acc ++ e1)
      exact ⟨e1 ++ e2, by rw [h2, List.append_assoc], List.mem_append_right _ hr2⟩
    · have hd1 : e = d1 := by
        rcases List.mem_cons.1 he with h | h
        · exact h
        · exact absurd h hin
      subst hd1
      obtain ⟨x, hx, hrx⟩ := hfind acc
      have hxe : x = e1 := by
        rw [hx] at h1
        injection h1 with h1
        injection h1 with h1 _
        exact List.append_cancel_left h1
      subst hxe
      obtain ⟨e2, res2, h2, -, hn2, -⟩ := walkEntries_spec sys root maxDepth step rest
        (fun d hd => hall d (List.mem_cons_of_mem _ hd)) (acc ++ x)
      have hres2 := hn2 hnc
      subst hres2
      exact ⟨x ++ e2, by rw [h2, List.append_assoc], List.mem_append_left _ hrx⟩

theorem walkDir_finds (sys : ScanSys) (glob : Glob) (cfg : Config) (root : GoString)
    (maxDepth : Int) (hsafe : safePatterns cfg)
    (hnames : ∀ p, ∀ e ∈ (sys.readDir p).1, validName e.Name)
    (hnc : ∀ p, sys.ctxErr p = none) (target : GoString) (r : Repository)
    (hr : detectGitDir sys target = .ok (some r, none)) (names : List GoString) :
    ∀ (fuel : Nat) (path : GoString) (rel : List GoString) (d : DirEntry)
      (repos : List Repository),
      dirChain sys root rel → path = walkPath root rel →
      maxDepth.toNat + 3 ≤ rel.length + fuel →
      ((rel.length + names.length : Nat) : Int) ≤ maxDepth →
      reaches sys glob cfg root path d names target →
      ∃ extra, walkDir sys glob cfg root maxDepth fuel path rel d repos =
        .ok (repos ++ extra, .nil) ∧ r ∈ extra := by
  induction names with
  | nil =>
    intro fuel path rel d repos hrel hpath hfuel hlen hreach
    obtain ⟨hp, ht⟩ := hreach
    subst ht
    have hvalid : ∀ n ∈ rel, validName n := dirChain_valid sys hnames rel root hrel
    have hdepth : depthOf (relText rel) ≤ maxDepth := by
      rw [depth_eq_length rel hvalid]
      simpa using hlen
    obtain ⟨f, hf⟩ : ∃ f, fuel = f + 1 := ⟨fuel - 1, by
      simp only [List.length_nil, Nat.add_zero] at hlen
      omega⟩
    subst hf
    have hv := scanVisit_eq sys glob cfg root maxDepth target rel d repos (some r, none)
      (hnc target) hp hsafe hdepth hr
    simp only [ne_eq, not_true_eq_false, if_false] at hv
    unfold walkDir
    simp only [hv, bind, Except.bind, pure, Except.pure]
    rw [if_pos (Or.inl (by simp))]
    have hsk : skipped d WalkResult.skipDir = .nil := by simp [skipped, hp.1]
    rw [hsk]
    by_cases hw : r.IsWorktree = true
    · exact ⟨[r], by simp [hw], by simp⟩
    · exact ⟨[r] ++ discoverWorktrees sys target, by simp [hw], by simp⟩
  | cons n names ih =>
    intro fuel path rel d repos hrel hpath hfuel hlen hreach
    obtain ⟨hp, ⟨found, hfd, hnone⟩, hent, hnext⟩ := hreach
    have hvalid : ∀ n ∈ rel, validName n := dirChain_valid sys hnames rel root hrel
    simp only [List.length_cons] at hlen
    have hdepth : depthOf (relText rel) ≤ maxDepth := by
      rw [depth_eq_length rel hvalid]
      omega
    obtain ⟨f, hf⟩ : ∃ f, fuel = f + 1 := ⟨fuel - 1, by omega⟩
    subst hf
    have hv := scanVisit_eq sys glob cfg root maxDepth path rel d repos found
      (hnc path) hp hsafe hdepth hfd
    have hv' : scanVisit sys glob cfg root maxDepth path rel d false repos =
        .ok (repos, .nil) := by
      rw [hv]
      rcases hnone with h | h
      · rw [if_pos h]
      · split_ifs
        · rfl
        · rw [h]
    have hsv : scanVisit sys glob cfg root maxDepth path rel d true repos =
        .ok (repos, WalkResult.nil) := by
      simp [scanVisit, pure, Except.pure]
    have hrel' : dirChain sys root (rel ++ [n]) :=
      dirChain_snoc sys rel root n hrel (by rw [← hpath]; exact hent)
    have hstep := walkEntries_finds sys root maxDepth
      (fun d1 acc => walkDir sys glob cfg root maxDepth f (Join [path, d1.Name])
        (rel ++ [d1.Name]) d1 acc) (sys.readDir path).1 ⟨n, true⟩ r
      (fun d1 hd1 acc => walkDir_spec sys glob cfg root maxDepth hsafe f
        (Join [path, d1.Name]) (rel ++ [d1.Name]) d1 acc
        (by
          intro hd1dir
          refine dirChain_snoc sys rel root d1.Name hrel ?_
          rw [← hpath]
          obtain ⟨nm, isd⟩ := d1
          simp only at hd1dir
          subst hd1dir
          exact hd1)
        (by rw [walkPath_snoc, hpath])
        (by simp only [List.length_append, List.length_singleton]; omega)
        (by omega))
      hnc hent
      (fun acc => ih f (Join [path, n]) (rel ++ [n]) ⟨n, true⟩ acc hrel'
        (by rw [walkPath_snoc, hpath])
        (by simp only [List.length_append, List.length_singleton]; omega)
        (by simp only [List.length_append, List.length_singleton]; omega)
        hnext)
      repos
    obtain ⟨extra, hx, hrx⟩ := hstep
    refine ⟨extra, ?_, hrx⟩
    unfold walkDir
    simp only [hv', bind, Except.bind, pure, Except.pure, hp.1, hsv, ne_eq, not_true_eq_false,
      Bool.true_eq_false, or_self, if_false, ite_self]
    exact hx

theorem reported_depth (sys : ScanSys) (root : GoString) (maxDepth : Int)
    (hnames : ∀ p, ∀ e ∈ (sys.readDir p).1, validName e.Name) (r : Repository)
    (h : reportedAt sys root maxDepth r) :
    ∃ rel : List GoString, dirChain sys root rel ∧ (∀ n ∈ rel, validName n) ∧
      (rel.length : Int) ≤ maxDepth ∧ recordOf sys (walkPath root rel) r := by
  obtain ⟨rel, hrel, hd, hr⟩ := h
  have hvalid : ∀ n ∈ rel, validName n := dirChain_valid sys hnames rel root hrel
  rw [depth_eq_length rel hvalid] at hd
  exact ⟨rel, hrel, hvalid, hd, hr⟩

/-- C23 (amended): in a tree whose entry names are file names, and with
ignore patterns that cannot make `matchDoublestar` panic, `ScanPath` returns,
and every record it reports belongs to a directory that lies at relative depth
at most `maxDepth` below the root, reached from the root through a chain
`rel` of directory entries, each listed in the directory before it: the record
is the one `detectGitDir` returns for that directory, or the directory is a
main repository and the record is a linked worktree that `discoverWorktrees`
returns for it, wherever that worktree lies; and when the context is never
done, every repository directory at relative depth at most `maxDepth` that is
reached from the root through listed directories, none of them named `.git`,
ignored or itself a repository, is reported, with the nil error. -/
theorem ScanPath_depth (sys : ScanSys) (glob : Glob) (cfg : Config) (root : GoString)
    (maxDepth : Int) (hsafe : safePatterns cfg)
    (hnames : ∀ p, ∀ e ∈ (sys.readDir p).1, validName e.Name) :
    ∃ repos res, ScanPath sys glob cfg root maxDepth = .ok (repos, res) ∧
      (res = .nil ∨ ∃ e, res = .err e) ∧
      (∀ r ∈ repos, ∃ rel : List GoString,
        dirChain sys root rel ∧ (∀ n ∈ rel, validName n) ∧ (rel.length : Int) ≤ maxDepth ∧
        ((r.Path = walkPath root rel ∧
            detectGitDir sys (walkPath root rel) = .ok (some r, none)) ∨
          (∃ main, detectGitDir sys (walkPath root rel) = .ok (some main, none) ∧
            main.IsWorktree = false ∧ r ∈ discoverWorktrees sys (walkPath root rel)))) ∧
      (∀ (names : List GoString) (r : Repository),
        (∀ p, sys.ctxErr p = none) → sys.lstat root = .ok true →
        (names.length : Int) ≤ maxDepth →
        reaches sys glob cfg root root ⟨Base root, true⟩ names (walkPath root names) →
        detectGitDir sys (walkPath root names) = .ok (some r, none) →
        res = .nil ∧ r ∈ repos) := by
  obtain ⟨extra, res, h, hres, -, hs⟩ := ScanPath_spec sys glob cfg root maxDepth hsafe
  rw [List.nil_append] at h
  refine ⟨extra, res, h, hres, fun r hr => reported_depth sys root maxDepth hnames r (hs r hr), ?_⟩
  intro names r hnc hl hlen hreach hdet
  obtain ⟨x, hx, hrx⟩ := walkDir_finds sys glob cfg root maxDepth hsafe hnames hnc
    (walkPath root names) r hdet names (maxDepth.toNat + 3) root [] ⟨Base root, true⟩ []
    trivial rfl (by simp) (by simpa using hlen) hreach
  unfold ScanPath at h
  simp only [hl, hx, bind, Except.bind, pure, Except.pure, List.nil_append] at h
  injection h with h
  injection h with h1 h2
  subst h1
  exact ⟨by rw [← h2]; simp, hrx⟩

/-! ## Directory walk: the sample tree -/

theorem demo_safe : safePatterns demoConfig := by
  unfold safePatterns
  decide

theorem lookup_mem {β : Type} (l : List (GoString × β)) (k : GoString) (v : β)
    (h : l.lookup k = some v) : (k, v) ∈ l := by
  induction l with
  | nil => simp at h
  | cons x xs ih =>
    obtain ⟨a, b⟩ := x
    by_cases hk : k = a
    · subst hk
      simp only [List.lookup_cons, beq_self_eq_true, Option.some.injEq] at h
      subst h
      exact List.mem_cons_self _ _
    · have hb : (k == a) = false := by simpa using hk
      simp only [List.lookup_cons, hb] at h
      exact List.mem_cons_of_mem _ (ih h)

theorem demo_names : ∀ p, ∀ e ∈ (demoScanSys.readDir p).1, validName e.Name := by
  have hall : ∀ kv ∈ demoTree, ∀ e ∈ kv.2,
      e.Name ≠ [] ∧ e.Name ≠ str "." ∧ e.Name ≠ str ".." ∧ (47 : UInt8) ∉ e.Name := by
    decide
  intro p e he
  cases hl : demoTree.lookup p with
  | none =>
    have : (demoScanSys.readDir p).1 = [] := by simp [demoScanSys, hl]
    rw [this] at he
    simp at he
  | some l =>
    have : (demoScanSys.readDir p).1 = l := by simp [demoScanSys, hl]
    rw [this] at he
    exact hall (p, l) (lookup_mem demoTree p l hl) e he

/-- Witness for C23: with depth limit 2 the walk of `/r` reports the
repository `/r/a/b`, which lies at depth 2, and every record it reports
belongs to a directory at depth at most 2. -/
theorem ScanPath_depth_witness :
    ∃ repos, ScanPath demoScanSys demoGlob demoConfig (str "/r") 2 = .ok (repos, .nil) ∧
      (∃ r ∈ repos, r.Path = str "/r/a/b") ∧
      ∀ r ∈ repos, ∃ rel : List GoString,
        dirChain demoScanSys (str "/r") rel ∧ (∀ n ∈ rel, validName n) ∧
        (rel.length : Int) ≤ 2 ∧
        ((r.Path = walkPath (str "/r") rel ∧
            detectGitDir demoScanSys (walkPath (str "/r") rel) = .ok (some r, none)) ∨
          (∃ main, detectGitDir demoScanSys (walkPath (str "/r") rel) = .ok (some main, none) ∧
            main.IsWorktree = false ∧
            r ∈ discoverWorktrees demoScanSys (walkPath (str "/r") rel))) := by
  obtain ⟨repos, res, h, -, hsound, hfind⟩ :=
    ScanPath_depth demoScanSys demoGlob demoConfig (str "/r") 2 demo_safe demo_names
  have hf := hfind [str "a", str "b"] { Path := str "/r/a/b" } (fun _ => rfl) rfl (by decide)
    ⟨⟨rfl, by decide, Or.inl rfl⟩, ⟨(none, none), rfl, Or.inr rfl⟩, by decide,
      ⟨rfl, by decide, Or.inl rfl⟩, ⟨(none, none), rfl, Or.inr rfl⟩, by decide,
      ⟨rfl, by decide, Or.inl rfl⟩, rfl⟩ rfl
  rw [hf.1] at h
  exact ⟨repos, h, ⟨_, hf.2, rfl⟩, hsound⟩

/-- Counterexample for C23: with depth limit 0 the walk of `/r/main` reports
the worktree `/elsewhere/deep/tree/wt`, registered under `/r/main`, which is
not a directory at depth 0, that is the root. -/
theorem ScanPath_depth_counterexample :
    ∃ repos, ScanPath demoScanSys demoGlob demoConfig (str "/r/main") 0 = .ok (repos, .nil) ∧
      ∃ r ∈ repos, r.Path = str "/elsewhere/deep/tree/wt" ∧
        ∀ rel : List GoString, (rel.length : Int) ≤ 0 →
          walkPath (str "/r/main") rel ≠ r.Path := by
  refine ⟨_, rfl,
    { Path := str "/elsewhere/deep/tree/wt", IsWorktree := true, MainWorktree := str "/r/main" },
    by decide, rfl, ?_⟩
  intro rel h
  have : rel = [] := List.length_eq_zero.1 (by omega)
  subst this
  decide

/-- Witness for C26: in the sample tree `/r/main` holds a `.git` directory,
`/r/wt` a `.git` file that points into the registry of `/r/main`, and `/r/a`
holds no `.git`. -/
theorem detectGitDir_cases_witness :
    detectGitDir demoScanSys (str "/r/main") =
      .ok (some { Path := str "/r/main", IsWorktree := false }, none) ∧
    detectGitDir demoScanSys (str "/r/wt") =
      .ok (some { Path := str "/r/wt", IsWorktree := true, MainWorktree := str "/r/main" },
        none) ∧
    detectGitDir demoScanSys (str "/r/a") = .ok (none, none) :=
  ⟨(detectGitDir_cases demoScanSys (str "/r/main")).1 rfl,
    (detectGitDir_cases demoScanSys (str "/r/wt")).2.1
      (str "gitdir: /r/main/.git/worktrees/wt\n") (str " /r/main/.git/worktrees/wt")
      (str "/r/main") (str "wt") rfl rfl (by decide) (by decide)
      (by
        intro X' Y' e
        have h := (indexSub_le (str "/.git/worktrees/") X' Y').2
        rw [← e] at h
        have h7 : indexSub (str "/.git/worktrees/")
            (str "/r/main" ++ str "/.git/worktrees/" ++ str "wt") = 7 := by decide
        have hl : (str "/r/main").length = 7 := by decide
        rw [h7] at h
        omega),
    (detectGitDir_cases demoScanSys (str "/r/a")).2.2 rfl⟩

/-! ## Scan: merging the roots -/

theorem seenHas_iff (m : SeenMap) (k : GoString) :
    seenHas m k = true ↔ k ∈ m.map Prod.fst := by
  simp only [seenHas, List.any_eq_true, decide_eq_true_eq, List.mem_map]

theorem mergeFound_spec (found : List Repository) :
    ∀ seen : SeenMap, (seen.map Prod.fst).Nodup → (∀ e ∈ seen, e.2.Path = e.1) →
      ((mergeFound seen found).map Prod.fst).Nodup ∧
      (∀ e ∈ mergeFound seen found, e.2.Path = e.1) ∧
      (∀ k ∈ seen.map Prod.fst, k ∈ (mergeFound seen found).map Prod.fst) ∧
      (∀ r ∈ found, r.Path ∈ (mergeFound seen found).map Prod.fst) ∧
      (∀ e ∈ mergeFound seen found, e ∈ seen ∨ e.2 ∈ found) := by
  induction found with
  | nil => intro seen h1 h2; exact ⟨h1, h2, fun k hk => hk, by simp, fun e he => Or.inl he⟩
  | cons r rs ih =>
    intro seen h1 h2
    by_cases hk : seenHas seen r.Path = true
    · have e : mergeFound seen (r :: rs) = mergeFound seen rs := by
        simp [mergeFound, hk]
      rw [e]
      obtain ⟨a, b, c, d, f⟩ := ih seen h1 h2
      refine ⟨a, b, c, ?_, ?_⟩
      · intro x hx
        rcases List.mem_cons.1 hx with h | h
        · rw [h]; exact c _ ((seenHas_iff seen r.Path).1 hk)
        · exact d x h
      · intro x hx
        rcases f x hx with h | h
        · exact Or.inl h
        · exact Or.inr (List.mem_cons_of_mem _ h)
    · have e : mergeFound seen (r :: rs) = mergeFound (seen ++ [(r.Path, r)]) rs := by
        simp [mergeFound, hk]
      rw [e]
      have hnot : r.Path ∉ seen.map Prod.fst := fun h => hk ((seenHas_iff seen r.Path).2 h)
      have h1' : ((seen ++ [(r.Path, r)]).map Prod.fst).Nodup := by
        rw [List.map_append, List.nodup_append]
        refine ⟨h1, by simp, ?_⟩
        intro a ha hb
        simp only [List.map_cons, List.map_nil, List.mem_singleton] at hb
        exact hnot (hb ▸ ha)
      have h2' : ∀ e ∈ seen ++ [(r.Path, r)], e.2.Path = e.1 := by
        intro e he
        rcases List.mem_append.1 he with h | h
        · exact h2 e h
        · simp only [List.mem_singleton] at h
          rw [h]
      obtain ⟨a, b, c, d, f⟩ := ih (seen ++ [(r.Path, r)]) h1' h2'
      refine ⟨a, b, fun k hk => c k (by simp [List.map_append]; exact Or.inl (by simpa using hk)),
        ?_, ?_⟩
      · intro x hx
        rcases List.mem_cons.1 hx with h | h
        · rw [h]; exact c _ (by simp)
        · exact d x h
      · intro x hx
        rcases f x hx with h | h
        · rcases List.mem_append.1 h with h | h
          · exact Or.inl h
          · simp only [List.mem_singleton] at h
            rw [h]
            exact Or.inr (List.mem_cons_self _ _)
        · exact Or.inr (List.mem_cons_of_mem _ h)

theorem scanRoots_spec (sys : ScanSys) (glob : Glob) (cfg : Config) (order : List GoString)
    (hret : ∀ root ∈ order, ∃ out, ScanPath sys glob cfg root cfg.MaxDepth = .ok out) :
    ∀ seen : SeenMap, (seen.map Prod.fst).Nodup → (∀ e ∈ seen, e.2.Path = e.1) →
      ∃ seen', order.foldlM (scanRoot sys glob cfg) seen = .ok seen' ∧
        (seen'.map Prod.fst).Nodup ∧ (∀ e ∈ seen', e.2.Path = e.1) ∧
        (∀ k ∈ seen.map Prod.fst, k ∈ seen'.map Prod.fst) ∧
        (∀ root ∈ order, ∀ found,
          ScanPath sys glob cfg root cfg.MaxDepth = .ok (found, .nil) →
          ∀ r ∈ found, r.Path ∈ seen'.map Prod.fst) ∧
        (∀ e ∈ seen', e ∈ seen ∨ ∃ root ∈ order, ∃ found,
          ScanPath sys glob cfg root cfg.MaxDepth = .ok (found, .nil) ∧ e.2 ∈ found) := by
  induction order with
  | nil =>
    intro seen h1 h2
    exact ⟨seen, rfl, h1, h2, fun k hk => hk, by simp, fun e he => Or.inl he⟩
  | cons root rest ih =>
    intro seen h1 h2
    obtain ⟨out, hout⟩ := hret root (List.mem_cons_self _ _)
    obtain ⟨found, res⟩ := out
    have hrest := ih (fun r hr => hret r (List.mem_cons_of_mem _ hr))
    by_cases hres : res = .nil
    · subst hres
      obtain ⟨a, b, c, d, f⟩ := mergeFound_spec found seen h1 h2
      obtain ⟨seen', hs, a', b', c', d', f'⟩ := hrest (mergeFound seen found) a b
      refine ⟨seen', ?_, a', b', fun k hk => c' k (c k hk), ?_, ?_⟩
      · simp [List.foldlM_cons, scanRoot, hout, bind, Except.bind, pure, Except.pure, hs]
      · intro root' hroot' found' hf' r hr
        rcases List.mem_cons.1 hroot' with h | h
        · subst h
          rw [hout] at hf'
          injection hf' with hf'
          injection hf' with hf' _
          subst hf'
          exact c' _ (d r hr)
        · exact d' root' h found' hf' r hr
      · intro e he
        rcases f' e he with h | ⟨root', hroot', found', hf', hin⟩
        · rcases f e h with h | h
          · exact Or.inl h
          · exact Or.inr ⟨root, List.mem_cons_self _ _, found, hout, h⟩
        · exact Or.inr ⟨root', List.mem_cons_of_mem _ hroot', found', hf', hin⟩
    · obtain ⟨seen', hs, a', b', c', d', f'⟩ := hrest seen h1 h2
      refine ⟨seen', ?_, a', b', c', ?_, ?_⟩
      · simp [List.foldlM_cons, scanRoot, hout, bind, Except.bind, pure, Except.pure, hs, hres]
      · intro root' hroot' found' hf' r hr
        rcases List.mem_cons.1 hroot' with h | h
        · subst h
          rw [hout] at hf'
          injection hf' with hf'
          injection hf' with _ hf'
          exact absurd hf' hres
        · exact d' root' h found' hf' r hr
      · intro e he
        rcases f' e he with h | ⟨root', hroot', found', hf', hin⟩
        · exact Or.inl h
        · exact Or.inr ⟨root', List.mem_cons_of_mem _ hroot', found', hf', hin⟩

theorem scanRoots_returns (sys : ScanSys) (glob : Glob) (cfg : Config)
    (order : List GoString) :
    ∀ seen seen' : SeenMap, order.foldlM (scanRoot sys glob cfg) seen = .ok seen' →
      ∀ root ∈ order, ∃ out, ScanPath sys glob cfg root cfg.MaxDepth = .ok out := by
  induction order with
  | nil => intro _ _ _ root hr; simp at hr
  | cons r rest ih =>
    intro seen seen' h root hroot
    cases hs : ScanPath sys glob cfg r cfg.MaxDepth with
    | error p =>
      simp [List.foldlM_cons, scanRoot, hs, bind, Except.bind] at h
    | ok out =>
      rcases List.mem_cons.1 hroot with e | e
      · rw [e]
        exact ⟨out, hs⟩
      · cases hr : scanRoot sys glob cfg seen r with
        | error p => simp [List.foldlM_cons, hr, bind, Except.bind] at h
        | ok seen1 =>
          simp only [List.foldlM_cons, hr, bind, Except.bind] at h
          exact ih seen1 seen' h root e

/-- C24 (amended): whatever the order in which the goroutines of the roots
merge their records and whatever the order in which the final `range` yields
the map, `Scan` returns when no walk panics, and the list it returns holds no
two records with the same `Path`, holds a record for every path reported by a
root whose `ScanPath` returned the nil error, and holds nothing else; the
records of a walk that returned an error are dropped. -/
theorem Scan_dedup (sys : ScanSys) (glob : Glob) (cfg : Config) (order : List GoString)
    (iteration : SeenMap → SeenMap) (hord : order.Perm cfg.ScanPaths)
    (hiter : ∀ m, (iteration m).Perm m) :
    ((∀ root ∈ cfg.ScanPaths, ∃ out, ScanPath sys glob cfg root cfg.MaxDepth = .ok out) →
      ∃ repos, Scan sys glob cfg order iteration = .ok (repos, none)) ∧
    (∀ repos err, Scan sys glob cfg order iteration = .ok (repos, err) →
      (repos.map (fun r => r.Path)).Nodup ∧
      (∀ root ∈ cfg.ScanPaths, ∀ found,
        ScanPath sys glob cfg root cfg.MaxDepth = .ok (found, .nil) →
        ∀ r ∈ found, ∃ r' ∈ repos, r'.Path = r.Path) ∧
      (∀ r' ∈ repos, ∃ root ∈ cfg.ScanPaths, ∃ found,
        ScanPath sys glob cfg root cfg.MaxDepth = .ok (found, .nil) ∧ r' ∈ found)) := by
  have hpath : ∀ l : SeenMap, (∀ e ∈ l, e.2.Path = e.1) →
      (l.map Prod.snd).map (fun r => r.Path) = l.map Prod.fst := by
    intro l hl
    rw [List.map_map]
    exact List.map_congr_left (fun e he => hl e he)
  constructor
  · intro hret
    obtain ⟨seen, hs, -⟩ := scanRoots_spec sys glob cfg order
      (fun r hr => hret r (hord.mem_iff.1 hr)) [] (by simp) (by simp)
    exact ⟨(iteration seen).map Prod.snd, by simp [Scan, hs, bind, Except.bind, pure, Except.pure]⟩
  · intro repos err h
    unfold Scan at h
    cases hf : order.foldlM (scanRoot sys glob cfg) [] with
    | error p => simp [hf, bind, Except.bind] at h
    | ok seen0 =>
      obtain ⟨seen, hs, h1, h2, -, h4, h5⟩ := scanRoots_spec sys glob cfg order
        (scanRoots_returns sys glob cfg order [] seen0 hf) [] (by simp) (by simp)
      rw [hf] at hs
      injection hs with hs
      subst hs
      simp only [hf, bind, Except.bind, pure, Except.pure] at h
      injection h with h
      injection h with hrepos _
      subst hrepos
      have hp := hiter seen0
      have h2' : ∀ e ∈ iteration seen0, e.2.Path = e.1 := fun e he => h2 e (hp.mem_iff.1 he)
      refine ⟨?_, ?_, ?_⟩
      · rw [hpath _ h2']
        exact (hp.map Prod.fst).nodup_iff.2 h1
      · intro root hroot found hfd r hr
        have hk := h4 root (hord.mem_iff.2 hroot) found hfd r hr
        obtain ⟨e, he, hek⟩ := List.mem_map.1 hk
        exact ⟨e.2, List.mem_map.2 ⟨e, hp.mem_iff.2 he, rfl⟩, by rw [h2 e he, hek]⟩
      · intro r' hr'
        obtain ⟨e, he, her⟩ := List.mem_map.1 hr'
        rcases h5 e (hp.mem_iff.1 he) with h | ⟨root, hroot, found, hfd, hin⟩
        · simp at h
        · exact ⟨root, hord.mem_iff.1 hroot, found, hfd, her ▸ hin⟩

/-- Witness for C24: the roots `/r` and `/r/main` overlap and the walk of
`/r` reports the worktree `/r/wt` twice; the scan of the three sample roots
returns each path once. -/
theorem Scan_dedup_witness :
    ∃ repos, Scan demoScanSys demoGlob demoConfig [str "/missing", str "/r/main", str "/r"]
        List.reverse = .ok (repos, none) ∧
      (repos.map (fun r => r.Path)).Nodup ∧
      (∀ root ∈ demoConfig.ScanPaths, ∀ found,
        ScanPath demoScanSys demoGlob demoConfig root demoConfig.MaxDepth = .ok (found, .nil) →
        ∀ r ∈ found, ∃ r' ∈ repos, r'.Path = r.Path) ∧
      (∀ r' ∈ repos, ∃ root ∈ demoConfig.ScanPaths, ∃ found,
        ScanPath demoScanSys demoGlob demoConfig root demoConfig.MaxDepth = .ok (found, .nil) ∧
        r' ∈ found) := by
  have hthm := Scan_dedup demoScanSys demoGlob demoConfig
    [str "/missing", str "/r/main", str "/r"] List.reverse (by decide)
    (fun m => List.reverse_perm m)
  obtain ⟨repos, h⟩ := hthm.1 (fun root _ => by
    obtain ⟨extra, res, h, -⟩ := ScanPath_spec demoScanSys demoGlob demoConfig root
      demoConfig.MaxDepth demo_safe
    exact ⟨_, h⟩)
  exact ⟨repos, h, hthm.2 repos none h⟩

/-- Counterexample for C24: the context is cancelled when the walk of `/r`
comes to `/r/wt`; `ScanPath` returns the records found until then, among them
`/r/main`, together with the error, and `Scan` returns the empty list. -/
theorem Scan_dedup_counterexample :
    ∃ found e, ScanPath demoScanSysCancelled demoGlob demoConfigOne (str "/r")
        demoConfigOne.MaxDepth = .ok (found, .err e) ∧
      (∃ r ∈ found, r.Path = str "/r/main") ∧
      Scan demoScanSysCancelled demoGlob demoConfigOne [str "/r"] id = .ok ([], none) :=
  ⟨_, _, rfl, ⟨{ Path := str "/r/main" }, by decide, rfl⟩, rfl⟩

/-! ## Scan: roots that cannot be read -/

theorem ScanPath_missing (sys : ScanSys) (glob : Glob) (cfg : Config) (root : GoString)
    (maxDepth : Int) (e : FsError) (h : sys.lstat root = .error e) :
    ScanPath sys glob cfg root maxDepth = .ok ([], .nil) := by
  simp [ScanPath, h, scanVisit, bind, Except.bind, pure, Except.pure]

/-- C25 (amended): a root that cannot be read does not fail the call.  When
`os.Lstat` of the root fails, `ScanPath` returns the empty list and the nil
error; when this is so for every root, `Scan` returns the empty list and the
nil error; whenever `Scan` returns, its error is nil; and while the context
is not done, `ScanPath` returns the nil error for every root, whatever the
file system lets it read (the ignore patterns being such that
`matchDoublestar` cannot panic). -/
theorem Scan_missing_root (sys : ScanSys) (glob : Glob) (cfg : Config) :
    (∀ (root : GoString) (maxDepth : Int) (e : FsError), sys.lstat root = .error e →
      ScanPath sys glob cfg root maxDepth = .ok ([], .nil)) ∧
    (∀ (order : List GoString) (iteration : SeenMap → SeenMap),
      (∀ root ∈ order, ∃ e, sys.lstat root = .error e) → (∀ m, (iteration m).Perm m) →
      Scan sys glob cfg order iteration = .ok ([], none)) ∧
    (∀ (order : List GoString) (iteration : SeenMap → SeenMap) (repos : List Repository)
      (err : Option GoError), Scan sys glob cfg order iteration = .ok (repos, err) →
      err = none) ∧
    (safePatterns cfg → (∀ p, sys.ctxErr p = none) → ∀ (root : GoString) (maxDepth : Int),
      ∃ repos, ScanPath sys glob cfg root maxDepth = .ok (repos, .nil)) := by
  refine ⟨fun root maxDepth e h => ScanPath_missing sys glob cfg root maxDepth e h, ?_, ?_, ?_⟩
  rotate_left 2
  · intro hsafe hnc root maxDepth
    obtain ⟨extra, res, h, -, hn, -⟩ := ScanPath_spec sys glob cfg root maxDepth hsafe
    rw [hn hnc, List.nil_append] at h
    exact ⟨extra, h⟩
  · intro order iteration hall hiter
    have hfold : order.foldlM (scanRoot sys glob cfg) [] = .ok [] := by
      induction order with
      | nil => rfl
      | cons root rest ih =>
        obtain ⟨e, he⟩ := hall root (List.mem_cons_self _ _)
        simp only [List.foldlM_cons, scanRoot, ScanPath_missing sys glob cfg root cfg.MaxDepth e he,
          bind, Except.bind, pure, Except.pure, ne_eq, not_true_eq_false, if_false, mergeFound,
          List.foldl_nil]
        exact ih (fun r hr => hall r (List.mem_cons_of_mem _ hr))
    have hnil : iteration [] = [] := List.Perm.eq_nil (hiter [])
    simp [Scan, hfold, bind, Except.bind, pure, Except.pure, hnil]
  · intro order iteration repos err h
    unfold Scan at h
    cases hf : order.foldlM (scanRoot sys glob cfg) [] with
    | error p => simp [hf, bind, Except.bind] at h
    | ok seen =>
      simp only [hf, bind, Except.bind, pure, Except.pure] at h
      injection h with h
      injection h with _ h
      exact h.symm

/-- Witness for C25: the sample tree has no `/missing`. -/
theorem Scan_missing_root_witness :
    ScanPath demoScanSys demoGlob demoConfig (str "/missing") 2 = .ok ([], .nil) ∧
    Scan demoScanSys demoGlob demoConfig [str "/missing"] id = .ok ([], none) ∧
    ∃ repos, ScanPath demoScanSys demoGlob demoConfig (str "/r/notes.txt") 2 =
      .ok (repos, .nil) :=
  ⟨(Scan_missing_root demoScanSys demoGlob demoConfig).1 (str "/missing") 2 .notExist rfl,
    (Scan_missing_root demoScanSys demoGlob demoConfig).2.1 [str "/missing"] id
      (fun root hr => ⟨.notExist, by
        simp only [List.mem_singleton] at hr
        subst hr
        rfl⟩)
      (fun m => List.Perm.refl m),
    (Scan_missing_root demoScanSys demoGlob demoConfig).2.2.2 demo_safe (fun _ => rfl)
      (str "/r/notes.txt") 2⟩

/-- Counterexample for C25: the root `/missing` does not exist, and both
`ScanPath` for it and `Scan` over it return the empty list with the nil
error. -/
theorem Scan_missing_root_counterexample :
    demoScanSys.lstat (str "/missing") = .error .notExist ∧
    ScanPath demoScanSys demoGlob demoConfig (str "/missing") demoConfig.MaxDepth =
      .ok ([], .nil) ∧
    Scan demoScanSys demoGlob demoConfig [str "/missing"] id = .ok ([], none) :=
  ⟨rfl, rfl, rfl⟩

/-! ## Batch status: properties -/

theorem GetStatus_outcome (r : Runner) (fs : FileSys) (p : GoString) :
    (∃ st, GetStatus r fs p = .ok (some st, none)) ∨
    (∃ e, GetStatus r fs p = .ok (none, some e)) := by
  cases h : r.exec p statusArgs with
  | error e =>
    right
    exact ⟨e, by simp [GetStatus, runGit_error r p _ e h, pure, Except.pure]⟩
  | ok out =>
    left
    obtain ⟨parsed, owner, a, b, c, d, e, -, h2, -, -⟩ := GetStatusFromOutput_spec r fs p out
    have hg : GetStatus r fs p = GetStatusFromOutput r fs p out := by
      simp only [GetStatus, runGit_ok r p _ out h]
    exact ⟨_, hg.trans h2⟩

theorem putKey_key {β : Type} (m : List (GoString × β)) (k : GoString) (v : β) :
    k ∈ (putKey m k v).map Prod.fst := by
  induction m with
  | nil => simp [putKey]
  | cons x xs ih =>
    obtain ⟨a, w⟩ := x
    unfold putKey
    split_ifs with h
    · simp [h]
    · simp only [List.map_cons, List.mem_cons]
      exact Or.inr ih

theorem putKey_keeps {β : Type} (m : List (GoString × β)) (k q : GoString) (v : β)
    (h : q ∈ m.map Prod.fst) : q ∈ (putKey m k v).map Prod.fst := by
  induction m with
  | nil => simp at h
  | cons x xs ih =>
    obtain ⟨a, w⟩ := x
    simp only [List.map_cons, List.mem_cons] at h
    unfold putKey
    split_ifs with hk
    · simp only [List.map_cons, List.mem_cons]
      exact h
    · simp only [List.map_cons, List.mem_cons]
      rcases h with h | h
      · exact Or.inl h
      · exact Or.inr (ih h)

theorem count_set (l : List Stage) (i : Nat) (a b c : Stage) (h : l.get? i = some a) :
    (l.set i b).count c + (if a = c then 1 else 0) = l.count c + (if b = c then 1 else 0) := by
  induction l generalizing i with
  | nil => simp at h
  | cons x xs ih =>
    cases i with
    | zero =>
      simp only [List.get?_cons_zero, Option.some.injEq] at h
      subst h
      simp only [List.set_cons_zero, List.count_cons, beq_iff_eq]
      omega
    | succ j =>
      simp only [List.get?_cons_succ] at h
      have := ih j h
      simp only [List.set_cons_succ, List.count_cons, beq_iff_eq]
      omega

theorem get?_set_cases (l : List Stage) (i j : Nat) (b x : Stage)
    (h : (l.set i b).get? j = some x) : (j = i ∧ x = b) ∨ l.get? j = some x := by
  induction l generalizing i j with
  | nil => simp at h
  | cons y ys ih =>
    cases i with
    | zero =>
      cases j with
      | zero =>
        simp only [List.set_cons_zero, List.get?_cons_zero, Option.some.injEq] at h
        exact Or.inl ⟨rfl, h.symm⟩
      | succ k =>
        simp only [List.set_cons_zero, List.get?_cons_succ] at h
        exact Or.inr (by simpa using h)
    | succ m =>
      cases j with
      | zero =>
        simp only [List.set_cons_succ, List.get?_cons_zero] at h
        exact Or.inr (by simpa using h)
      | succ k =>
        simp only [List.set_cons_succ, List.get?_cons_succ] at h
        rcases ih m k h with ⟨h1, h2⟩ | h1
        · exact Or.inl ⟨by omega, h2⟩
        · exact Or.inr (by simpa using h1)

theorem batch_init_inv (g : GitReader) (paths : List GoString) :
    Batch.inv g paths {} := by
  refine ⟨by simp, Nat.zero_le _, by simp, Nat.zero_le _, ?_, by simp⟩
  intro i st p h
  simp at h

theorem batchStep_inv (g : GitReader) (r : Runner) (fs : FileSys) (paths : List GoString)
    (s s' : Batch) (a : BatchStep) (hinv : s.inv g paths)
    (h : batchStep g r fs paths s a = some s') : s'.inv g paths := by
  obtain ⟨h1, h2, h3, h4, h5, h6⟩ := hinv
  cases a with
  | spawn =>
    simp only [batchStep] at h
    split_ifs at h with hg
    injection h with h
    subst h
    unfold Batch.inv
    dsimp only
    refine ⟨by simpa [List.count_append] using h1, h2, ?_, ?_, ?_, ?_⟩
    · simp only [List.count_append, List.count_cons, List.count_nil, beq_iff_eq]
      simp
      omega
    · simp only [List.length_append, List.length_singleton]
      omega
    · intro i st p hst hp hpath
      by_cases hi : i < s.stages.length
      · rw [List.get?_eq_getElem?, List.getElem?_append_left hi, ← List.get?_eq_getElem?] at hst
        exact h5 i st p hst hp hpath
      · rw [List.get?_eq_getElem?, List.getElem?_append_right (by omega)] at hst
        have hw : st = .waiting := by
          cases hk : i - s.stages.length with
          | zero => rw [hk] at hst; simpa using hst.symm
          | succ k => rw [hk] at hst; simp at hst
        subst hw
        simp [Stage.processed] at hp
    · intro hr
      simp only [hg.1] at hr
      exact absurd hr (by simp)
  | acquire i =>
    simp only [batchStep] at h
    split_ifs at h with hg
    injection h with h
    subst h
    have cw := count_set s.stages i .waiting .running .waiting hg.1
    have cr := count_set s.stages i .waiting .running .running hg.1
    have cs := count_set s.stages i .waiting .running .stored hg.1
    have cl := count_set s.stages i .waiting .running .released hg.1
    simp only [if_true, reduceCtorEq, if_false, Nat.add_zero] at cw cr cs cl
    unfold Batch.inv
    dsimp only
    refine ⟨?_, ?_, ?_, by simpa using h4, ?_, ?_⟩
    · omega
    · omega
    · omega
    · intro j st p hst hp hpath
      rcases get?_set_cases s.stages i j .running st hst with ⟨-, hb⟩ | hold
      · subst hb
        simp [Stage.processed] at hp
      · exact h5 j st p hold hp hpath
    · intro hr
      have := h6 hr
      exact ⟨by simpa using this.1, this.2⟩
  | store i =>
    simp only [batchStep] at h
    split_ifs at h with hg
    cases hp : paths.get? i with
    | none =>
      rw [hp] at h
      exact absurd h (by simp)
    | some p =>
      rw [hp] at h
      dsimp only at h
      cases hgs : GetStatus r fs p with
      | error e =>
        rw [hgs] at h
        exact absurd h (by simp)
      | ok out =>
        obtain ⟨status, err⟩ := out
        rw [hgs] at h
        dsimp only at h
        injection h with h
        subst h
        have cw := count_set s.stages i .running .stored .waiting hg
        have cr := count_set s.stages i .running .stored .running hg
        have cs := count_set s.stages i .running .stored .stored hg
        have cl := count_set s.stages i .running .stored .released hg
        simp only [if_true, reduceCtorEq, if_false, Nat.add_zero] at cw cr cs cl
        unfold Batch.inv
        dsimp only
        refine ⟨?_, h2, ?_, by simpa using h4, ?_, ?_⟩
        · omega
        · omega
        · intro j st q hst hpr hpath
          have hkeep : ∀ q, (q ∈ s.results.map Prod.fst ∨ q ∈ s.errors.map Prod.fst) →
              (q ∈ (match status with
                  | some st => putKey s.results p st
                  | none => s.results).map Prod.fst ∨
                q ∈ (match err with
                  | some e => putKey s.errors p e
                  | none => s.errors).map Prod.fst) := by
            intro q hq
            rcases hq with hq | hq
            · left
              cases status with
              | none => exact hq
              | some st => exact putKey_keeps _ _ _ _ hq
            · right
              cases err with
              | none => exact hq
              | some e => exact putKey_keeps _ _ _ _ hq
          rcases get?_set_cases s.stages i j .stored st hst with ⟨hj, -⟩ | hold
          · subst hj
            rw [hp] at hpath
            injection hpath with hpath
            subst hpath
            rcases GetStatus_outcome r fs p with ⟨st1, h1'⟩ | ⟨e1, h1'⟩
            · rw [hgs] at h1'
              injection h1' with h1'
              injection h1' with ha hb
              subst ha
              exact Or.inl (putKey_key _ _ _)
            · rw [hgs] at h1'
              injection h1' with h1'
              injection h1' with ha hb
              subst hb
              exact Or.inr (putKey_key _ _ _)
          · exact hkeep q (h5 j st q hold hpr hpath)
        · intro hr
          have := h6 hr
          exact ⟨by simpa using this.1, this.2⟩
  | release i =>
    simp only [batchStep] at h
    split_ifs at h with hg
    injection h with h
    subst h
    have cw := count_set s.stages i .stored .released .waiting hg
    have cr := count_set s.stages i .stored .released .running hg
    have cs := count_set s.stages i .stored .released .stored hg
    have cl := count_set s.stages i .stored .released .released hg
    simp only [if_true, reduceCtorEq, if_false, Nat.add_zero] at cw cr cs cl
    unfold Batch.inv
    dsimp only
    refine ⟨?_, ?_, ?_, by simpa using h4, ?_, ?_⟩
    · omega
    · omega
    · omega
    · intro j st p hst hp hpath
      rcases get?_set_cases s.stages i j .released st hst with ⟨hj, -⟩ | hold
      · subst hj
        exact h5 j .stored p hg rfl hpath
      · exact h5 j st p hold hp hpath
    · intro hr
      have := h6 hr
      exact ⟨by simpa using this.1, this.2⟩
  | finish i =>
    simp only [batchStep] at h
    split_ifs at h with hg
    injection h with h
    subst h
    have cw := count_set s.stages i .released .done .waiting hg
    have cr := count_set s.stages i .released .done .running hg
    have cs := count_set s.stages i .released .done .stored hg
    have cl := count_set s.stages i .released .done .released hg
    simp only [if_true, reduceCtorEq, if_false, Nat.add_zero] at cw cr cs cl
    unfold Batch.inv
    dsimp only
    refine ⟨?_, h2, ?_, by simpa using h4, ?_, ?_⟩
    · omega
    · omega
    · intro j st p hst hp hpath
      rcases get?_set_cases s.stages i j .done st hst with ⟨hj, -⟩ | hold
      · subst hj
        exact h5 j .released p hg rfl hpath
      · exact h5 j st p hold hp hpath
    · intro hr
      have := h6 hr
      refine ⟨by simpa using this.1, ?_⟩
      omega
  | ret =>
    simp only [batchStep] at h
    split_ifs at h with hg
    injection h with h
    subst h
    exact ⟨h1, h2, h3, h4, h5, fun _ => ⟨hg.2.1, hg.2.2⟩⟩

theorem runBatch_inv (g : GitReader) (r : Runner) (fs : FileSys) (paths : List GoString)
    (sched : List BatchStep) :
    ∀ s0 s : Batch, s0.inv g paths → sched.foldlM (batchStep g r fs paths) s0 = some s →
      s.inv g paths := by
  induction sched with
  | nil =>
    intro s0 s h0 h
    simp only [List.foldlM_nil, pure, Option.some.injEq] at h
    exact h ▸ h0
  | cons a rest ih =>
    intro s0 s h0 h
    cases hs : batchStep g r fs paths s0 a with
    | none => simp [List.foldlM_cons, hs] at h
    | some s1 =>
      simp only [List.foldlM_cons, hs, Option.bind_eq_bind, Option.some_bind] at h
      exact ih s1 s (batchStep_inv g r fs paths s0 s1 a h0 hs) h

/-- C29: in every state that any schedule of `GetStatusBatch` on the reader
of `NewGitReader` can reach, for any list of paths, at most 8 invocations of
`GetStatus` are in flight; and in a state in which the call has returned,
every goroutine, one for each path, is done and every path has an outcome in
the status map or in the error map. -/
theorem GetStatusBatch_bounded (r : Runner) (fs : FileSys) (paths : List GoString)
    (sched : List BatchStep) (s : Batch)
    (h : runBatch NewGitReader r fs paths sched = some s) :
    s.inFlight ≤ 8 ∧
    (s.returned = true →
      s.stages = List.replicate paths.length .done ∧
      ∀ p ∈ paths, p ∈ s.results.map Prod.fst ∨ p ∈ s.errors.map Prod.fst) := by
  obtain ⟨h1, h2, h3, h4, h5, h6⟩ :=
    runBatch_inv NewGitReader r fs paths sched {} s (batch_init_inv _ _) h
  have h8 : NewGitReader.concurrency = 8 := rfl
  refine ⟨by unfold Batch.inFlight; omega, ?_⟩
  intro hr
  obtain ⟨hlen, hwg⟩ := h6 hr
  have hall : ∀ st ∈ s.stages, st = Stage.done := by
    intro st hst
    cases st with
    | done => rfl
    | waiting => exact absurd hst (List.count_eq_zero.1 (by omega))
    | running => exact absurd hst (List.count_eq_zero.1 (by omega))
    | stored => exact absurd hst (List.count_eq_zero.1 (by omega))
    | released => exact absurd hst (List.count_eq_zero.1 (by omega))
  refine ⟨?_, ?_⟩
  · rw [← hlen]
    exact List.eq_replicate_iff.2 ⟨rfl, hall⟩
  · intro p hp
    obtain ⟨i, hi, hip⟩ := List.getElem_of_mem hp
    have hi' : i < s.stages.length := by omega
    have hst : s.stages.get? i = some (s.stages[i]) := by
      rw [List.get?_eq_getElem?, List.getElem?_eq_getElem hi']
    have hd : s.stages[i] = Stage.done := hall _ (List.getElem_mem _)
    rw [hd] at hst
    exact h5 i .done p hst rfl (by rw [List.get?_eq_getElem?, List.getElem?_eq_getElem hi, hip])

/-- Witness for C29: two paths under the sequential schedule; the call
returns with both goroutines done. -/
theorem GetStatusBatch_bounded_witness :
    ∃ s, runBatch NewGitReader demoRunner demoFileSys [str "/a", str "/b"]
        (sequentialSchedule 2) = some s ∧
      s.returned = true ∧ s.inFlight ≤ 8 ∧ s.stages = [Stage.done, Stage.done] ∧
      ∀ p ∈ [str "/a", str "/b"], p ∈ s.results.map Prod.fst ∨ p ∈ s.errors.map Prod.fst := by
  have hr : (runBatch NewGitReader demoRunner demoFileSys [str "/a", str "/b"]
      (sequentialSchedule 2)).map (fun s => s.returned) = some true := by decide
  cases h : runBatch NewGitReader demoRunner demoFileSys [str "/a", str "/b"]
      (sequentialSchedule 2) with
  | none =>
    rw [h] at hr
    simp at hr
  | some s =>
    rw [h] at hr
    have hret : s.returned = true := by simpa using hr
    have hb := GetStatusBatch_bounded demoRunner demoFileSys [str "/a", str "/b"]
      (sequentialSchedule 2) s h
    exact ⟨s, rfl, hret, hb.1, (hb.2 hret).1, (hb.2 hret).2⟩

end Gv
